import Mathlib

/-!
# scfind: the Elias-Fano index (`src/eliasFano.cpp`)

A shallow embedding of the class `EliasFanoDB` and of the free functions it
uses, followed by the properties proved about them.

Conventions of the embedding.

* `std::vector<bool>` is `List Bool`, `std::vector<int>` of cell ordinals is
  `List Nat` (the ordinals built by `encodeMatrix` are the positive positions
  `1..n` of a row, so the sign bit is never set); `unsigned int` arithmetic is
  written with an explicit `% 2 ^ 32`.
* `std::unordered_map` and `Rcpp::List` indexed by name are association lists
  with replace-or-append assignment (`assign`); claims about them are stated
  through `find` and membership, never through the iteration order.
* A pointer into `ef_data` (a `std::deque`, whose `push_back` keeps every
  earlier element in place) is the position of the element; a pointer to a node
  of the `std::set<CellType>` pool is the position of the node in insertion
  order.
* The floating point payload of a record (`idf`, `expr`, filled by
  `lognormalcdf`) is not read by the encoder of the bit halves, by the decoder
  or by the queries modelled here, and is left out of the record. What
  `lognormalcdf` does with integers (the accumulation of `mu`, the size of the
  quantile buffer, the positions its loop writes) is modelled by the
  definitions `lognormalcdf.*`.
* An access the source leaves undefined (a vector read or written outside its
  bounds, a conversion to `int` out of range) is `none`.
* The ingest comes twice. `eliasFanoCoding`, `encodeRow` and `encodeMatrix`
  give what the methods do to the fields of the store; they are what the
  properties of `mergeDB` and of the queries build their stores with.
  `eliasFanoCoding.checked`, `encodeRow.checked` and `encodeMatrix.checked`
  add the call of `lognormalcdf` that the source makes for every row with an
  expressing cell, and are `none` where that call is undefined.
* The low width `l` is a shift count: the source is defined for `l < 32` only,
  which the properties below assume where a matrix is ingested. The source
  computes it in floating point; `eliasFanoCoding.l` is that computation with
  the floating point operations as parameters, `efWidth` is its value in
  exact arithmetic, and the properties of the bit halves hold at every width.
-/

namespace ScFind

/-! ## Bit level helpers -/

/-- The record `EliasFano` of the source, restricted to the fields the codec
and the queries read: the unary high part `H`, the packed low part `L` and the
low width `l`. -/
structure EliasFano where
  H : List Bool
  L : List Bool
  l : Nat
  deriving DecidableEq, Repr, Inhabited

/-- Floor of the binary logarithm, by halving; `floorLog2 0 = floorLog2 1 = 0`. -/
def floorLog2Aux : Nat → Nat → Nat
  | 0, _ => 0
  | fuel + 1, n => if 2 ≤ n then floorLog2Aux fuel (n / 2) + 1 else 0

/-- Floor of the binary logarithm of `n` (the fuel `n` is never exhausted). -/
def floorLog2 (n : Nat) : Nat := floorLog2Aux n n

/-- Function `int2bin_core`: `std::bitset<32>(id)`, read through `operator[]`
at a position below 32. -/
def int2bin_core (id : Nat) (i : Nat) : Bool := (id % 2 ^ 32).testBit i

/-- Function `int2bin_bounded`: the pair of the bounded leading-zero count
(`__builtin_clz(id)` is `31 - floorLog2 id` for a non-zero 32-bit `id`) and the
32-bit pattern of `id`. -/
def int2bin_bounded (id : Nat) (min_bit_length : Nat) : Nat × (Nat → Bool) :=
  let bit_set_length := if id = 0 then 0 else 31 - floorLog2 (id % 2 ^ 32)
  (if bit_set_length > min_bit_length then bit_set_length else min_bit_length, int2bin_core id)

/-- Member `resize(m, false)` of `std::vector<bool>`: truncate or pad with
`false`. -/
def resize (v : List Bool) (m : Nat) : List Bool :=
  v.take m ++ List.replicate (m - v.length) false

/-- The value of the width expression `int(log2(items / (float)k) + 0.5) + 1`
of `eliasFanoCoding` in exact arithmetic, for `1 ≤ k ≤ items`:
`floor(log2 r + 1/2) = floor(floor(log2 (2 r²)) / 2)` for `r ≥ 1`, and
`floor(log2 (2 r²)) = floorLog2 ⌊2 items² / k²⌋`. The source evaluates the
expression in floating point (`eliasFanoCoding.l`), which can give one less
where `items / k` is within a rounding error of `2 ^ (m + 1/2)`, as at
`items = 19601`, `k = 13860`. The properties of the bit halves below are
proved at every width. -/
def efWidth (items k : Nat) : Nat :=
  floorLog2 (2 * items * items / (k * k)) / 2 + 1

/-- Loop state of `eliasFanoCoding`: the low buffer written so far, the high
buffer `ef.H` and `prev_indexH`. -/
structure EncState where
  L : List Bool
  H : List Bool
  prev_indexH : Nat
  deriving DecidableEq, Repr

/-- One iteration of the loop of `eliasFanoCoding` over `ids` (lines 244-259).
The `l` writes through `l_iter` into the pre-sized buffer `ef.L` fill the next
`l` slots, which is an append to the part written so far. `H.size()` is never
below `prev_indexH` (it exceeds it by the number of ids written), so the
unsigned subtraction is the natural one. -/
def eliasFanoCoding.step (l : Nat) (s : EncState) (expr : Nat) : EncState :=
  let c := int2bin_bounded expr l
  let L := s.L ++ (List.range l).map c.2
  let upper_bits := expr >>> l
  let m := (s.H.length + upper_bits - s.prev_indexH + 1) % 2 ^ 32
  let H := (resize s.H m).set (m - 1) true
  { L := L, H := H, prev_indexH := upper_bits }

/-- The record built by `eliasFanoCoding` for non-empty `ids` and a row of
`items` cells, before it is pushed to `ef_data`. -/
def eliasFanoRecord (ids : List Nat) (items : Nat) : EliasFano :=
  let l := efWidth items ids.length
  let s := ids.foldl (eliasFanoCoding.step l) { L := [], H := [], prev_indexH := 0 }
  { H := s.H, L := s.L, l := l }

/-- Inner loop of `eliasFanoDecoding` (lines 287-291): the id assembled from
the running high value `H_i` and the `l` low bits of slot `i`. The index
`i * ef.l + k` is an `int` in the source; it is the natural number here, which
is the same for records of fewer than `2 ^ 31` low bits. -/
def eliasFanoDecoding.id (ef : EliasFano) (H_i i : Nat) : Nat :=
  (List.range ef.l).foldl
    (fun id k => id ||| ((ef.L.getD (i * ef.l + k) false).toNat <<< k))
    ((H_i <<< ef.l) % 2 ^ 32)

/-- Outer loop of `eliasFanoDecoding` (lines 280-293), walking the bits of `H`
that follow the previous set bit. `gap` counts the clear bits passed since
then: at the next set bit `std::distance(prev_it, true_it) - 1 = gap`. The loop
ends when `std::find` reaches `H.end()` or when `i` reaches `ids.size()`. -/
def eliasFanoDecoding.loop (ef : EliasFano) :
    List Bool → Nat → Nat → Nat → List Nat → List Nat
  | [], _, _, _, ids => ids
  | true :: rest, gap, H_i, i, ids =>
      if i < ids.length then
        eliasFanoDecoding.loop ef rest 0 ((H_i + gap) % 2 ^ 32) (i + 1)
          (ids.set i (eliasFanoDecoding.id ef ((H_i + gap) % 2 ^ 32) i))
      else ids
  | false :: rest, gap, H_i, i, ids =>
      eliasFanoDecoding.loop ef rest (gap + 1) H_i i ids

/-- Method `eliasFanoDecoding`: `ids` starts as `L.size() / l` zeros and is
filled slot by slot. -/
def eliasFanoDecoding (ef : EliasFano) : List Nat :=
  eliasFanoDecoding.loop ef ef.H 0 0 0 (List.replicate (ef.L.length / ef.l) 0)

/-! ## Containers -/

/-- Lookup in an association list (`find` of a map): the value of the first
entry with key `k`. -/
def find {κ υ : Type} [DecidableEq κ] : List (κ × υ) → κ → Option υ
  | [], _ => none
  | (k', v) :: rest, k => if k' = k then some v else find rest k

/-- Assignment `m[k] = v` of a map or of a named `Rcpp::List`: replace the value
of an existing key in place, otherwise add the entry. -/
def assign {κ υ : Type} [DecidableEq κ] : List (κ × υ) → κ → υ → List (κ × υ)
  | [], k, v => [(k, v)]
  | (k', v') :: rest, k, v =>
      if k' = k then (k, v) :: rest else (k', v') :: assign rest k v

/-- Order of `std::string` (lexicographic on the characters). -/
def strLe (a b : String) : Prop := a.toList ≤ b.toList

instance : DecidableRel strLe := fun a b => inferInstanceAs (Decidable (a.toList ≤ b.toList))

/-- Member `insert` of `std::set<std::string>`: sorted, no duplicates. -/
def strSetInsert (s : List String) (g : String) : List String :=
  if g ∈ s then s else s.orderedInsert strLe g

/-- Member `insert` of `std::set<int>`. -/
def intSetInsert (s : List Nat) (x : Nat) : List Nat :=
  if x ∈ s then s else s.orderedInsert (· ≤ ·) x

/-- Range constructor of `std::set<int>`, also the effect of writing a range
through `std::inserter` into an empty set. -/
def toSet (xs : List Nat) : List Nat := xs.foldl intSetInsert []

/-- The merge loop of `std::set_intersection`; the fuel bounds the number of
steps by the total length of the two ranges. -/
def set_intersection.go : Nat → List Nat → List Nat → List Nat
  | fuel + 1, a :: as, b :: bs =>
      if a < b then set_intersection.go fuel as (b :: bs)
      else if b < a then set_intersection.go fuel (a :: as) bs
      else a :: set_intersection.go fuel as bs
  | _, _, _ => []

/-- Algorithm `std::set_intersection` on two ranges. -/
def set_intersection (xs ys : List Nat) : List Nat :=
  set_intersection.go (xs.length + ys.length) xs ys

/-! ## The store -/

/-- Type `EliasFanoIndex`: cell-type node (position in the pool) to record
(position in `ef_data`). -/
abbrev EliasFanoIndex := List (Nat × Nat)

/-- Type `CellTypeIndex`: gene name to `EliasFanoIndex`. -/
abbrev CellTypeIndex := List (String × EliasFanoIndex)

/-- Type `GeneIndex`: gene name to occurrence count. -/
abbrev GeneIndex := List (String × Nat)

/-- The data members of `EliasFanoDB` (`global_indices` is never read). -/
structure EliasFanoDB where
  metadata : CellTypeIndex
  ef_data : List EliasFano
  cell_types : List String
  gene_counts : GeneIndex
  total_cells : Nat
  warnings : Nat
  deriving DecidableEq, Repr

/-- The constructor: an empty store. -/
def EliasFanoDB.empty : EliasFanoDB :=
  { metadata := [], ef_data := [], cell_types := [], gene_counts := [],
    total_cells := 0, warnings := 0 }

/-- An `Rcpp::NumericMatrix` with row names: the column count and the named
rows. Cell values are integers (expression counts); the index paths read only
their sign and the length of a row. -/
structure NumericMatrix where
  ncol : Nat
  rows : List (String × List Int)
  deriving DecidableEq, Repr

/-- Insertion into the `std::set<CellType>` pool followed by `find`: the pool
after the insertion. A name that is already in the set keeps its node, a new
name gets a new node; no node ever moves or goes away. -/
def intern (pool : List String) (cell_type : String) : List String :=
  if cell_type ∈ pool then pool else pool ++ [cell_type]

/-- Method `insertToDB`: on the error value `-1` only the warning counter
moves; otherwise the gene gets a bucket if it has none, the cell-type name is
interned, and `metadata[gene_name][address]` is pointed at the record. -/
def insertToDB (db : EliasFanoDB) (ef_index : Int) (gene_name cell_type : String) :
    EliasFanoDB :=
  if ef_index = -1 then { db with warnings := db.warnings + 1 }
  else
    let ef := ef_index.toNat
    let metadata :=
      if (find db.metadata gene_name).isNone then assign db.metadata gene_name []
      else db.metadata
    let cell_types := intern db.cell_types cell_type
    let address := cell_types.indexOf cell_type
    { db with
      cell_types := cell_types
      metadata :=
        assign metadata gene_name (assign ((find metadata gene_name).getD []) address ef) }

/-- Method `eliasFanoCoding`, what it does to the fields of the store: `-1` for
empty `ids`, otherwise the record is pushed to `ef_data` and its position
`ef_data.size() - 1` returned. The row `values` enters the bit halves through
its length `items` only. The call `ef.expr = lognormalcdf(ids, values, 2)` of
line 240 is not part of this definition; `eliasFanoCoding.checked` is the
method with the call. -/
def eliasFanoCoding (db : EliasFanoDB) (ids : List Nat) (values : List Int) :
    EliasFanoDB × Int :=
  if ids.isEmpty then (db, -1)
  else
    ({ db with ef_data := db.ef_data ++ [eliasFanoRecord ids values.length] },
      (db.ef_data.length : Int))

/-- The scan of a row in `encodeMatrix` (lines 333-341): the counter `i` is
incremented before the test, so positions are 1-based. -/
def sparse_index : Nat → List Int → List Nat
  | _, [] => []
  | i, expr :: rest =>
      if expr > 0 then (i + 1) :: sparse_index (i + 1) rest else sparse_index (i + 1) rest

/-- Body of the row loop of `encodeMatrix` (lines 331-349). The test `i == 0`
holds exactly for a row without cells. -/
def encodeRow (cell_type : String) (db : EliasFanoDB) (row : String × List Int) :
    EliasFanoDB :=
  if row.2.length = 0 then { db with warnings := db.warnings + 1 }
  else
    let ids := sparse_index 0 row.2
    let count := ((find db.gene_counts row.1).getD 0 + ids.length) % 2 ^ 32
    let db1 := { db with gene_counts := assign db.gene_counts row.1 count }
    let r := eliasFanoCoding db1 ids row.2
    insertToDB r.1 r.2 row.1 cell_type

/-- Method `encodeMatrix` (its return value is always 0). -/
def encodeMatrix (db : EliasFanoDB) (cell_type : String) (gene_matrix : NumericMatrix) :
    EliasFanoDB :=
  let counts := gene_matrix.rows.foldl
    (fun gc row => if (find gc row.1).isNone then assign gc row.1 0 else gc) db.gene_counts
  gene_matrix.rows.foldl (encodeRow cell_type)
    { db with
      total_cells := (db.total_cells + gene_matrix.ncol) % 2 ^ 32
      gene_counts := counts }

/-- Dereference of a pool pointer. The pointers of a well-formed store are
valid; the empty string stands for the target of a dangling one. -/
def cellTypeName (db : EliasFanoDB) (address : Nat) : String :=
  db.cell_types.getD address ""

/-- Dereference of a record pointer. The pointers of a well-formed store are
valid; the empty record stands for the target of a dangling one. -/
def recordAt (db : EliasFanoDB) (ef : Nat) : EliasFano :=
  db.ef_data.getD ef default

/-- Inner loop of `queryGenes` (lines 385-390): the named list `cell_types`
built from the entries of one gene. -/
def queryGenes.cellTypes (db : EliasFanoDB) (gene_meta : EliasFanoIndex) :
    List (String × List Nat) :=
  gene_meta.foldl
    (fun cell_types dat =>
      assign cell_types (cellTypeName db dat.1) (eliasFanoDecoding (recordAt db dat.2)))
    []

/-- Method `queryGenes`; a gene that is not in `metadata` is skipped. -/
def queryGenes (db : EliasFanoDB) (gene_names : List String) :
    List (String × List (String × List Nat)) :=
  gene_names.foldl
    (fun t gene_name =>
      match find db.metadata gene_name with
      | none => t
      | some gene_meta => assign t gene_name (queryGenes.cellTypes db gene_meta))
    []

/-- The expression `*(metadata[g][ct])` of `findCellTypes`. Where the source
evaluates it the gene was collected under the node `ct`, so both lookups
succeed and the defaults are not used. -/
def postingAt (db : EliasFanoDB) (g : String) (ct : Nat) : EliasFano :=
  recordAt db ((find ((find db.metadata g).getD []) ct).getD 0)

/-- Body of the first loop of `findCellTypes` (lines 434-453) for one requested
gene: a gene that is not in `metadata` is ignored; otherwise it is inserted
into the gene set of each of its cell-type nodes and pushed to `genes`. -/
def findCellTypes.visit (db : EliasFanoDB)
    (st : List (Nat × List String) × List String) (gene_name : String) :
    List (Nat × List String) × List String :=
  match find db.metadata gene_name with
  | none => st
  | some idx =>
      (idx.foldl
        (fun cts ct_it =>
          assign cts ct_it.1 (strSetInsert ((find cts ct_it.1).getD []) gene_name))
        st.1,
       st.2 ++ [gene_name])

/-- First loop of `findCellTypes` (lines 432-455): the map from cell-type node
to the set of requested genes that have it, and the vector `genes`. -/
def findCellTypes.collect (db : EliasFanoDB) (gene_names : List String) :
    List (Nat × List String) × List String :=
  gene_names.foldl (findCellTypes.visit db) ([], [])

/-- The intersection loop of `findCellTypes` (lines 468-482); `none` is the
exit through `empty_set = true`. -/
def findCellTypes.intersect (db : EliasFanoDB) (ct : Nat) :
    List Nat → List String → Option (List Nat)
  | int_cells, [] => some int_cells
  | int_cells, g :: gs =>
      let cells := eliasFanoDecoding (postingAt db g ct)
      let new_set := toSet (set_intersection int_cells cells)
      if new_set.length ≠ 0 then findCellTypes.intersect db ct new_set gs else none

/-- Body of the second loop of `findCellTypes` (lines 460-487) for one
cell-type node: the set stored under its name, if one is stored (`none` when
the node is skipped by `continue` or left out through `empty_set`). -/
def findCellTypes.emit (db : EliasFanoDB) (genes : List String) (ct : Nat × List String) :
    Option (List Nat) :=
  if ct.2.length ≠ genes.length then none
  else
    let ef := eliasFanoDecoding (postingAt db (ct.2.headD "") ct.1)
    findCellTypes.intersect db ct.1 (toSet ef) ct.2

/-- The guarded assignment `if (!empty_set) t[name] = value` that ends the
body of the second loop of `findCellTypes`. -/
def assignIf {κ υ : Type} [DecidableEq κ] (t : List (κ × υ)) (k : κ) :
    Option υ → List (κ × υ)
  | none => t
  | some v => assign t k v

/-- Method `findCellTypes`. -/
def findCellTypes (db : EliasFanoDB) (gene_names : List String) :
    List (String × List Nat) :=
  let st := findCellTypes.collect db gene_names
  st.1.foldl
    (fun t ct => assignIf t (cellTypeName db ct.1) (findCellTypes.emit db st.2 ct))
    []

/-- First loop of `mergeDB` (lines 647-656): every record reachable from the
metadata of the copy `extdb` is pushed to the receiver and the copy is
re-pointed at the pushed element. -/
def mergeDB.copy (db : EliasFanoDB) (ef_data : List EliasFano) :
    List EliasFano × CellTypeIndex :=
  db.metadata.foldl
    (fun acc gene =>
      let inner := gene.2.foldl
        (fun (a : List EliasFano × EliasFanoIndex) ct =>
          (a.1 ++ [recordAt db ct.2], a.2 ++ [(ct.1, a.1.length)]))
        (acc.1, [])
      (inner.1, acc.2 ++ [(gene.1, inner.2)]))
    (ef_data, [])

/-- Body of the second loop of `mergeDB` (lines 660-681) for one gene of the
copy `ext`: the count of the gene in `db` is added (`operator[]` yields 0 for
a gene without count), the gene gets a bucket if it has none, and for each of
its entries in the copy the name of the cell type (read through the pointer
into the pool of `db`) is interned into the receiver's pool and
`metadata[gene][node]` is pointed at the copied record. -/
def mergeDB.gene (db : EliasFanoDB) (ext : CellTypeIndex) (self : EliasFanoDB)
    (gene : String × EliasFanoIndex) : EliasFanoDB :=
  let gc0 :=
    if (find self.gene_counts gene.1).isNone then assign self.gene_counts gene.1 0
    else self.gene_counts
  let gc := assign gc0 gene.1
    (((find gc0 gene.1).getD 0 + (find db.gene_counts gene.1).getD 0) % 2 ^ 32)
  let metadata :=
    if (find self.metadata gene.1).isNone then assign self.metadata gene.1 []
    else self.metadata
  ((find ext gene.1).getD []).foldl
    (fun st ct =>
      let cell_types := intern st.cell_types (cellTypeName db ct.1)
      let new_ct := cell_types.indexOf (cellTypeName db ct.1)
      { st with
        cell_types := cell_types
        metadata :=
          assign st.metadata gene.1 (assign ((find st.metadata gene.1).getD []) new_ct ct.2) })
    { self with gene_counts := gc, metadata := metadata }

/-- Method `mergeDB` (its return value is always 0). The local `extdb` is a
member-wise copy of `db`, so the pointers in its metadata refer to the records
and to the pool of `db`. -/
def mergeDB (self db : EliasFanoDB) : EliasFanoDB :=
  let copied := mergeDB.copy db self.ef_data
  copied.2.foldl (mergeDB.gene db copied.2)
    { self with
      total_cells := (self.total_cells + db.total_cells) % 2 ^ 32
      ef_data := copied.1 }

/-- Method `dbSize` (it also prints the number of genes): the size of
`ef_data`, as the `int` it is returned in. -/
def dbSize (db : EliasFanoDB) : Int := (db.ef_data.length : Int)

/-- Method `decode`. The guard `index >= dbSize()` compares two `int`s; after
it `ef_data[index]` converts `index` to the unsigned 64-bit size type. An
access outside the deque is undefined in the source and `none` here. -/
def decode (db : EliasFanoDB) (index : Int) : Option (List Nat) :=
  if index ≥ dbSize db then some []
  else (db.ef_data[(index % 2 ^ 64).toNat]?).map eliasFanoDecoding

/-- The accumulation of line 143 of `lognormalcdf`. The accumulator has the
type `int` of the initial value `0`; `v[index]` reads the 0-based cell `index`
of the row, where `index` runs over `ids`. A read past the end of the row is
undefined in the source and `none` here. Cell values are integers, so the
conversion of the `double` `mean + v[index]` back to `int` keeps the value
when it fits an `int`; when it does not, the conversion is undefined in the
source and `none` here. -/
def lognormalcdf.accumulate (v : List Int) : List Nat → Int → Option Int
  | [], acc => some acc
  | index :: rest, acc =>
      match v[index]? with
      | none => none
      | some x =>
          if -(2 ^ 31) ≤ acc + x ∧ acc + x < 2 ^ 31 then
            lognormalcdf.accumulate v rest (acc + x)
          else none

/-- The member `expr.mu` set by `lognormalcdf` (lines 143-145): the accumulated
`int` divided by `ids.size()`; the `int` is converted to the unsigned 64-bit
size type and the division is the integer one. -/
def lognormalcdf.mu (ids : List Nat) (v : List Int) : Option Nat :=
  (lognormalcdf.accumulate v ids 0).map (fun acc => (acc % 2 ^ 64).toNat / ids.length)

/-- The size given to `expr.quantile` by `resize(ids.size() * bits, 0)`
(line 151). -/
def lognormalcdf.quantile_size (ids : List Nat) (bits : Nat) : Nat := ids.length * bits

/-- The writes `expr.quantile[expr_quantile_i++] = q[i]` of lines 153-161, in
order, as pairs of position and bit. The quantile
`round(normalCDF(s, mu, sigma) * (1 << bits))` of a cell value `s` is a
floating point computation and enters as the parameter `t`. -/
def lognormalcdf.writes (t : Int → Nat) (v : List Int) (bits : Nat) : List (Nat × Bool) :=
  (v.foldl
    (fun (st : Nat × List (Nat × Bool)) s =>
      (List.range bits).foldl
        (fun st i => (st.1 + 1, st.2 ++ [(st.1, int2bin_core (t s) i)])) st)
    (0, [])).2

/-- Function `lognormalcdf` as far as its memory accesses go: `true` exactly
when every read `v[index]` of the accumulation (lines 143-145; the accumulation
of `sigma`, lines 147-149, reads the same cells) is inside the row and every
write `expr.quantile[expr_quantile_i++] = q[i]` (line 158) is inside the buffer
of `ids.size() * bits` entries (line 151). Where it is `false` the call is
undefined in the source. -/
def lognormalcdf.defined (t : Int → Nat) (ids : List Nat) (v : List Int) (bits : Nat) : Bool :=
  (lognormalcdf.accumulate v ids 0).isSome &&
    (lognormalcdf.writes t v bits).all
      (fun w => decide (w.1 < lognormalcdf.quantile_size ids bits))

/-- Function `str_join`. -/
def str_join (elements : List String) (separator : String) : String :=
  separator.intercalate elements

/-- First part of `findMarkerGenes` (lines 495-533): the transactions, one per
cell (ordinal and cell-type node) that expresses a requested gene, each
listing the requested genes expressed in the cell. -/
def findMarkerGenes.transactions (db : EliasFanoDB) (gene_list : List String) :
    List (List String) :=
  let cell_index := (queryGenes db gene_list).foldl
    (fun ci gene_hit =>
      gene_hit.2.foldl
        (fun ci ct =>
          ct.2.foldl
            (fun ci id =>
              assign ci (id, db.cell_types.indexOf ct.1)
                ((find ci (id, db.cell_types.indexOf ct.1)).getD [] ++ [gene_hit.1]))
            ci)
        ci)
    ([] : List ((Nat × Nat) × List String))
  cell_index.map Prod.snd

/-- The local vector `tfidf` of `findMarkerGenes` (lines 540-593): one view
string per pattern reported by the miner `fptree_growth`, the frequent-pattern
collaborator, which is a parameter. The score paired with the string is a
floating point value and is left out. -/
def findMarkerGenes.tfidf (fptree_growth : List (List String) → Nat → List (List String × Nat))
    (db : EliasFanoDB) (gene_list : List String) (min_support_cutoff : Nat) : List String :=
  (fptree_growth (findMarkerGenes.transactions db gene_list) min_support_cutoff).map
    (fun item => str_join item.1 ",")

/-- Method `findMarkerGenes`: it returns the list `t` it declares first. The
loop over the patterns fills `tfidf` and prints; its only statement on `t`
(line 592) is commented out, so every iteration leaves `t` as it is. An entry
would hold the itemset, its support and the cell-type count. -/
def findMarkerGenes (fptree_growth : List (List String) → Nat → List (List String × Nat))
    (db : EliasFanoDB) (gene_list : List String) (min_support_cutoff : Nat) :
    List (List String × Nat × Nat) :=
  (fptree_growth (findMarkerGenes.transactions db gene_list) min_support_cutoff).foldl
    (fun t _ => t) []

/-! ## Specification level definitions and closed forms -/

/-- The high part as a word: for each id, the clear bits of the gap between its
upper value and the previous one, then one set bit. -/
def highBits (l : Nat) : Nat → List Nat → List Bool
  | _, [] => []
  | prev, x :: xs =>
      List.replicate ((x >>> l) - prev) false ++ true :: highBits l (x >>> l) xs

/-- The low part as a word: the `l` low bits of each id, least significant
first. -/
def lowBits (l : Nat) (xs : List Nat) : List Bool :=
  xs.flatMap (fun x => (List.range l).map (fun i => x.testBit i))

/-- The list `[i : v[i] > 0]` of 1-based positions of a row, in increasing
order, as the specification words it. -/
def expressing (v : List Int) : List Nat :=
  ((List.range v.length).filter (fun i => decide (v.getD i 0 > 0))).map (· + 1)

/-- The update of the pool and of the two-level map shared by `insertToDB`
(lines 204-217) and by the inner loop of `mergeDB` (lines 677-680): intern the
name, then point `(gene, node)` at the record `ef`. -/
def link (pool : List String) (md : CellTypeIndex) (gene name : String) (ef : Nat) :
    List String × CellTypeIndex :=
  (intern pool name,
    assign md gene (assign ((find md gene).getD []) ((intern pool name).indexOf name) ef))

/-- Gene `g` has an entry for the cell type named `T` that points at record
`i`. -/
def entryOf (pool : List String) (md : CellTypeIndex) (g T : String) (i : Nat) : Prop :=
  ∃ idx a, find md g = some idx ∧ find idx a = some i ∧ pool[a]? = some T

/-- Representation invariant of pool and two-level map: the pool is a set, the
keys of each map are unique, and every pointer is valid (`n` is the size of
`ef_data`). -/
structure IndexWF (pool : List String) (md : CellTypeIndex) (n : Nat) : Prop where
  pool_nodup : pool.Nodup
  genes_nodup : (md.map Prod.fst).Nodup
  cts_nodup : ∀ g idx, find md g = some idx → (idx.map Prod.fst).Nodup
  valid : ∀ g idx a i, find md g = some idx → find idx a = some i →
    a < pool.length ∧ i < n

/-- Representation invariant of a store. -/
def WF (db : EliasFanoDB) : Prop := IndexWF db.cell_types db.metadata db.ef_data.length

/-- Entry of a store: gene `g` has an entry for the cell type named `T`
pointing at record `i`. -/
def entry (db : EliasFanoDB) (g T : String) (i : Nat) : Prop :=
  entryOf db.cell_types db.metadata g T i

/-- The decoded posting of gene `g` under the cell type named `T` is `p`. -/
def HasPosting (db : EliasFanoDB) (g T : String) (p : List Nat) : Prop :=
  ∃ i, entry db g T i ∧ p = eliasFanoDecoding (recordAt db i)

/-- A decoded posting as the data model wants it: non-empty, strictly
increasing, positive ordinals. -/
def GoodPosting (p : List Nat) : Prop :=
  p ≠ [] ∧ p.Sorted (· < ·) ∧ ∀ x ∈ p, 0 < x

/-- A matrix the index can take without leaving the machine range: every row
has `ncol` cells, `ncol` fits an `int`, and the low width of every row stays
below the word size (so that the shifts by `l` are defined). -/
def NumericMatrix.Valid (M : NumericMatrix) : Prop :=
  M.ncol < 2 ^ 31 ∧
  ∀ row ∈ M.rows, row.2.length = M.ncol ∧
    efWidth M.ncol (sparse_index 0 row.2).length < 32

instance (M : NumericMatrix) : Decidable M.Valid := by
  unfold NumericMatrix.Valid; infer_instance

/-- The stores reachable from the empty store by `encodeMatrix` and `mergeDB`. -/
inductive Reachable : EliasFanoDB → Prop
  | empty : Reachable EliasFanoDB.empty
  | encode (db : EliasFanoDB) (cell_type : String) (M : NumericMatrix) :
      Reachable db → M.Valid → Reachable (encodeMatrix db cell_type M)
  | merge (db other : EliasFanoDB) :
      Reachable db → Reachable other → Reachable (mergeDB db other)

/-- A call that changes a store. -/
inductive Op where
  | encode (cell_type : String) (M : NumericMatrix)
  | merge (other : EliasFanoDB)

/-- The store after a call. -/
def Op.apply (db : EliasFanoDB) : Op → EliasFanoDB
  | Op.encode cell_type M => encodeMatrix db cell_type M
  | Op.merge other => mergeDB db other

/-- The number of cells a call brings: the column count of the matrix, or the
counter of the merged store. -/
def Op.cells : Op → Nat
  | Op.encode _ M => M.ncol
  | Op.merge other => other.total_cells

/-- The store built from the empty store by a sequence of calls. -/
def run (ops : List Op) : EliasFanoDB := ops.foldl Op.apply EliasFanoDB.empty

/-- The entries of one gene after the first loop of `mergeDB`: the same nodes,
pointing at consecutive new positions from `s` on. -/
def renumber (s : Nat) : EliasFanoIndex → EliasFanoIndex
  | [] => []
  | (a, _) :: rest => (a, s) :: renumber (s + 1) rest

/-- The metadata of the copy after the first loop of `mergeDB`, when the
receiver held `s` records before. -/
def copyAll (s : Nat) : CellTypeIndex → CellTypeIndex
  | [] => []
  | (g, idx) :: rest => (g, renumber s idx) :: copyAll (s + idx.length) rest

/-- The records pushed by the first loop of `mergeDB`, in order. -/
def copiedRecords (db : EliasFanoDB) : CellTypeIndex → List EliasFano
  | [] => []
  | (_, idx) :: rest => idx.map (fun ct => recordAt db ct.2) ++ copiedRecords db rest

/-- Repeated `link` for one gene: the effect of the inner loop of `mergeDB` on
the pool and the two-level map. -/
def linkAll (g : String) (es : List (String × Nat)) (st : List String × CellTypeIndex) :
    List String × CellTypeIndex :=
  es.foldl (fun st e => link st.1 st.2 g e.1 e.2) st

/-- Every stored record decodes to a good posting. -/
def AllGood (db : EliasFanoDB) : Prop :=
  ∀ r ∈ db.ef_data, GoodPosting (eliasFanoDecoding r)

/-- Seed scenario 6, first slice: 10 cells, gene `A` expressed in cells 1 and 5. -/
def exampleSlice10 : NumericMatrix :=
  ⟨10, [("A", [1, 0, 0, 0, 1, 0, 0, 0, 0, 0])]⟩

/-- Seed scenario 6, second slice: 20 cells, gene `A` expressed in cells 2, 7
and 9. -/
def exampleSlice20 : NumericMatrix :=
  ⟨20, [("A", [0, 1, 0, 0, 0, 0, 1, 0, 1, 0, 0, 0, 0, 0, 0, 0, 0, 0, 0, 0])]⟩

/-- Store `DB1` of seed scenario 6, its slice ingested under the name `T`. -/
def exampleDB1 : EliasFanoDB := encodeMatrix EliasFanoDB.empty "T" exampleSlice10

/-- Store `DB2` of seed scenario 6, its slice ingested under the same name `T`. -/
def exampleDB2 : EliasFanoDB := encodeMatrix EliasFanoDB.empty "T" exampleSlice20

/-- Store `DB2` of seed scenario 6, its slice ingested under another name `U`. -/
def exampleDB2U : EliasFanoDB := encodeMatrix EliasFanoDB.empty "U" exampleSlice20

/-- Gene `g` has an entry under the cell-type node `a`. -/
def hasNode (db : EliasFanoDB) (g : String) (a : Nat) : Prop :=
  ∃ idx, find db.metadata g = some idx ∧ a ∈ idx.map Prod.fst

/-- Invariant of the first loop of `findCellTypes` after the requested genes
`P`: `genes` holds the requested genes that are in the index, and each node is
mapped to the non-empty duplicate-free set of the requested genes that have
it. -/
def CollectInv (db : EliasFanoDB) (P : List String)
    (st : List (Nat × List String) × List String) : Prop :=
  st.2 = P.filter (fun g => (find db.metadata g).isSome) ∧
  (st.1.map Prod.fst).Nodup ∧
  (∀ a S, find st.1 a = some S → S ≠ [] ∧ S.Nodup ∧ ∀ g, g ∈ S ↔ g ∈ P ∧ hasNode db g a) ∧
  (∀ a, find st.1 a = none → ∀ g ∈ P, ¬ hasNode db g a)

/-- Ceiling of the binary logarithm: the least `c` with `n ≤ 2 ^ c`. -/
def ceilLog2 (n : Nat) : Nat := if n ≤ 1 then 0 else floorLog2 (n - 1) + 1

/-- The positions of the set bits of a bit sequence, in order, counted from
`p` for the first bit. -/
def setBitsFrom (p : Nat) : List Bool → List Nat
  | [] => []
  | b :: bs => if b then p :: setBitsFrom (p + 1) bs else setBitsFrom (p + 1) bs

/-- The store `encodeMatrix` enters its row loop with (lines 315-327): the
cell counter is raised and every row name has a count. -/
def encodeMatrix.init (db : EliasFanoDB) (M : NumericMatrix) : EliasFanoDB :=
  { db with
    total_cells := (db.total_cells + M.ncol) % 2 ^ 32
    gene_counts := M.rows.foldl
      (fun gc row => if (find gc row.1).isNone then assign gc row.1 0 else gc) db.gene_counts }

/-- The arithmetic mean of the values of a row at the 1-based positions `ids`,
as a rational, as the specification words it. -/
def rowMean (ids : List Nat) (v : List Int) : ℚ :=
  ((ids.map (fun j => v.getD (j - 1) 0)).sum : ℚ) / (ids.length : ℚ)

/-- The counts are values of an `unsigned int`. -/
def CountsOK (db : EliasFanoDB) : Prop :=
  ∀ g c, find db.gene_counts g = some c → c < 2 ^ 32

/-! ## The ingest with the call of lognormalcdf

The definitions `eliasFanoCoding`, `encodeRow` and `encodeMatrix` above give
what the methods do to the fields of the store. The method `eliasFanoCoding`
also calls `lognormalcdf` (line 240) to fill the payload `ef.expr` of the
record. The definitions below add that call: the result is `none` where the
call reads or writes outside its buffers, which the source leaves undefined. -/

/-- Method `eliasFanoCoding` with its call `ef.expr = lognormalcdf(ids, values, 2)`
of line 240. Empty `ids` return `-1` before the call (line 226). -/
def eliasFanoCoding.checked (t : Int → Nat) (db : EliasFanoDB) (ids : List Nat)
    (values : List Int) : Option (EliasFanoDB × Int) :=
  if ids.isEmpty then some (db, -1)
  else if lognormalcdf.defined t ids values 2 then some (eliasFanoCoding db ids values)
  else none

/-- Body of the row loop of `encodeMatrix` (lines 331-349) with the call of
`lognormalcdf` inside `eliasFanoCoding`. -/
def encodeRow.checked (t : Int → Nat) (cell_type : String) (db : EliasFanoDB)
    (row : String × List Int) : Option EliasFanoDB :=
  if row.2.length = 0 then some { db with warnings := db.warnings + 1 }
  else
    let ids := sparse_index 0 row.2
    let count := ((find db.gene_counts row.1).getD 0 + ids.length) % 2 ^ 32
    let db1 := { db with gene_counts := assign db.gene_counts row.1 count }
    match eliasFanoCoding.checked t db1 ids row.2 with
    | none => none
    | some r => some (insertToDB r.1 r.2 row.1 cell_type)

/-- Method `encodeMatrix` with the call of `lognormalcdf` inside
`eliasFanoCoding`: the row loop stops being defined at the first row whose
call is undefined. -/
def encodeMatrix.checked (t : Int → Nat) (db : EliasFanoDB) (cell_type : String)
    (gene_matrix : NumericMatrix) : Option EliasFanoDB :=
  gene_matrix.rows.foldl
    (fun st row => st.bind (fun db => encodeRow.checked t cell_type db row))
    (some (encodeMatrix.init db gene_matrix))

/-- A row of 200 cells whose only expressing cell is cell 42. -/
def exampleRow200 : List Int := List.replicate 41 0 ++ 1 :: List.replicate 158 0

/-! ## The low width in floating point -/

/-- The floating point operations of the width expression
`int(log2(items / (float)ids.size()) + 0.5) + 1` (line 232), as functions to
the rationals (every finite floating point number is a rational). `div items k`
is `items / (float)k`: both operands converted to `float` and the quotient
rounded to `float`. `log2` is the function of the C library. `addHalf x` is
`x + 0.5`, rounded to `double`. Their values are fixed by the platform, not by
the source, so they are parameters. -/
structure FloatOps where
  div : Nat → Nat → ℚ
  log2 : ℚ → ℚ
  addHalf : ℚ → ℚ

/-- What rounding to nearest gives for the operations of a `FloatOps`, on the
arguments an `int` row length allows: a result never crosses a representable
bound of the exact value. The bounds used are powers of two up to `2 ^ 31` for
the quotient, the integers up to 31 for the logarithm, and these integers plus
one half for the sum. -/
structure FloatOps.Rounds (ops : FloatOps) : Prop where
  div_le : ∀ items k c : Nat, 0 < k → items < 2 ^ 31 → c ≤ 31 → items ≤ 2 ^ c * k →
    ops.div items k ≤ 2 ^ c
  div_ge : ∀ items k c : Nat, 0 < k → items < 2 ^ 31 → c ≤ 31 → 2 ^ c * k ≤ items →
    (2 : ℚ) ^ c ≤ ops.div items k
  log2_le : ∀ (q : ℚ) (c : Nat), c ≤ 31 → 0 < q → q ≤ 2 ^ c → ops.log2 q ≤ c
  log2_ge : ∀ (q : ℚ) (c : Nat), c ≤ 31 → (2 : ℚ) ^ c ≤ q → (c : ℚ) ≤ ops.log2 q
  addHalf_le : ∀ (x : ℚ) (c : Nat), c ≤ 31 → x ≤ c → ops.addHalf x ≤ c + 1 / 2
  addHalf_ge : ∀ (x : ℚ) (c : Nat), c ≤ 31 → (c : ℚ) ≤ x → (c : ℚ) + 1 / 2 ≤ ops.addHalf x

/-- The conversion `int(x)` of a `double`: truncation towards zero. -/
def truncInt (x : ℚ) : Int := if 0 ≤ x then ⌊x⌋ else ⌈x⌉

/-- The low width `ef.l = int(log2(items / (float)ids.size()) + 0.5) + 1` of
`eliasFanoCoding` (line 232), computed with the floating point operations
`ops`. -/
def eliasFanoCoding.l (ops : FloatOps) (items k : Nat) : Int :=
  truncInt (ops.addHalf (ops.log2 (ops.div items k))) + 1

/-- Operations without rounding error, with the logarithm cut to an integer:
an instance of `FloatOps` that rounds as `FloatOps.Rounds` asks. -/
def exactOps : FloatOps :=
  { div := fun items k => (items : ℚ) / (k : ℚ)
    log2 := fun q => (floorLog2 ⌊q⌋₊ : ℚ)
    addHalf := fun x => x + 1 / 2 }

/-! ## Properties -/

/-! ### The codec -/

theorem resize_set_grow (v : List Bool) (g : Nat) :
    (resize v (v.length + g + 1)).set (v.length + g + 1 - 1) true
      = v ++ List.replicate g false ++ [true] := by
  unfold resize
  have h1 : v.length + g + 1 - v.length = g + 1 := by omega
  rw [List.take_of_length_le (by omega), h1, List.replicate_succ', ← List.append_assoc]
  have h2 : v.length + g + 1 - 1 = (v ++ List.replicate g false).length := by simp
  rw [h2, List.set_append_right _ _ (le_refl _)]
  simp

theorem shiftRight_mono (l : Nat) {a b : Nat} (h : a ≤ b) : a >>> l ≤ b >>> l := by
  simp only [Nat.shiftRight_eq_div_pow]
  exact Nat.div_le_div_right h

theorem shiftRight_le_self (l a : Nat) : a >>> l ≤ a := by
  simp only [Nat.shiftRight_eq_div_pow]
  exact Nat.div_le_self _ _

theorem int2bin_core_eq (x i : Nat) (hx : x < 2 ^ 32) : int2bin_core x i = x.testBit i := by
  unfold int2bin_core
  rw [Nat.mod_eq_of_lt hx]

/-- One encoder step on an id whose upper value is not below the previous one:
`l` low bits are appended to `L`, the gap and a set bit to `H`. -/
theorem step_eq (l : Nat) (s : EncState) (c x : Nat)
    (hlen : s.H.length = s.prev_indexH + c) (hprev : s.prev_indexH ≤ x >>> l)
    (hx : x < 2 ^ 31) (hc : c < 2 ^ 31) :
    eliasFanoCoding.step l s x =
      { L := s.L ++ (List.range l).map (fun i => x.testBit i),
        H := s.H ++ List.replicate ((x >>> l) - s.prev_indexH) false ++ [true],
        prev_indexH := x >>> l } := by
  have hu : x >>> l ≤ x := shiftRight_le_self l x
  have hm : s.H.length + x >>> l - s.prev_indexH + 1
      = s.H.length + ((x >>> l) - s.prev_indexH) + 1 := by omega
  have hlt : s.H.length + ((x >>> l) - s.prev_indexH) + 1 < 2 ^ 32 := by omega
  unfold eliasFanoCoding.step
  simp only [hm, Nat.mod_eq_of_lt hlt, resize_set_grow]
  congr 2
  apply List.map_congr_left
  intro i _
  simp only [int2bin_bounded]
  exact int2bin_core_eq x i (by omega)

/-- The two buffers after the encoder loop over a strictly increasing list. -/
theorem encode_fold (l : Nat) (xs : List Nat) : ∀ (s : EncState) (c : Nat),
    s.H.length = s.prev_indexH + c →
    xs.Sorted (· < ·) → (∀ x ∈ xs, s.prev_indexH ≤ x >>> l) →
    (∀ x ∈ xs, x < 2 ^ 31) → c + xs.length < 2 ^ 31 →
    (xs.foldl (eliasFanoCoding.step l) s).L = s.L ++ lowBits l xs ∧
    (xs.foldl (eliasFanoCoding.step l) s).H = s.H ++ highBits l s.prev_indexH xs := by
  induction xs with
  | nil => intro s c _ _ _ _ _; simp [lowBits, highBits]
  | cons x xs ih =>
    intro s c hlen hs hprev hx hc
    have hx0 := hx x (List.mem_cons_self _ _)
    have hp0 := hprev x (List.mem_cons_self _ _)
    rw [List.sorted_cons] at hs
    simp only [List.length_cons] at hc
    rw [List.foldl_cons, step_eq l s c x hlen hp0 hx0 (by omega)]
    have key := ih
      { L := s.L ++ (List.range l).map (fun i => x.testBit i),
        H := s.H ++ List.replicate ((x >>> l) - s.prev_indexH) false ++ [true],
        prev_indexH := x >>> l } (c + 1)
      (by simp only [List.length_append, List.length_replicate, List.length_singleton]; omega)
      hs.2 (fun y hy => shiftRight_mono l (le_of_lt (hs.1 y hy)))
      (fun y hy => hx y (List.mem_cons_of_mem _ hy)) (by omega)
    rw [key.1, key.2]
    constructor
    · simp [lowBits, List.flatMap_cons, List.append_assoc]
    · simp [highBits, List.append_assoc]

theorem loop_skip (ef : EliasFano) (g : Nat) (rest : List Bool) :
    ∀ (gap H_i i : Nat) (ids : List Nat),
    eliasFanoDecoding.loop ef (List.replicate g false ++ rest) gap H_i i ids
      = eliasFanoDecoding.loop ef rest (gap + g) H_i i ids := by
  induction g with
  | zero => intro gap H_i i ids; simp
  | succ g ih =>
    intro gap H_i i ids
    rw [List.replicate_succ, List.cons_append, eliasFanoDecoding.loop, ih]
    congr 1
    omega

theorem toNat_testBit (b : Bool) (m : Nat) : b.toNat.testBit m = (decide (m = 0) && b) := by
  cases b
  · simp
  · cases m with
    | zero => simp
    | succ m => simp [Nat.testBit_succ]

theorem testBit_foldl_or (b : Nat → Bool) (n : Nat) : ∀ (a j : Nat),
    ((List.range n).foldl (fun id k => id ||| ((b k).toNat <<< k)) a).testBit j
      = (a.testBit j || (decide (j < n) && b j)) := by
  induction n with
  | zero => intro a j; simp
  | succ n ih =>
    intro a j
    rw [List.range_succ, List.foldl_append, List.foldl_cons, List.foldl_nil,
      Nat.testBit_or, ih, Nat.testBit_shiftLeft, toNat_testBit]
    by_cases h1 : j < n
    · have h2 : ¬ j ≥ n := by omega
      have h3 : j < n + 1 := by omega
      simp [h1, h2, h3]
    · by_cases h4 : j = n
      · subst h4; simp
      · have h5 : ¬ j < n + 1 := by omega
        have h6 : j - n ≠ 0 := by omega
        simp [h1, h5, h6]

/-- The id assembled by the decoder from the upper value of `x` and a slot
holding the low bits of `x` is `x`. -/
theorem id_eq (ef : EliasFano) (x i : Nat) (hx : x < 2 ^ 32)
    (hL : ∀ k, k < ef.l → ef.L.getD (i * ef.l + k) false = x.testBit k) :
    eliasFanoDecoding.id ef (x >>> ef.l) i = x := by
  have hle : (x >>> ef.l) <<< ef.l ≤ x := by
    rw [Nat.shiftLeft_eq, Nat.shiftRight_eq_div_pow]
    exact Nat.div_mul_le_self x (2 ^ ef.l)
  apply Nat.eq_of_testBit_eq
  intro j
  unfold eliasFanoDecoding.id
  rw [testBit_foldl_or (fun k => ef.L.getD (i * ef.l + k) false), Nat.mod_eq_of_lt (by omega),
    Nat.testBit_shiftLeft, Nat.testBit_shiftRight]
  by_cases h : j < ef.l
  · have h2 : ¬ j ≥ ef.l := by omega
    have e := hL j h
    simp only [List.getD_eq_getElem?_getD] at e
    simp [h, h2, e]
  · have h2 : j ≥ ef.l := by omega
    have h3 : ef.l + (j - ef.l) = j := by omega
    simp [h, h2, h3]

theorem getD_lowBits (l : Nat) (Lp Ls : List Bool) (x : Nat) (k : Nat) (hk : k < l) :
    (Lp ++ ((List.range l).map (fun i => x.testBit i) ++ Ls)).getD (Lp.length + k) false
      = x.testBit k := by
  rw [List.getD_eq_getElem?_getD, List.getElem?_append_right (by omega)]
  have h1 : Lp.length + k - Lp.length = k := by omega
  rw [h1, List.getElem?_append_left (by simpa using hk)]
  simp [List.getElem?_range hk]

/-- The decoder loop on the high word of `xs`, with the slots before `i`
already filled, fills the remaining slots with `xs`. -/
theorem loop_highBits (ef : EliasFano) (xs : List Nat) :
    ∀ (prev : Nat) (done zs : List Nat) (Lp Ls : List Bool),
    zs.length = xs.length → Lp.length = done.length * ef.l →
    ef.L = Lp ++ (lowBits ef.l xs ++ Ls) →
    xs.Sorted (· < ·) → (∀ x ∈ xs, prev ≤ x >>> ef.l) → (∀ x ∈ xs, x < 2 ^ 31) →
    eliasFanoDecoding.loop ef (highBits ef.l prev xs) 0 prev done.length (done ++ zs)
      = done ++ xs := by
  induction xs with
  | nil =>
    intro prev done zs Lp Ls hz _ _ _ _ _
    have : zs = [] := List.length_eq_zero.mp hz
    simp [highBits, eliasFanoDecoding.loop, this]
  | cons x xs ih =>
    intro prev done zs Lp Ls hz hLp hL hs hprev hx
    obtain ⟨z, zs, rfl⟩ := List.exists_cons_of_length_eq_add_one hz
    have hx0 := hx x (List.mem_cons_self _ _)
    have hp0 := hprev x (List.mem_cons_self _ _)
    have hu : x >>> ef.l ≤ x := shiftRight_le_self ef.l x
    rw [List.sorted_cons] at hs
    have hi : done.length < (done ++ z :: zs).length := by simp
    have hH : (prev + (0 + (x >>> ef.l - prev))) % 2 ^ 32 = x >>> ef.l := by
      rw [Nat.mod_eq_of_lt (by omega)]; omega
    have hid : eliasFanoDecoding.id ef (x >>> ef.l) done.length = x := by
      apply id_eq ef x done.length (by omega)
      intro k hk
      rw [hL, ← hLp]
      simp only [lowBits, List.flatMap_cons, List.append_assoc]
      exact getD_lowBits ef.l Lp _ x k hk
    rw [highBits, loop_skip, eliasFanoDecoding.loop, if_pos hi, hH, hid]
    have hset : (done ++ z :: zs).set done.length x = (done ++ [x]) ++ zs := by
      rw [List.set_append_right _ _ (le_refl _)]; simp
    have hlen : done.length + 1 = (done ++ [x]).length := by simp
    rw [hset, hlen,
      ih (x >>> ef.l) (done ++ [x]) zs (Lp ++ (List.range ef.l).map (fun i => x.testBit i)) Ls
        (by simpa using hz)
        (by simp [hLp, Nat.add_mul])
        (by rw [hL]; simp [lowBits, List.flatMap_cons, List.append_assoc])
        hs.2 (fun y hy => shiftRight_mono ef.l (le_of_lt (hs.1 y hy)))
        (fun y hy => hx y (List.mem_cons_of_mem _ hy))]
    simp

theorem length_lowBits (l : Nat) (xs : List Nat) : (lowBits l xs).length = l * xs.length := by
  induction xs with
  | nil => simp [lowBits]
  | cons x xs ih =>
    simp only [lowBits, List.flatMap_cons, List.length_append, List.length_map,
      List.length_range, List.length_cons] at ih ⊢
    rw [ih]; ring

/-- Round trip of the two loops at any low width `l ≥ 1`. -/
theorem decode_encode_width (l : Nat) (xs : List Nat) (hl : 1 ≤ l)
    (hs : xs.Sorted (· < ·)) (hx : ∀ x ∈ xs, x < 2 ^ 31) (hk : xs.length < 2 ^ 31) :
    eliasFanoDecoding
      { H := (xs.foldl (eliasFanoCoding.step l) { L := [], H := [], prev_indexH := 0 }).H,
        L := (xs.foldl (eliasFanoCoding.step l) { L := [], H := [], prev_indexH := 0 }).L,
        l := l } = xs := by
  obtain ⟨eL, eH⟩ := encode_fold l xs { L := [], H := [], prev_indexH := 0 } 0 rfl hs
    (fun _ _ => Nat.zero_le _) hx (by omega)
  simp only [List.nil_append] at eL eH
  rw [eL, eH]
  unfold eliasFanoDecoding
  simp only
  have hdiv : (lowBits l xs).length / l = xs.length := by
    rw [length_lowBits]; exact Nat.mul_div_cancel_left _ (by omega)
  rw [hdiv]
  have := loop_highBits { H := highBits l 0 xs, L := lowBits l xs, l := l } xs 0 []
    (List.replicate xs.length 0) [] [] (by simp) (by simp) (by simp) hs
    (fun _ _ => Nat.zero_le _) hx
  simpa using this

theorem efWidth_pos (items k : Nat) : 1 ≤ efWidth items k := by
  unfold efWidth; omega

/-- A strictly increasing list of positive numbers bounded by `n` has at most
`n` elements. -/
theorem length_le_of_sorted (xs : List Nat) (n : Nat) (hs : xs.Sorted (· < ·))
    (hpos : ∀ a ∈ xs, 0 < a) (hmax : ∀ a ∈ xs, a ≤ n) : xs.length ≤ n := by
  have hnd : xs.Nodup := hs.imp (fun h => Nat.ne_of_lt h)
  have hsub : xs ⊆ List.range' 1 n := by
    intro a ha
    rw [List.mem_range'_1]
    exact ⟨hpos a ha, by have := hmax a ha; omega⟩
  have := (hnd.subperm hsub).length_le
  simpa using this

/-- Round trip of the record built for `ids` and a row of `items` cells. -/
theorem decode_eliasFanoRecord (xs : List Nat) (items : Nat)
    (hs : xs.Sorted (· < ·)) (hpos : ∀ a ∈ xs, 0 < a) (hmax : ∀ a ∈ xs, a ≤ items)
    (hn : items < 2 ^ 31) :
    eliasFanoDecoding (eliasFanoRecord xs items) = xs := by
  have hk := length_le_of_sorted xs items hs hpos hmax
  exact decode_encode_width (efWidth items xs.length) xs (efWidth_pos _ _) hs
    (fun x hx => lt_of_le_of_lt (hmax x hx) hn) (by omega)

/-! ### Association lists -/

section Assoc

variable {κ υ : Type} [DecidableEq κ]

theorem find_assign_self (m : List (κ × υ)) (k : κ) (v : υ) :
    find (assign m k v) k = some v := by
  induction m with
  | nil => simp [assign, find]
  | cons e m ih =>
    obtain ⟨k', v'⟩ := e
    by_cases h : k' = k
    · simp [assign, find, h]
    · simp [assign, find, h, ih]

theorem find_assign_ne (m : List (κ × υ)) (k k' : κ) (v : υ) (h : k' ≠ k) :
    find (assign m k v) k' = find m k' := by
  induction m with
  | nil => simp [assign, find, Ne.symm h]
  | cons e m ih =>
    obtain ⟨k₁, v₁⟩ := e
    by_cases h1 : k₁ = k
    · subst h1
      simp [assign, find, Ne.symm h]
    · by_cases h2 : k₁ = k'
      · subst h2
        simp [assign, find, h1]
      · simp [assign, find, h1, h2, ih]

theorem find_assign (m : List (κ × υ)) (k k' : κ) (v : υ) :
    find (assign m k v) k' = if k' = k then some v else find m k' := by
  by_cases h : k' = k
  · subst h; simp [find_assign_self]
  · simp [h, find_assign_ne m k k' v h]

theorem find_eq_none_iff (m : List (κ × υ)) (k : κ) :
    find m k = none ↔ k ∉ m.map Prod.fst := by
  induction m with
  | nil => simp [find]
  | cons e m ih =>
    obtain ⟨k', v'⟩ := e
    by_cases h : k' = k
    · simp [find, h]
    · simp [find, h, ih, Ne.symm h]

theorem find_isSome_iff (m : List (κ × υ)) (k : κ) :
    (find m k).isSome ↔ k ∈ m.map Prod.fst := by
  rw [← not_iff_not, ← find_eq_none_iff]
  cases find m k <;> simp

theorem mem_of_find {m : List (κ × υ)} {k : κ} {v : υ} (h : find m k = some v) :
    (k, v) ∈ m := by
  induction m with
  | nil => simp [find] at h
  | cons e m ih =>
    obtain ⟨k', v'⟩ := e
    by_cases h1 : k' = k
    · simp [find, h1] at h; simp [h1, h]
    · simp [find, h1] at h; exact List.mem_cons_of_mem _ (ih h)

theorem find_of_mem {m : List (κ × υ)} {k : κ} {v : υ} (hnd : (m.map Prod.fst).Nodup)
    (h : (k, v) ∈ m) : find m k = some v := by
  induction m with
  | nil => simp at h
  | cons e m ih =>
    obtain ⟨k', v'⟩ := e
    simp only [List.map_cons, List.nodup_cons] at hnd
    rcases List.mem_cons.mp h with h1 | h1
    · injection h1 with h2 h3
      subst h2; subst h3
      simp [find]
    · have hk : k ∈ m.map Prod.fst := List.mem_map.mpr ⟨(k, v), h1, rfl⟩
      have hne : k' ≠ k := fun e => hnd.1 (e ▸ hk)
      simp [find, hne, ih hnd.2 h1]

theorem assign_of_not_mem (m : List (κ × υ)) (k : κ) (v : υ) (h : k ∉ m.map Prod.fst) :
    assign m k v = m ++ [(k, v)] := by
  induction m with
  | nil => simp [assign]
  | cons e m ih =>
    obtain ⟨k', v'⟩ := e
    simp only [List.map_cons, List.mem_cons, not_or] at h
    simp [assign, Ne.symm h.1, ih h.2]

theorem keys_assign_of_mem (m : List (κ × υ)) (k : κ) (v : υ) (h : k ∈ m.map Prod.fst) :
    (assign m k v).map Prod.fst = m.map Prod.fst := by
  induction m with
  | nil => simp at h
  | cons e m ih =>
    obtain ⟨k', v'⟩ := e
    by_cases h1 : k' = k
    · simp [assign, h1]
    · have : k ∈ m.map Prod.fst := by
        simp only [List.map_cons, List.mem_cons] at h
        rcases h with h | h
        · exact absurd h.symm h1
        · exact h
      simp [assign, h1, ih this]

theorem nodup_keys_assign (m : List (κ × υ)) (k : κ) (v : υ)
    (h : (m.map Prod.fst).Nodup) : ((assign m k v).map Prod.fst).Nodup := by
  by_cases hk : k ∈ m.map Prod.fst
  · rw [keys_assign_of_mem m k v hk]; exact h
  · rw [assign_of_not_mem m k v hk, List.map_append]
    simp only [List.map_cons, List.map_nil]
    rw [List.nodup_append]
    refine ⟨h, List.nodup_singleton _, ?_⟩
    intro a ha hb
    simp only [List.mem_singleton] at hb
    exact hk (hb ▸ ha)

end Assoc

/-! ### The pool and the two-level map -/

theorem getElem?_eq_some_iff_indexOf {l : List String} (hnd : l.Nodup) (a : Nat) (x : String) :
    l[a]? = some x ↔ x ∈ l ∧ a = l.indexOf x := by
  constructor
  · intro h
    obtain ⟨ha, hx⟩ := List.getElem?_eq_some_iff.mp h
    subst hx
    exact ⟨List.getElem_mem ha, (List.indexOf_getElem hnd a ha).symm⟩
  · rintro ⟨hx, rfl⟩
    have hlt : l.indexOf x < l.length := List.indexOf_lt_length.mpr hx
    rw [List.getElem?_eq_getElem hlt, List.getElem_indexOf hlt]

theorem intern_nodup {pool : List String} (name : String) (h : pool.Nodup) :
    (intern pool name).Nodup := by
  unfold intern
  split
  · exact h
  · rename_i hn
    rw [List.nodup_append]
    refine ⟨h, List.nodup_singleton _, ?_⟩
    intro a ha hb
    simp only [List.mem_singleton] at hb
    exact hn (hb ▸ ha)

theorem mem_intern_self (pool : List String) (name : String) : name ∈ intern pool name := by
  unfold intern
  split
  · assumption
  · simp

theorem intern_eq_append (pool : List String) (name : String) :
    ∃ t, intern pool name = pool ++ t := by
  unfold intern
  split
  · exact ⟨[], by simp⟩
  · exact ⟨[name], rfl⟩

theorem length_le_intern (pool : List String) (name : String) :
    pool.length ≤ (intern pool name).length := by
  obtain ⟨t, ht⟩ := intern_eq_append pool name
  rw [ht]; simp

theorem getElem?_intern_of_lt (pool : List String) (name : String) (a : Nat)
    (ha : a < pool.length) : (intern pool name)[a]? = pool[a]? := by
  obtain ⟨t, ht⟩ := intern_eq_append pool name
  rw [ht, List.getElem?_append_left ha]

theorem getElem?_intern_name {pool : List String} (hnd : pool.Nodup) (name : String) (a : Nat) :
    (intern pool name)[a]? = some name ↔ a = (intern pool name).indexOf name := by
  rw [getElem?_eq_some_iff_indexOf (intern_nodup name hnd)]
  simp [mem_intern_self]

theorem IndexWF.mono {pool : List String} {md : CellTypeIndex} {n n' : Nat}
    (h : IndexWF pool md n) (hn : n ≤ n') : IndexWF pool md n' :=
  ⟨h.pool_nodup, h.genes_nodup, h.cts_nodup,
    fun g idx a i h1 h2 => ⟨(h.valid g idx a i h1 h2).1, lt_of_lt_of_le (h.valid g idx a i h1 h2).2 hn⟩⟩

theorem find_link (pool : List String) (md : CellTypeIndex) (g name : String) (ef : Nat)
    (g' : String) :
    find (link pool md g name ef).2 g' =
      if g' = g then
        some (assign ((find md g).getD []) ((intern pool name).indexOf name) ef)
      else find md g' := by
  unfold link
  exact find_assign _ _ _ _

/-- Entries after `link`: the linked entry is new, every other entry is kept. -/
theorem entryOf_link {pool : List String} {md : CellTypeIndex} {n : Nat}
    (h : IndexWF pool md n) (g name : String) (ef : Nat) (g' T : String) (i : Nat) :
    entryOf (link pool md g name ef).1 (link pool md g name ef).2 g' T i ↔
      (g' = g ∧ T = name ∧ i = ef) ∨ (¬ (g' = g ∧ T = name) ∧ entryOf pool md g' T i) := by
  have hpool : (link pool md g name ef).1 = intern pool name := rfl
  unfold entryOf
  rw [hpool]
  by_cases hg : g' = g
  · subst hg
    simp only [find_link, if_true, true_and]
    constructor
    · rintro ⟨idx, a, hidx, hfa, hT⟩
      injection hidx with hidx
      subst hidx
      rw [find_assign] at hfa
      by_cases ha : a = (intern pool name).indexOf name
      · rw [if_pos ha] at hfa
        injection hfa with hfa
        left
        have := (getElem?_intern_name h.pool_nodup name a).mpr ha
        rw [this] at hT
        injection hT with hT
        exact ⟨hT.symm, hfa.symm⟩
      · rw [if_neg ha] at hfa
        right
        cases hmd : find md g' with
        | none => rw [hmd] at hfa; simp [find] at hfa
        | some idx0 =>
          rw [hmd] at hfa
          simp only [Option.getD_some] at hfa
          have hv := (h.valid g' idx0 a i hmd hfa).1
          rw [getElem?_intern_of_lt pool name a hv] at hT
          refine ⟨?_, idx0, a, rfl, hfa, hT⟩
          intro hTn
          subst hTn
          rw [← getElem?_intern_of_lt pool T a hv] at hT
          exact ha ((getElem?_intern_name h.pool_nodup T a).mp hT)
    · rintro (⟨rfl, rfl⟩ | ⟨hne, idx0, a, hmd, hfa, hT⟩)
      · refine ⟨_, (intern pool T).indexOf T, rfl, find_assign_self _ _ _, ?_⟩
        exact (getElem?_intern_name h.pool_nodup T _).mpr rfl
      · have hv := (h.valid g' idx0 a i hmd hfa).1
        have hT' : (intern pool name)[a]? = some T := by
          rw [getElem?_intern_of_lt pool name a hv]; exact hT
        have ha : a ≠ (intern pool name).indexOf name := by
          intro e
          have := (getElem?_intern_name h.pool_nodup name a).mpr e
          rw [this] at hT'
          injection hT' with hT'
          exact hne hT'.symm
        refine ⟨_, a, rfl, ?_, hT'⟩
        rw [find_assign, if_neg ha, hmd]
        exact hfa
  · simp only [find_link, if_neg hg, hg, false_and, not_false_eq_true, true_and, false_or]
    constructor
    · rintro ⟨idx, a, hidx, hfa, hT⟩
      have hv := (h.valid g' idx a i hidx hfa).1
      rw [getElem?_intern_of_lt pool name a hv] at hT
      exact ⟨idx, a, hidx, hfa, hT⟩
    · rintro ⟨idx, a, hidx, hfa, hT⟩
      have hv := (h.valid g' idx a i hidx hfa).1
      rw [← getElem?_intern_of_lt pool name a hv] at hT
      exact ⟨idx, a, hidx, hfa, hT⟩

/-- Member `link` keeps the representation invariant when the record exists. -/
theorem IndexWF.link {pool : List String} {md : CellTypeIndex} {n : Nat}
    (h : IndexWF pool md n) (g name : String) (ef : Nat) (hef : ef < n) :
    IndexWF (ScFind.link pool md g name ef).1 (ScFind.link pool md g name ef).2 n := by
  have hpool : (ScFind.link pool md g name ef).1 = intern pool name := rfl
  refine ⟨intern_nodup name h.pool_nodup, ?_, ?_, ?_⟩
  · exact nodup_keys_assign _ _ _ h.genes_nodup
  · intro g' idx hidx
    rw [find_link] at hidx
    by_cases hg : g' = g
    · rw [if_pos hg] at hidx
      injection hidx with hidx
      subst hidx
      apply nodup_keys_assign
      cases hmd : find md g with
      | none => simp
      | some idx0 => exact h.cts_nodup g idx0 hmd
    · rw [if_neg hg] at hidx
      exact h.cts_nodup g' idx hidx
  · intro g' idx a i hidx hfa
    rw [hpool]
    rw [find_link] at hidx
    by_cases hg : g' = g
    · rw [if_pos hg] at hidx
      injection hidx with hidx
      subst hidx
      rw [find_assign] at hfa
      by_cases ha : a = (intern pool name).indexOf name
      · rw [if_pos ha] at hfa
        injection hfa with hfa
        subst hfa
        exact ⟨ha ▸ List.indexOf_lt_length.mpr (mem_intern_self pool name), hef⟩
      · rw [if_neg ha] at hfa
        cases hmd : find md g with
        | none => rw [hmd] at hfa; simp [find] at hfa
        | some idx0 =>
          rw [hmd] at hfa
          have := h.valid g idx0 a i hmd hfa
          exact ⟨lt_of_lt_of_le this.1 (length_le_intern pool name), this.2⟩
    · rw [if_neg hg] at hidx
      have := h.valid g' idx a i hidx hfa
      exact ⟨lt_of_lt_of_le this.1 (length_le_intern pool name), this.2⟩

theorem assign_assign {κ υ : Type} [DecidableEq κ] (m : List (κ × υ)) (k : κ) (v v' : υ) :
    assign (assign m k v) k v' = assign m k v' := by
  induction m with
  | nil => simp [assign]
  | cons e m ih =>
    obtain ⟨k', w⟩ := e
    by_cases h : k' = k
    · simp [assign, h]
    · simp [assign, h, ih]

/-- Method `insertToDB` on a valid position is `link`. -/
theorem insertToDB_nat (db : EliasFanoDB) (i : Nat) (g T : String) :
    insertToDB db (i : Int) g T =
      { db with
        cell_types := (link db.cell_types db.metadata g T i).1
        metadata := (link db.cell_types db.metadata g T i).2 } := by
  have hi : ¬ ((i : Int) = -1) := by omega
  unfold insertToDB link
  simp only [hi, if_false, Int.toNat_ofNat]
  cases hmd : find db.metadata g with
  | none =>
    simp only [Option.isNone_none, if_true, find_assign_self, Option.getD_some,
      Option.getD_none, assign_assign]
  | some idx => simp [hmd]

theorem insertToDB_neg (db : EliasFanoDB) (g T : String) :
    insertToDB db (-1) g T = { db with warnings := db.warnings + 1 } := by
  simp [insertToDB]

/-- Effect of one row of `encodeMatrix` on the posting store, the pool and the
two-level map: nothing for a row without expressing cells, otherwise one record
is pushed and linked. -/
theorem encodeRow_index (ct : String) (db : EliasFanoDB) (row : String × List Int) :
    (sparse_index 0 row.2 = [] →
      (encodeRow ct db row).ef_data = db.ef_data ∧
      (encodeRow ct db row).cell_types = db.cell_types ∧
      (encodeRow ct db row).metadata = db.metadata) ∧
    (sparse_index 0 row.2 ≠ [] →
      (encodeRow ct db row).ef_data
        = db.ef_data ++ [eliasFanoRecord (sparse_index 0 row.2) row.2.length] ∧
      (encodeRow ct db row).cell_types
        = (link db.cell_types db.metadata row.1 ct db.ef_data.length).1 ∧
      (encodeRow ct db row).metadata
        = (link db.cell_types db.metadata row.1 ct db.ef_data.length).2) := by
  constructor
  · intro he
    unfold encodeRow
    split
    · simp
    · simp [eliasFanoCoding, he, insertToDB_neg]
  · intro hne
    have hlen : row.2.length ≠ 0 := by
      intro h0
      have : row.2 = [] := List.length_eq_zero.mp h0
      rw [this] at hne
      simp [sparse_index] at hne
    have hemp : (sparse_index 0 row.2).isEmpty = false := by
      cases h : sparse_index 0 row.2 with
      | nil => exact absurd h hne
      | cons a as => rfl
    unfold encodeRow
    simp only [hlen, if_false, eliasFanoCoding, hemp, Bool.false_eq_true, insertToDB_nat]
    simp

theorem sparse_index_bounds (v : List Int) : ∀ (i : Nat),
    (sparse_index i v).Sorted (· < ·) ∧ ∀ a ∈ sparse_index i v, i < a ∧ a ≤ i + v.length := by
  induction v with
  | nil => intro i; simp [sparse_index]
  | cons e v ih =>
    intro i
    obtain ⟨hs, hb⟩ := ih (i + 1)
    have hb' : ∀ a ∈ sparse_index (i + 1) v, i < a ∧ a ≤ i + (e :: v).length := by
      intro a ha
      have := hb a ha
      simp only [List.length_cons]
      omega
    unfold sparse_index
    split
    · refine ⟨List.sorted_cons.mpr ⟨fun b hbm => (hb b hbm).1, hs⟩, ?_⟩
      intro a ha
      rcases List.mem_cons.mp ha with h | h
      · subst h; simp only [List.length_cons]; omega
      · exact hb' a h
    · exact ⟨hs, hb'⟩

/-- The scan of a row yields the list `[i : v[i] > 0]` of the specification. -/
theorem sparse_index_eq_expressing (v : List Int) : sparse_index 0 v = expressing v := by
  have key : ∀ (v : List Int) (i : Nat), sparse_index i v
      = ((List.range v.length).filter (fun j => decide (v.getD j 0 > 0))).map (· + (i + 1)) := by
    intro v
    induction v with
    | nil => intro i; simp [sparse_index]
    | cons e v ih =>
      intro i
      rw [sparse_index, ih (i + 1)]
      simp only [List.length_cons, List.range_succ_eq_map, List.filter_cons, List.filter_map,
        List.map_map]
      have hm : ((fun x => x + (i + 1)) ∘ Nat.succ) = fun x => x + (i + 1 + 1) := by
        funext j; simp; omega
      have hmm : ∀ l : List Nat, List.map (fun x => x + (i + 1)) (List.map Nat.succ l)
          = List.map (fun x => x + (i + 1 + 1)) l := by
        intro l; rw [List.map_map, hm]
      have hf' : ((fun j => decide (0 < (e :: v)[j]?.getD 0)) ∘ Nat.succ)
          = fun j => decide (0 < v[j]?.getD 0) := by
        funext j; simp
      by_cases he : e > 0
      · simp [he, hmm, hf']
      · simp [he, hmm, hf']
  rw [key v 0]
  rfl

/-! ### Ingest -/

theorem recordAt_append (db db' : EliasFanoDB) (t : List EliasFano) (i : Nat)
    (h : db'.ef_data = db.ef_data ++ t) (hi : i < db.ef_data.length) :
    recordAt db' i = recordAt db i := by
  unfold recordAt
  rw [h, List.getD_append _ _ _ _ hi]

theorem encodeRow_ef_data (ct : String) (db : EliasFanoDB) (row : String × List Int) :
    ∃ t, (encodeRow ct db row).ef_data = db.ef_data ++ t := by
  by_cases h : sparse_index 0 row.2 = []
  · exact ⟨[], by rw [((encodeRow_index ct db row).1 h).1]; simp⟩
  · exact ⟨_, ((encodeRow_index ct db row).2 h).1⟩

theorem encodeRow_wf (ct : String) (db : EliasFanoDB) (row : String × List Int)
    (h : WF db) : WF (encodeRow ct db row) := by
  unfold WF at h ⊢
  by_cases he : sparse_index 0 row.2 = []
  · obtain ⟨h1, h2, h3⟩ := (encodeRow_index ct db row).1 he
    rw [h1, h2, h3]; exact h
  · obtain ⟨h1, h2, h3⟩ := (encodeRow_index ct db row).2 he
    rw [h1, h2, h3]
    have hlen : (db.ef_data ++ [eliasFanoRecord (sparse_index 0 row.2) row.2.length]).length
        = db.ef_data.length + 1 := by simp
    rw [hlen]
    exact (h.mono (Nat.le_succ _)).link row.1 ct db.ef_data.length (Nat.lt_succ_self _)

theorem encodeRow_entry (ct : String) (db : EliasFanoDB) (row : String × List Int)
    (h : WF db) (g T : String) (i : Nat) :
    entry (encodeRow ct db row) g T i ↔
      (sparse_index 0 row.2 ≠ [] ∧ g = row.1 ∧ T = ct ∧ i = db.ef_data.length) ∨
      (¬ (sparse_index 0 row.2 ≠ [] ∧ g = row.1 ∧ T = ct) ∧ entry db g T i) := by
  unfold entry
  by_cases he : sparse_index 0 row.2 = []
  · obtain ⟨_, h2, h3⟩ := (encodeRow_index ct db row).1 he
    rw [h2, h3]
    simp [he]
  · obtain ⟨_, h2, h3⟩ := (encodeRow_index ct db row).2 he
    rw [h2, h3, entryOf_link h]
    simp [he]

theorem encodeRow_recordAt_new (ct : String) (db : EliasFanoDB) (row : String × List Int)
    (he : sparse_index 0 row.2 ≠ []) :
    recordAt (encodeRow ct db row) db.ef_data.length
      = eliasFanoRecord (sparse_index 0 row.2) row.2.length := by
  unfold recordAt
  rw [((encodeRow_index ct db row).2 he).1]
  simp [List.getD_eq_getElem?_getD]

theorem rows_ef_data (ct : String) (rows : List (String × List Int)) :
    ∀ db : EliasFanoDB, ∃ t, (rows.foldl (encodeRow ct) db).ef_data = db.ef_data ++ t := by
  induction rows with
  | nil => intro db; exact ⟨[], by simp⟩
  | cons r rows ih =>
    intro db
    obtain ⟨t1, h1⟩ := encodeRow_ef_data ct db r
    obtain ⟨t2, h2⟩ := ih (encodeRow ct db r)
    exact ⟨t1 ++ t2, by rw [List.foldl_cons, h2, h1, List.append_assoc]⟩

theorem rows_wf (ct : String) (rows : List (String × List Int)) :
    ∀ db : EliasFanoDB, WF db → WF (rows.foldl (encodeRow ct) db) := by
  induction rows with
  | nil => intro db h; exact h
  | cons r rows ih => intro db h; exact ih _ (encodeRow_wf ct db r h)

theorem rows_entry_other (ct : String) (rows : List (String × List Int)) (g T : String)
    (i : Nat) : ∀ db : EliasFanoDB, WF db → (∀ r ∈ rows, r.1 ≠ g) →
    (entry (rows.foldl (encodeRow ct) db) g T i ↔ entry db g T i) := by
  induction rows with
  | nil => intro db _ _; rfl
  | cons r rows ih =>
    intro db h hne
    rw [List.foldl_cons, ih _ (encodeRow_wf ct db r h)
      (fun r' hr' => hne r' (List.mem_cons_of_mem _ hr')), encodeRow_entry ct db r h]
    have : g ≠ r.1 := fun e => hne r (List.mem_cons_self _ _) e.symm
    simp [this]

/-- After the row loop, every row with an expressing cell (row names pairwise
distinct) has its entry under the cell type, pointing at the record built
from the row. -/
theorem rows_posted (ct : String) (rows : List (String × List Int)) :
    ∀ db : EliasFanoDB, WF db → (rows.map Prod.fst).Nodup →
    ∀ r ∈ rows, sparse_index 0 r.2 ≠ [] →
    ∃ i, entry (rows.foldl (encodeRow ct) db) r.1 ct i ∧
      recordAt (rows.foldl (encodeRow ct) db) i
        = eliasFanoRecord (sparse_index 0 r.2) r.2.length := by
  induction rows with
  | nil => intro db _ _ r hr; simp at hr
  | cons r0 rows ih =>
    intro db h hnd r hr he
    simp only [List.map_cons, List.nodup_cons] at hnd
    rw [List.foldl_cons]
    rcases List.mem_cons.mp hr with rfl | hr'
    · refine ⟨db.ef_data.length, ?_, ?_⟩
      · rw [rows_entry_other ct rows r.1 ct _ _ (encodeRow_wf ct db r h)]
        · rw [encodeRow_entry ct db r h]
          exact Or.inl ⟨he, rfl, rfl, rfl⟩
        · intro r' hr' e
          exact hnd.1 (List.mem_map.mpr ⟨r', hr', e⟩)
      · obtain ⟨t, ht⟩ := rows_ef_data ct rows (encodeRow ct db r)
        have hlt : db.ef_data.length < (encodeRow ct db r).ef_data.length := by
          rw [((encodeRow_index ct db r).2 he).1]; simp
        rw [recordAt_append _ _ t _ ht hlt, encodeRow_recordAt_new ct db r he]
    · exact ih _ (encodeRow_wf ct db r0 h) hnd.2 r hr' he

theorem encodeMatrix_eq (db : EliasFanoDB) (ct : String) (M : NumericMatrix) :
    ∃ db0 : EliasFanoDB, encodeMatrix db ct M = M.rows.foldl (encodeRow ct) db0 ∧
      db0.metadata = db.metadata ∧ db0.cell_types = db.cell_types ∧
      db0.ef_data = db.ef_data ∧
      db0.total_cells = (db.total_cells + M.ncol) % 2 ^ 32 := ⟨_, rfl, rfl, rfl, rfl, rfl⟩

theorem WF_of_eq {db db0 : EliasFanoDB} (h1 : db0.metadata = db.metadata)
    (h2 : db0.cell_types = db.cell_types) (h3 : db0.ef_data = db.ef_data) (h : WF db) :
    WF db0 := by
  unfold WF at h ⊢
  rw [h1, h2, h3]; exact h

theorem encodeMatrix_wf (db : EliasFanoDB) (ct : String) (M : NumericMatrix) (h : WF db) :
    WF (encodeMatrix db ct M) := by
  obtain ⟨db0, e, h1, h2, h3, _⟩ := encodeMatrix_eq db ct M
  rw [e]
  exact rows_wf ct M.rows db0 (WF_of_eq h1 h2 h3 h)

theorem WF_empty : WF EliasFanoDB.empty := by
  refine ⟨by simp [EliasFanoDB.empty], by simp [EliasFanoDB.empty], ?_, ?_⟩
  · intro g idx h; simp [EliasFanoDB.empty, find] at h
  · intro g idx a i h; simp [EliasFanoDB.empty, find] at h

/-! ### queryGenes -/

theorem foldl_assign_eq_map {α κ υ : Type} [DecidableEq κ] (f : α → κ) (h : α → υ)
    (l : List α) : ∀ acc : List (κ × υ), (acc.map Prod.fst ++ l.map f).Nodup →
    l.foldl (fun m x => assign m (f x) (h x)) acc = acc ++ l.map (fun x => (f x, h x)) := by
  induction l with
  | nil => intro acc _; simp
  | cons x l ih =>
    intro acc hnd
    have hx : f x ∉ acc.map Prod.fst := by
      intro hm
      rw [List.nodup_append] at hnd
      exact hnd.2.2 hm (by simp)
    rw [List.foldl_cons, assign_of_not_mem acc (f x) (h x) hx, ih]
    · simp
    · simpa [List.map_append, List.append_assoc] using hnd

theorem cellTypeName_eq_iff (db : EliasFanoDB) (a : Nat) (T : String)
    (ha : a < db.cell_types.length) : db.cell_types[a]? = some T ↔ cellTypeName db a = T := by
  unfold cellTypeName
  rw [List.getD_eq_getElem _ _ ha, List.getElem?_eq_getElem ha]
  simp

theorem cellTypeName_inj (db : EliasFanoDB) (h : WF db) (a b : Nat)
    (ha : a < db.cell_types.length) (hb : b < db.cell_types.length)
    (e : cellTypeName db a = cellTypeName db b) : a = b := by
  unfold cellTypeName at e
  rw [List.getD_eq_getElem _ _ ha, List.getD_eq_getElem _ _ hb] at e
  exact (List.Nodup.getElem_inj_iff h.pool_nodup).mp e

theorem names_nodup (db : EliasFanoDB) (h : WF db) (g : String) (idx : EliasFanoIndex)
    (hidx : find db.metadata g = some idx) :
    (idx.map (fun d => cellTypeName db d.1)).Nodup := by
  have hk := h.cts_nodup g idx hidx
  have : idx.map (fun d => cellTypeName db d.1) = (idx.map Prod.fst).map (cellTypeName db) := by
    rw [List.map_map]; rfl
  rw [this]
  apply List.Nodup.map_on _ hk
  intro a ha b hb e
  obtain ⟨⟨a', i⟩, hm, rfl⟩ := List.mem_map.mp ha
  obtain ⟨⟨b', j⟩, hm', rfl⟩ := List.mem_map.mp hb
  exact cellTypeName_inj db h a' b'
    (h.valid g idx a' i hidx (find_of_mem hk hm)).1
    (h.valid g idx b' j hidx (find_of_mem hk hm')).1 e

/-- The named list built for one gene has one entry per entry of the gene. -/
theorem cellTypes_eq_map (db : EliasFanoDB) (h : WF db) (g : String) (idx : EliasFanoIndex)
    (hidx : find db.metadata g = some idx) :
    queryGenes.cellTypes db idx
      = idx.map (fun d => (cellTypeName db d.1, eliasFanoDecoding (recordAt db d.2))) := by
  unfold queryGenes.cellTypes
  rw [foldl_assign_eq_map (fun d : Nat × Nat => cellTypeName db d.1)
    (fun d => eliasFanoDecoding (recordAt db d.2)) idx [] (by simpa using names_nodup db h g idx hidx)]
  simp

/-- Lookup by cell-type name in the answer for one gene is the decoded posting. -/
theorem cellTypes_find (db : EliasFanoDB) (h : WF db) (g : String) (idx : EliasFanoIndex)
    (hidx : find db.metadata g = some idx) (T : String) (p : List Nat) :
    find (queryGenes.cellTypes db idx) T = some p ↔ HasPosting db g T p := by
  have hk := h.cts_nodup g idx hidx
  have hn := names_nodup db h g idx hidx
  rw [cellTypes_eq_map db h g idx hidx]
  have hkeys : (idx.map (fun d => (cellTypeName db d.1, eliasFanoDecoding (recordAt db d.2)))).map
      Prod.fst = idx.map (fun d => cellTypeName db d.1) := by
    rw [List.map_map]; rfl
  constructor
  · intro hf
    obtain ⟨⟨a, i⟩, hm, he⟩ := List.mem_map.mp (mem_of_find hf)
    injection he with h1 h2
    have hfa := find_of_mem hk hm
    have hv := (h.valid g idx a i hidx hfa).1
    exact ⟨i, ⟨idx, a, hidx, hfa, (cellTypeName_eq_iff db a T hv).mpr h1⟩, h2.symm⟩
  · rintro ⟨i, ⟨idx', a, hidx', hfa, hT⟩, rfl⟩
    rw [hidx] at hidx'
    injection hidx' with hidx'
    subst hidx'
    have hv := (h.valid g idx a i hidx hfa).1
    apply find_of_mem (by rw [hkeys]; exact hn)
    exact List.mem_map.mpr ⟨(a, i), mem_of_find hfa,
      by rw [(cellTypeName_eq_iff db a T hv).mp hT]⟩

theorem queryGenes_fold_find (db : EliasFanoDB) (G : List String) (g : String) :
    ∀ t0 : List (String × List (String × List Nat)),
    find (G.foldl (fun t gene_name =>
        match find db.metadata gene_name with
        | none => t
        | some gene_meta => assign t gene_name (queryGenes.cellTypes db gene_meta)) t0) g
      = if g ∈ G ∧ (find db.metadata g).isSome
        then (find db.metadata g).map (queryGenes.cellTypes db) else find t0 g := by
  induction G with
  | nil => intro t0; simp
  | cons x G ih =>
    intro t0
    rw [List.foldl_cons, ih]
    by_cases hG : g ∈ G ∧ (find db.metadata g).isSome
    · have : g ∈ x :: G ∧ (find db.metadata g).isSome := ⟨List.mem_cons_of_mem _ hG.1, hG.2⟩
      rw [if_pos hG, if_pos this]
    · rw [if_neg hG]
      by_cases hx : g = x
      · subst hx
        cases hmd : find db.metadata g with
        | none => simp
        | some idx => simp [find_assign_self]
      · have hiff : (g ∈ x :: G ∧ (find db.metadata g).isSome) ↔
            (g ∈ G ∧ (find db.metadata g).isSome) := by simp [hx]
        rw [if_neg (fun hc => hG (hiff.mp hc))]
        cases hmd : find db.metadata x with
        | none => rfl
        | some idx => exact find_assign_ne _ _ _ _ hx

/-- Lookup of a gene in the answer of `queryGenes`. -/
theorem queryGenes_find (db : EliasFanoDB) (G : List String) (g : String) :
    find (queryGenes db G) g
      = if g ∈ G then (find db.metadata g).map (queryGenes.cellTypes db) else none := by
  unfold queryGenes
  rw [queryGenes_fold_find]
  by_cases hg : g ∈ G
  · cases hmd : find db.metadata g <;> simp [hg, find]
  · simp [hg, find]

theorem sparse_index_ne_nil (v : List Int) (h : ∃ e ∈ v, e > 0) :
    ∀ i : Nat, sparse_index i v ≠ [] := by
  induction v with
  | nil => obtain ⟨e, he, _⟩ := h; simp at he
  | cons x v ih =>
    intro i
    unfold sparse_index
    by_cases hx : x > 0
    · simp [hx]
    · simp only [hx, if_false]
      apply ih
      obtain ⟨e, he, hpos⟩ := h
      rcases List.mem_cons.mp he with rfl | he'
      · exact absurd hpos hx
      · exact ⟨e, he', hpos⟩

/-- The record built from a row of a valid matrix decodes to the scan of the
row. -/
theorem decode_row_record (v : List Int) (hn : v.length < 2 ^ 31) :
    eliasFanoDecoding (eliasFanoRecord (sparse_index 0 v) v.length) = sparse_index 0 v := by
  obtain ⟨hs, hb⟩ := sparse_index_bounds v 0
  exact decode_eliasFanoRecord _ _ hs (fun a ha => (hb a ha).1)
    (fun a ha => by have := (hb a ha).2; omega) hn

theorem HasPosting_unique (db : EliasFanoDB) (h : WF db) (g T : String) (p q : List Nat)
    (hp : HasPosting db g T p) (hq : HasPosting db g T q) : p = q := by
  obtain ⟨i, ⟨idx, a, h1, h2, h3⟩, rfl⟩ := hp
  obtain ⟨j, ⟨idx', b, h1', h2', h3'⟩, rfl⟩ := hq
  rw [h1] at h1'
  injection h1' with h1'
  subst h1'
  have ha := (getElem?_eq_some_iff_indexOf h.pool_nodup a T).mp h3
  have hb := (getElem?_eq_some_iff_indexOf h.pool_nodup b T).mp h3'
  have hab : a = b := by rw [ha.2, hb.2]
  subst hab
  rw [h2] at h2'
  injection h2' with h2'
  rw [h2']

/-! ### mergeDB -/

theorem copy_inner (db : EliasFanoDB) (idx : EliasFanoIndex) :
    ∀ (E : List EliasFano) (out : EliasFanoIndex),
    idx.foldl (fun (a : List EliasFano × EliasFanoIndex) ct =>
        (a.1 ++ [recordAt db ct.2], a.2 ++ [(ct.1, a.1.length)])) (E, out)
      = (E ++ idx.map (fun ct => recordAt db ct.2), out ++ renumber E.length idx) := by
  induction idx with
  | nil => intro E out; simp [renumber]
  | cons ct idx ih =>
    intro E out
    obtain ⟨a, i⟩ := ct
    rw [List.foldl_cons, ih]
    simp [renumber, List.append_assoc]

theorem copy_outer (db : EliasFanoDB) (md : CellTypeIndex) :
    ∀ (E : List EliasFano) (ext : CellTypeIndex),
    md.foldl (fun (acc : List EliasFano × CellTypeIndex) gene =>
        (acc.1 ++ gene.2.map (fun ct => recordAt db ct.2),
          acc.2 ++ [(gene.1, renumber acc.1.length gene.2)])) (E, ext)
      = (E ++ copiedRecords db md, ext ++ copyAll E.length md) := by
  induction md with
  | nil => intro E ext; simp [copiedRecords, copyAll]
  | cons gene md ih =>
    intro E ext
    obtain ⟨g, idx⟩ := gene
    rw [List.foldl_cons, ih]
    simp [copiedRecords, copyAll, List.append_assoc]

/-- The first loop of `mergeDB` in closed form. -/
theorem copy_eq (db : EliasFanoDB) (E0 : List EliasFano) :
    mergeDB.copy db E0 = (E0 ++ copiedRecords db db.metadata, copyAll E0.length db.metadata) := by
  unfold mergeDB.copy
  simp only [copy_inner, List.nil_append]
  rw [copy_outer]
  simp

theorem keys_renumber (idx : EliasFanoIndex) : ∀ s, (renumber s idx).map Prod.fst = idx.map Prod.fst := by
  induction idx with
  | nil => intro s; rfl
  | cons ct idx ih => intro s; obtain ⟨a, i⟩ := ct; simp [renumber, ih]

theorem keys_copyAll (md : CellTypeIndex) : ∀ s, (copyAll s md).map Prod.fst = md.map Prod.fst := by
  induction md with
  | nil => intro s; rfl
  | cons gene md ih => intro s; obtain ⟨g, idx⟩ := gene; simp [copyAll, ih]

theorem find_renumber (db : EliasFanoDB) (idx : EliasFanoIndex) (a : Nat) :
    ∀ (s j : Nat), find (renumber s idx) a = some j →
    ∃ i k, find idx a = some i ∧ j = s + k ∧
      (idx.map (fun ct => recordAt db ct.2))[k]? = some (recordAt db i) := by
  induction idx with
  | nil => intro s j h; simp [renumber, find] at h
  | cons ct idx ih =>
    intro s j h
    obtain ⟨b, i⟩ := ct
    by_cases hb : b = a
    · simp only [renumber, find, hb, if_true] at h ⊢
      injection h with h
      exact ⟨i, 0, rfl, by omega, by simp⟩
    · simp only [renumber, find, hb, if_false] at h ⊢
      obtain ⟨i', k, h1, h2, h3⟩ := ih (s + 1) j h
      exact ⟨i', k + 1, h1, by omega, by simpa using h3⟩

/-- Each entry of the copy points at a pushed record that equals the record
the source entry points at. -/
theorem find_copyAll (db : EliasFanoDB) (md : CellTypeIndex) (g : String) (a : Nat) :
    ∀ (s : Nat) (idx' : EliasFanoIndex) (j : Nat),
    find (copyAll s md) g = some idx' → find idx' a = some j →
    ∃ idx i, find md g = some idx ∧ find idx a = some i ∧ s ≤ j ∧
      (copiedRecords db md)[j - s]? = some (recordAt db i) := by
  induction md with
  | nil => intro s idx' j h; simp [copyAll, find] at h
  | cons gene md ih =>
    intro s idx' j h hj
    obtain ⟨g0, idx0⟩ := gene
    by_cases hg : g0 = g
    · simp only [copyAll, find, hg, if_true] at h ⊢
      injection h with h
      subst h
      obtain ⟨i, k, h1, h2, h3⟩ := find_renumber db idx0 a s j hj
      refine ⟨idx0, i, rfl, h1, by omega, ?_⟩
      have hk : j - s = k := by omega
      have hlt : k < (idx0.map (fun ct => recordAt db ct.2)).length := by
        by_contra hc
        rw [List.getElem?_eq_none (by omega)] at h3
        exact Option.noConfusion h3
      rw [hk, copiedRecords, List.getElem?_append_left hlt, h3]
    · simp only [copyAll, find, hg, if_false] at h ⊢
      obtain ⟨idx, i, h1, h2, h3, h4⟩ := ih (s + idx0.length) idx' j h hj
      refine ⟨idx, i, h1, h2, by omega, ?_⟩
      rw [copiedRecords, List.getElem?_append_right (by simp; omega)]
      have : j - s - (idx0.map (fun ct => recordAt db ct.2)).length = j - (s + idx0.length) := by
        simp; omega
      rw [this, h4]

theorem find_copyAll_keys (md : CellTypeIndex) (g : String) :
    ∀ (s : Nat) (idx' : EliasFanoIndex), find (copyAll s md) g = some idx' →
    ∃ idx, find md g = some idx ∧ idx'.map Prod.fst = idx.map Prod.fst := by
  induction md with
  | nil => intro s idx' h; simp [copyAll, find] at h
  | cons gene md ih =>
    intro s idx' h
    obtain ⟨g0, idx0⟩ := gene
    by_cases hg : g0 = g
    · simp only [copyAll, find, hg, if_true] at h ⊢
      injection h with h
      subst h
      exact ⟨idx0, rfl, keys_renumber idx0 s⟩
    · simp only [copyAll, find, hg, if_false] at h ⊢
      exact ih _ idx' h

theorem mem_copiedRecords (db : EliasFanoDB) (r : EliasFano) :
    ∀ (md : CellTypeIndex), (∀ gene ∈ md, ∀ ct ∈ gene.2, ct.2 < db.ef_data.length) →
    r ∈ copiedRecords db md → r ∈ db.ef_data := by
  intro md
  induction md with
  | nil => intro _ hr; simp [copiedRecords] at hr
  | cons gene md ih =>
    intro hv hr
    obtain ⟨g, idx⟩ := gene
    simp only [copiedRecords, List.mem_append, List.mem_map] at hr
    rcases hr with ⟨ct, hct, rfl⟩ | hr
    · have := hv (g, idx) (List.mem_cons_self _ _) ct hct
      unfold recordAt
      rw [List.getD_eq_getElem _ _ this]
      exact List.getElem_mem _
    · exact ih (fun gene hg => hv gene (List.mem_cons_of_mem _ hg)) hr

/-- Entries after linking a list of named records (names pairwise distinct)
under one gene: the listed entries replace the entries of the same names,
everything else is kept. -/
theorem linkAll_spec (g : String) (n : Nat) (es : List (String × Nat)) :
    ∀ st : List String × CellTypeIndex, IndexWF st.1 st.2 n →
    (es.map Prod.fst).Nodup → (∀ e ∈ es, e.2 < n) →
    IndexWF (linkAll g es st).1 (linkAll g es st).2 n ∧
    ∀ (g' T : String) (j : Nat),
      entryOf (linkAll g es st).1 (linkAll g es st).2 g' T j ↔
        (g' = g ∧ (T, j) ∈ es) ∨
        (¬ (g' = g ∧ T ∈ es.map Prod.fst) ∧ entryOf st.1 st.2 g' T j) := by
  induction es with
  | nil => intro st h _ _; exact ⟨h, fun g' T j => by simp [linkAll]⟩
  | cons e es ih =>
    intro st h hnd hlt
    obtain ⟨T0, j0⟩ := e
    simp only [List.map_cons, List.nodup_cons] at hnd
    have hwf1 := h.link g T0 j0 (hlt (T0, j0) (List.mem_cons_self _ _))
    obtain ⟨hwf, hent⟩ := ih (link st.1 st.2 g T0 j0) hwf1 hnd.2
      (fun e he => hlt e (List.mem_cons_of_mem _ he))
    have hfold : linkAll g ((T0, j0) :: es) st = linkAll g es (link st.1 st.2 g T0 j0) := rfl
    rw [hfold]
    refine ⟨hwf, ?_⟩
    intro g' T j
    rw [hent, entryOf_link h]
    have hmem : (T, j) ∈ es → T ∈ es.map Prod.fst :=
      fun hm => List.mem_map.mpr ⟨(T, j), hm, rfl⟩
    simp only [List.mem_cons, Prod.mk.injEq, List.map_cons]
    constructor
    · rintro (⟨hg, hm⟩ | ⟨hn, (⟨hg, hT, hj⟩ | ⟨hn2, h0⟩)⟩)
      · exact Or.inl ⟨hg, Or.inr hm⟩
      · exact Or.inl ⟨hg, Or.inl ⟨hT, hj⟩⟩
      · refine Or.inr ⟨?_, h0⟩
        rintro ⟨hg, hT | hT⟩
        · exact hn2 ⟨hg, hT⟩
        · exact hn ⟨hg, hT⟩
    · rintro (⟨hg, (⟨hT, hj⟩ | hm)⟩ | ⟨hn, h0⟩)
      · refine Or.inr ⟨?_, Or.inl ⟨hg, hT, hj⟩⟩
        rintro ⟨_, hT'⟩
        exact hnd.1 (hT ▸ hT')
      · exact Or.inl ⟨hg, hm⟩
      · exact Or.inr ⟨fun hc => hn ⟨hc.1, Or.inr hc.2⟩,
          Or.inr ⟨fun hc => hn ⟨hc.1, Or.inl hc.2⟩, h0⟩⟩

theorem IndexWF.init {pool : List String} {md : CellTypeIndex} {n : Nat}
    (h : IndexWF pool md n) (g : String) :
    IndexWF pool (if (find md g).isNone then assign md g [] else md) n := by
  cases hmd : find md g with
  | some idx => simpa using h
  | none =>
    simp only [Option.isNone_none, if_true]
    refine ⟨h.pool_nodup, nodup_keys_assign _ _ _ h.genes_nodup, ?_, ?_⟩
    · intro g' idx hidx
      rw [find_assign] at hidx
      by_cases hg : g' = g
      · rw [if_pos hg] at hidx; injection hidx with hidx; subst hidx; simp
      · rw [if_neg hg] at hidx; exact h.cts_nodup g' idx hidx
    · intro g' idx a i hidx hfa
      rw [find_assign] at hidx
      by_cases hg : g' = g
      · rw [if_pos hg] at hidx; injection hidx with hidx; subst hidx; simp [find] at hfa
      · rw [if_neg hg] at hidx; exact h.valid g' idx a i hidx hfa

theorem entryOf_init (pool : List String) (md : CellTypeIndex) (g g' T : String) (j : Nat) :
    entryOf pool (if (find md g).isNone then assign md g [] else md) g' T j
      ↔ entryOf pool md g' T j := by
  cases hmd : find md g with
  | some idx => simp
  | none =>
    simp only [Option.isNone_none, if_true]
    unfold entryOf
    by_cases hg : g' = g
    · subst hg
      simp [find_assign_self, hmd, find]
    · simp [find_assign_ne _ _ _ _ hg]

/-- The inner loop of `mergeDB` for one gene changes pool and two-level map as
`linkAll` does and leaves the other members alone. -/
theorem mergeDB_inner (db : EliasFanoDB) (g : String) (es : EliasFanoIndex) :
    ∀ st : EliasFanoDB,
    let r := es.foldl
      (fun (st : EliasFanoDB) ct =>
        let cell_types := intern st.cell_types (cellTypeName db ct.1)
        let new_ct := cell_types.indexOf (cellTypeName db ct.1)
        { st with
          cell_types := cell_types
          metadata :=
            assign st.metadata g (assign ((find st.metadata g).getD []) new_ct ct.2) }) st
    r.ef_data = st.ef_data ∧ r.total_cells = st.total_cells ∧
    r.gene_counts = st.gene_counts ∧ r.warnings = st.warnings ∧
    (r.cell_types, r.metadata)
      = linkAll g (es.map (fun ct => (cellTypeName db ct.1, ct.2))) (st.cell_types, st.metadata) := by
  induction es with
  | nil => intro st; simp [linkAll]
  | cons ct es ih =>
    intro st
    simp only [List.foldl_cons, List.map_cons]
    obtain ⟨h1, h2, h3, h4, h5⟩ := ih
      { st with
        cell_types := intern st.cell_types (cellTypeName db ct.1)
        metadata := assign st.metadata g (assign ((find st.metadata g).getD [])
          ((intern st.cell_types (cellTypeName db ct.1)).indexOf (cellTypeName db ct.1)) ct.2) }
    refine ⟨h1, h2, h3, h4, ?_⟩
    rw [h5]
    rfl

/-- Effect of the body of the second loop of `mergeDB` for one gene. -/
theorem mergeDB_gene_index (db : EliasFanoDB) (ext : CellTypeIndex) (st : EliasFanoDB)
    (gene : String × EliasFanoIndex) :
    (mergeDB.gene db ext st gene).ef_data = st.ef_data ∧
    (mergeDB.gene db ext st gene).total_cells = st.total_cells ∧
    ((mergeDB.gene db ext st gene).cell_types, (mergeDB.gene db ext st gene).metadata)
      = linkAll gene.1 (((find ext gene.1).getD []).map (fun ct => (cellTypeName db ct.1, ct.2)))
          (st.cell_types,
            if (find st.metadata gene.1).isNone then assign st.metadata gene.1 []
            else st.metadata) := by
  unfold mergeDB.gene
  obtain ⟨h1, h2, _, _, h5⟩ := mergeDB_inner db gene.1 ((find ext gene.1).getD [])
    { st with
      gene_counts :=
        assign (if (find st.gene_counts gene.1).isNone then assign st.gene_counts gene.1 0
            else st.gene_counts) gene.1
          (((find (if (find st.gene_counts gene.1).isNone then assign st.gene_counts gene.1 0
            else st.gene_counts) gene.1).getD 0 + (find db.gene_counts gene.1).getD 0) % 2 ^ 32)
      metadata :=
        if (find st.metadata gene.1).isNone then assign st.metadata gene.1 []
        else st.metadata }
  exact ⟨h1, h2, h5⟩

theorem mergeDB_genes_frame (db : EliasFanoDB) (ext : CellTypeIndex) (l : CellTypeIndex) :
    ∀ st : EliasFanoDB,
    (l.foldl (mergeDB.gene db ext) st).ef_data = st.ef_data ∧
    (l.foldl (mergeDB.gene db ext) st).total_cells = st.total_cells := by
  induction l with
  | nil => intro st; exact ⟨rfl, rfl⟩
  | cons ge l ih =>
    intro st
    obtain ⟨h1, h2⟩ := ih (mergeDB.gene db ext st ge)
    obtain ⟨h3, h4, _⟩ := mergeDB_gene_index db ext st ge
    exact ⟨by rw [List.foldl_cons, h1, h3], by rw [List.foldl_cons, h2, h4]⟩

theorem mem_named (db : EliasFanoDB) (idx : EliasFanoIndex) (T : String) (j : Nat) :
    (T, j) ∈ idx.map (fun ct => (cellTypeName db ct.1, ct.2)) ↔
      ∃ a, (a, j) ∈ idx ∧ cellTypeName db a = T := by
  simp only [List.mem_map, Prod.mk.injEq, Prod.exists]
  constructor
  · rintro ⟨a, j', hm, hT, hj⟩
    exact ⟨a, hj ▸ hm, hT⟩
  · rintro ⟨a, hm, hT⟩
    exact ⟨a, j, hm, hT, rfl⟩

theorem mem_named_keys (db : EliasFanoDB) (idx : EliasFanoIndex) (T : String) :
    T ∈ (idx.map (fun ct => (cellTypeName db ct.1, ct.2))).map Prod.fst ↔
      ∃ a j, (a, j) ∈ idx ∧ cellTypeName db a = T := by
  simp only [List.map_map, List.mem_map, Function.comp, Prod.exists]

/-- Entries after the second loop of `mergeDB` over a list of genes of the
copy: an entry of the copy wins over an entry of the receiver with the same
gene and cell-type name, every other entry of the receiver is kept. -/
theorem mergeDB_genes (db : EliasFanoDB) (ext : CellTypeIndex) (N : Nat) (l : CellTypeIndex) :
    ∀ st : EliasFanoDB, IndexWF st.cell_types st.metadata N →
    (l.map Prod.fst).Nodup →
    (∀ ge ∈ l, find ext ge.1 = some ge.2) →
    (∀ ge ∈ l, (ge.2.map (fun ct => cellTypeName db ct.1)).Nodup) →
    (∀ ge ∈ l, ∀ ct ∈ ge.2, ct.2 < N) →
    IndexWF (l.foldl (mergeDB.gene db ext) st).cell_types
      (l.foldl (mergeDB.gene db ext) st).metadata N ∧
    ∀ (g' T : String) (j : Nat),
      entryOf (l.foldl (mergeDB.gene db ext) st).cell_types
          (l.foldl (mergeDB.gene db ext) st).metadata g' T j ↔
        (∃ idx', (g', idx') ∈ l ∧ ∃ a, (a, j) ∈ idx' ∧ cellTypeName db a = T) ∨
        (¬ (∃ idx', (g', idx') ∈ l ∧ ∃ a j', (a, j') ∈ idx' ∧ cellTypeName db a = T) ∧
          entryOf st.cell_types st.metadata g' T j) := by
  induction l with
  | nil => intro st h _ _ _ _; exact ⟨h, fun g' T j => by simp⟩
  | cons ge l ih =>
    intro st h hnd hfind hnames hlt
    obtain ⟨g0, idx0⟩ := ge
    simp only [List.map_cons, List.nodup_cons] at hnd
    have hf0 : find ext g0 = some idx0 := hfind (g0, idx0) (List.mem_cons_self _ _)
    obtain ⟨_, _, hlink⟩ := mergeDB_gene_index db ext st (g0, idx0)
    simp only [hf0, Option.getD_some] at hlink
    have hnamed : ((idx0.map (fun ct => (cellTypeName db ct.1, ct.2))).map Prod.fst).Nodup := by
      have := hnames (g0, idx0) (List.mem_cons_self _ _)
      simpa [List.map_map, Function.comp] using this
    have hv : ∀ e ∈ idx0.map (fun ct => (cellTypeName db ct.1, ct.2)), e.2 < N := by
      intro e he
      obtain ⟨ct, hct, rfl⟩ := List.mem_map.mp he
      exact hlt (g0, idx0) (List.mem_cons_self _ _) ct hct
    obtain ⟨hwf1, hent1⟩ := linkAll_spec g0 N _
      (st.cell_types,
        if (find st.metadata g0).isNone then assign st.metadata g0 [] else st.metadata)
      (h.init g0) hnamed hv
    rw [← hlink] at hwf1 hent1
    simp only at hwf1 hent1
    obtain ⟨hwf, hent⟩ := ih (mergeDB.gene db ext st (g0, idx0)) hwf1 hnd.2
      (fun ge hge => hfind ge (List.mem_cons_of_mem _ hge))
      (fun ge hge => hnames ge (List.mem_cons_of_mem _ hge))
      (fun ge hge => hlt ge (List.mem_cons_of_mem _ hge))
    rw [List.foldl_cons]
    refine ⟨hwf, ?_⟩
    intro g' T j
    rw [hent, hent1, entryOf_init, mem_named, mem_named_keys]
    have hkey : ∀ idx', (g0, idx') ∉ l :=
      fun idx' hm => hnd.1 (List.mem_map.mpr ⟨(g0, idx'), hm, rfl⟩)
    simp only [List.mem_cons, Prod.mk.injEq]
    constructor
    · rintro (⟨idx', hm, hP⟩ | ⟨hnQ, (⟨hg, hP⟩ | ⟨hn0, h0⟩)⟩)
      · exact Or.inl ⟨idx', Or.inr hm, hP⟩
      · exact Or.inl ⟨idx0, Or.inl ⟨hg, rfl⟩, hP⟩
      · refine Or.inr ⟨?_, h0⟩
        rintro ⟨idx', (⟨hg, hi⟩ | hm), hQ⟩
        · exact hn0 ⟨hg, hi ▸ hQ⟩
        · exact hnQ ⟨idx', hm, hQ⟩
    · rintro (⟨idx', (⟨hg, hi⟩ | hm), hP⟩ | ⟨hnQ, h0⟩)
      · refine Or.inr ⟨?_, Or.inl ⟨hg, hi ▸ hP⟩⟩
        rintro ⟨idx'', hm, _⟩
        exact hkey idx'' (hg ▸ hm)
      · exact Or.inl ⟨idx', hm, hP⟩
      · exact Or.inr ⟨fun ⟨idx', hm, hQ⟩ => hnQ ⟨idx', Or.inr hm, hQ⟩,
          Or.inr ⟨fun ⟨hg, hQ⟩ => hnQ ⟨idx0, Or.inl ⟨hg, rfl⟩, hQ⟩, h0⟩⟩

/-- Method `mergeDB` unfolded with the closed form of its first loop. -/
theorem mergeDB_eq (self db : EliasFanoDB) :
    mergeDB self db =
      (copyAll self.ef_data.length db.metadata).foldl
        (mergeDB.gene db (copyAll self.ef_data.length db.metadata))
        { self with
          total_cells := (self.total_cells + db.total_cells) % 2 ^ 32
          ef_data := self.ef_data ++ copiedRecords db db.metadata } := by
  unfold mergeDB
  rw [copy_eq]

theorem mergeDB_ef_data (self db : EliasFanoDB) :
    (mergeDB self db).ef_data = self.ef_data ++ copiedRecords db db.metadata := by
  rw [mergeDB_eq, (mergeDB_genes_frame _ _ _ _).1]

theorem mergeDB_total_cells (self db : EliasFanoDB) :
    (mergeDB self db).total_cells = (self.total_cells + db.total_cells) % 2 ^ 32 := by
  rw [mergeDB_eq, (mergeDB_genes_frame _ _ _ _).2]

theorem ext_entry_to_db (db : EliasFanoDB) (hd : WF db) (s : Nat) (g : String)
    (idx' : EliasFanoIndex) (a j : Nat)
    (h1 : find (copyAll s db.metadata) g = some idx') (h2 : find idx' a = some j) :
    ∃ i, entry db g (cellTypeName db a) i ∧ s ≤ j ∧
      (copiedRecords db db.metadata)[j - s]? = some (recordAt db i) := by
  obtain ⟨idx, i, e1, e2, e3, e4⟩ := find_copyAll db db.metadata g a s idx' j h1 h2
  have hv := (hd.valid g idx a i e1 e2).1
  exact ⟨i, ⟨idx, a, e1, e2, (cellTypeName_eq_iff db a _ hv).mpr rfl⟩, e3, e4⟩

theorem db_entry_to_ext (db : EliasFanoDB) (hd : WF db) (s : Nat) (g T : String) (i : Nat)
    (h : entry db g T i) :
    ∃ idx' a j, find (copyAll s db.metadata) g = some idx' ∧ find idx' a = some j ∧
      cellTypeName db a = T ∧ s ≤ j ∧
      (copiedRecords db db.metadata)[j - s]? = some (recordAt db i) := by
  obtain ⟨idx, a, e1, e2, e3⟩ := h
  have hv := (hd.valid g idx a i e1 e2).1
  have hg : (find (copyAll s db.metadata) g).isSome := by
    rw [find_isSome_iff, keys_copyAll, ← find_isSome_iff, e1]; rfl
  obtain ⟨idx', hidx'⟩ := Option.isSome_iff_exists.mp hg
  obtain ⟨idx2, e1', hk⟩ := find_copyAll_keys db.metadata g s idx' hidx'
  rw [e1] at e1'
  injection e1' with e1'
  subst e1'
  have ha : (find idx' a).isSome := by
    rw [find_isSome_iff, hk, ← find_isSome_iff, e2]; rfl
  obtain ⟨j, hj⟩ := Option.isSome_iff_exists.mp ha
  obtain ⟨idx3, i3, f1, f2, f3, f4⟩ := find_copyAll db db.metadata g a s idx' j hidx' hj
  rw [e1] at f1
  injection f1 with f1
  subst f1
  rw [e2] at f2
  injection f2 with f2
  subst f2
  exact ⟨idx', a, j, hidx', hj, (cellTypeName_eq_iff db a T hv).mp e3, f3, f4⟩

theorem recordAt_copied (m : EliasFanoDB) (E recs : List EliasFano) (j : Nat) (r : EliasFano)
    (hm : m.ef_data = E ++ recs) (hj : E.length ≤ j) (hr : recs[j - E.length]? = some r) :
    recordAt m j = r ∧ j < m.ef_data.length := by
  have hlt : j - E.length < recs.length := by
    by_contra hc
    rw [List.getElem?_eq_none (by omega)] at hr
    exact Option.noConfusion hr
  unfold recordAt
  rw [hm, List.getD_eq_getElem?_getD, List.getElem?_append_right hj, hr]
  exact ⟨rfl, by simp; omega⟩

/-- Method `mergeDB` on well-formed stores: the result is well-formed; each of
its entries is either the copy of an entry of the source, or an entry of the
receiver whose gene and cell-type name have no entry in the source; every
entry of the source has its copy; every such entry of the receiver is kept. -/
theorem mergeDB_spec (self db : EliasFanoDB) (hs : WF self) (hd : WF db) :
    WF (mergeDB self db) ∧
    (∀ g T j, entry (mergeDB self db) g T j →
      (∃ i, entry db g T i ∧ recordAt (mergeDB self db) j = recordAt db i) ∨
      (¬ (∃ i, entry db g T i) ∧ entry self g T j)) ∧
    (∀ g T i, entry db g T i →
      ∃ j, entry (mergeDB self db) g T j ∧ recordAt (mergeDB self db) j = recordAt db i) ∧
    (∀ g T j, ¬ (∃ i, entry db g T i) → entry self g T j → entry (mergeDB self db) g T j) := by
  have hE := mergeDB_ef_data self db
  have hkeys : ((copyAll self.ef_data.length db.metadata).map Prod.fst).Nodup := by
    rw [keys_copyAll]; exact hd.genes_nodup
  have hfind : ∀ ge ∈ copyAll self.ef_data.length db.metadata,
      find (copyAll self.ef_data.length db.metadata) ge.1 = some ge.2 :=
    fun ge hge => find_of_mem hkeys hge
  have hknd : ∀ ge ∈ copyAll self.ef_data.length db.metadata, (ge.2.map Prod.fst).Nodup := by
    intro ge hge
    obtain ⟨idx, e1, hk⟩ := find_copyAll_keys db.metadata ge.1 _ ge.2 (hfind ge hge)
    rw [hk]; exact hd.cts_nodup ge.1 idx e1
  have hnames : ∀ ge ∈ copyAll self.ef_data.length db.metadata,
      (ge.2.map (fun ct => cellTypeName db ct.1)).Nodup := by
    intro ge hge
    obtain ⟨idx, e1, hk⟩ := find_copyAll_keys db.metadata ge.1 _ ge.2 (hfind ge hge)
    have h1 : ge.2.map (fun ct => cellTypeName db ct.1)
        = (ge.2.map Prod.fst).map (cellTypeName db) := by rw [List.map_map]; rfl
    have h2 : idx.map (fun ct => cellTypeName db ct.1)
        = (idx.map Prod.fst).map (cellTypeName db) := by rw [List.map_map]; rfl
    rw [h1, hk, ← h2]
    exact names_nodup db hd ge.1 idx e1
  have hlt : ∀ ge ∈ copyAll self.ef_data.length db.metadata, ∀ ct ∈ ge.2,
      ct.2 < (self.ef_data ++ copiedRecords db db.metadata).length := by
    intro ge hge ct hct
    obtain ⟨a, j⟩ := ct
    have hfa := find_of_mem (hknd ge hge) hct
    obtain ⟨i, _, h3, h4⟩ := ext_entry_to_db db hd _ ge.1 ge.2 a j (hfind ge hge) hfa
    have := (recordAt_copied (mergeDB self db) _ _ j _ hE h3 h4).2
    rw [hE] at this
    exact this
  have h0 : IndexWF self.cell_types self.metadata
      (self.ef_data ++ copiedRecords db db.metadata).length :=
    hs.mono (by simp)
  obtain ⟨hwf, hent⟩ := mergeDB_genes db (copyAll self.ef_data.length db.metadata)
    (self.ef_data ++ copiedRecords db db.metadata).length
    (copyAll self.ef_data.length db.metadata)
    { self with
      total_cells := (self.total_cells + db.total_cells) % 2 ^ 32
      ef_data := self.ef_data ++ copiedRecords db db.metadata } h0 hkeys hfind hnames hlt
  rw [← mergeDB_eq] at hwf hent
  simp only at hent
  have hQ : ∀ g T, (∃ idx', (g, idx') ∈ copyAll self.ef_data.length db.metadata ∧
      ∃ a j', (a, j') ∈ idx' ∧ cellTypeName db a = T) → ∃ i, entry db g T i := by
    rintro g T ⟨idx', hm, a, j', hm', hT⟩
    obtain ⟨i, h1, _, _⟩ := ext_entry_to_db db hd _ g idx' a j' (hfind _ hm)
      (find_of_mem (hknd _ hm) hm')
    exact ⟨i, hT ▸ h1⟩
  refine ⟨?_, ?_, ?_, ?_⟩
  · unfold WF
    rw [hE]
    exact hwf
  · intro g T j he
    rcases (hent g T j).mp he with ⟨idx', hm, a, hm', hT⟩ | ⟨hnQ, h1⟩
    · obtain ⟨i, h1, h3, h4⟩ := ext_entry_to_db db hd _ g idx' a j (hfind _ hm)
        (find_of_mem (hknd _ hm) hm')
      exact Or.inl ⟨i, hT ▸ h1, (recordAt_copied _ _ _ j _ hE h3 h4).1⟩
    · refine Or.inr ⟨?_, h1⟩
      rintro ⟨i, hi⟩
      obtain ⟨idx', a, j', e1, e2, e3, _, _⟩ := db_entry_to_ext db hd self.ef_data.length g T i hi
      exact hnQ ⟨idx', mem_of_find e1, a, j', mem_of_find e2, e3⟩
  · intro g T i hi
    obtain ⟨idx', a, j, e1, e2, e3, e4, e5⟩ := db_entry_to_ext db hd self.ef_data.length g T i hi
    exact ⟨j, (hent g T j).mpr (Or.inl ⟨idx', mem_of_find e1, a, mem_of_find e2, e3⟩),
      (recordAt_copied _ _ _ j _ hE e4 e5).1⟩
  · intro g T j hn he
    exact (hent g T j).mpr (Or.inr ⟨fun hc => hn (hQ g T hc), he⟩)

theorem entry_lt (db : EliasFanoDB) (h : WF db) (g T : String) (i : Nat)
    (he : entry db g T i) : i < db.ef_data.length := by
  obtain ⟨idx, a, h1, h2, _⟩ := he
  exact (h.valid g idx a i h1 h2).2

/-- Postings after `mergeDB`: the posting of the source where it has one,
otherwise the posting of the receiver. -/
theorem mergeDB_posting (self db : EliasFanoDB) (hs : WF self) (hd : WF db)
    (g T : String) (p : List Nat) :
    HasPosting (mergeDB self db) g T p ↔
      HasPosting db g T p ∨ ((¬ ∃ q, HasPosting db g T q) ∧ HasPosting self g T p) := by
  obtain ⟨_, h1, h2, h3⟩ := mergeDB_spec self db hs hd
  have hpre : ∀ j, j < self.ef_data.length → recordAt (mergeDB self db) j = recordAt self j :=
    fun j hj => recordAt_append self _ _ j (mergeDB_ef_data self db) hj
  constructor
  · rintro ⟨j, he, rfl⟩
    rcases h1 g T j he with ⟨i, hi, hr⟩ | ⟨hn, hself⟩
    · exact Or.inl ⟨i, hi, by rw [hr]⟩
    · refine Or.inr ⟨?_, j, hself, by rw [hpre j (entry_lt self hs g T j hself)]⟩
      rintro ⟨q, i, hi, _⟩
      exact hn ⟨i, hi⟩
  · rintro (⟨i, hi, rfl⟩ | ⟨hn, j, hself, rfl⟩)
    · obtain ⟨j, hj, hr⟩ := h2 g T i hi
      exact ⟨j, hj, by rw [hr]⟩
    · refine ⟨j, h3 g T j ?_ hself, by rw [hpre j (entry_lt self hs g T j hself)]⟩
      rintro ⟨i, hi⟩
      exact hn ⟨_, i, hi, rfl⟩

/-! ### Sets and intersections -/

theorem mem_strSetInsert (S : List String) (g x : String) :
    x ∈ strSetInsert S g ↔ x = g ∨ x ∈ S := by
  unfold strSetInsert
  split
  · rename_i h
    constructor
    · exact Or.inr
    · rintro (rfl | h') <;> assumption
  · exact List.mem_orderedInsert strLe

theorem nodup_strSetInsert (S : List String) (g : String) (h : S.Nodup) :
    (strSetInsert S g).Nodup := by
  unfold strSetInsert
  split
  · exact h
  · rename_i hg
    exact ((List.perm_orderedInsert strLe g S).nodup_iff).mpr (List.nodup_cons.mpr ⟨hg, h⟩)

theorem strSetInsert_idem (S : List String) (g : String) :
    strSetInsert (strSetInsert S g) g = strSetInsert S g := by
  have : g ∈ strSetInsert S g := (mem_strSetInsert S g g).mpr (Or.inl rfl)
  have e : ∀ S', strSetInsert S' g = if g ∈ S' then S' else S'.orderedInsert strLe g :=
    fun _ => rfl
  rw [e (strSetInsert S g), if_pos this]

theorem orderedInsert_of_all_lt (acc : List Nat) (x : Nat) (h : ∀ a ∈ acc, a < x) :
    acc.orderedInsert (· ≤ ·) x = acc ++ [x] := by
  induction acc with
  | nil => rfl
  | cons a acc ih =>
    have ha : ¬ x ≤ a := by have := h a (List.mem_cons_self _ _); omega
    rw [List.orderedInsert, if_neg ha, ih (fun b hb => h b (List.mem_cons_of_mem _ hb))]
    rfl

theorem toSet_fold_sorted (xs : List Nat) : ∀ acc : List Nat, (acc ++ xs).Sorted (· < ·) →
    xs.foldl intSetInsert acc = acc ++ xs := by
  induction xs with
  | nil => intro acc _; simp
  | cons x xs ih =>
    intro acc h
    have hlt : ∀ a ∈ acc, a < x := by
      intro a ha
      exact (List.pairwise_append.mp h).2.2 a ha x (List.mem_cons_self _ _)
    have hx : x ∉ acc := fun hm => Nat.lt_irrefl x (hlt x hm)
    have e : intSetInsert acc x = acc ++ [x] := by
      unfold intSetInsert
      rw [if_neg hx, orderedInsert_of_all_lt acc x hlt]
    rw [List.foldl_cons, e, ih]
    · simp
    · simpa using h

/-- A strictly increasing range is its own `std::set`. -/
theorem toSet_sorted (xs : List Nat) (h : xs.Sorted (· < ·)) : toSet xs = xs := by
  unfold toSet
  rw [toSet_fold_sorted xs [] (by simpa using h)]
  simp

theorem filter_mem_cons_of_lt (as bs : List Nat) (b : Nat) (h : ∀ a ∈ as, b < a) :
    as.filter (fun x => decide (x ∈ b :: bs)) = as.filter (fun x => decide (x ∈ bs)) := by
  apply List.filter_congr
  intro a ha
  have : a ≠ b := by have := h a ha; omega
  simp [this]

theorem set_intersection_go (fuel : Nat) : ∀ (xs ys : List Nat),
    xs.length + ys.length ≤ fuel → xs.Sorted (· < ·) → ys.Sorted (· < ·) →
    set_intersection.go fuel xs ys = xs.filter (fun x => decide (x ∈ ys)) := by
  induction fuel with
  | zero =>
    intro xs ys hf _ _
    have : xs = [] := List.length_eq_zero.mp (by omega)
    subst this
    rfl
  | succ fuel ih =>
    intro xs ys hf hx hy
    cases xs with
    | nil => rfl
    | cons a as =>
      cases ys with
      | nil => simp [set_intersection.go]
      | cons b bs =>
        simp only [List.length_cons] at hf
        have hxa := List.sorted_cons.mp hx
        have hyb := List.sorted_cons.mp hy
        rw [set_intersection.go]
        by_cases h1 : a < b
        · rw [if_pos h1, ih as (b :: bs) (by simp only [List.length_cons]; omega) hxa.2 hy]
          have hna : a ∉ b :: bs := by
            intro hm
            rcases List.mem_cons.mp hm with e | hm'
            · omega
            · have := hyb.1 a hm'; omega
          rw [List.filter_cons_of_neg (by simpa using hna)]
        · rw [if_neg h1]
          by_cases h2 : b < a
          · rw [if_pos h2, ih (a :: as) bs (by simp only [List.length_cons]; omega) hx hyb.2]
            symm
            apply filter_mem_cons_of_lt
            intro x hxm
            rcases List.mem_cons.mp hxm with e | hm'
            · omega
            · have := hxa.1 x hm'; omega
          · rw [if_neg h2]
            have hab : a = b := by omega
            subst hab
            rw [ih as bs (by omega) hxa.2 hyb.2, List.filter_cons_of_pos (by simp)]
            congr 1
            exact (filter_mem_cons_of_lt as bs a hxa.1).symm

/-- On strictly increasing ranges `std::set_intersection` keeps the elements
of the first range that occur in the second. -/
theorem set_intersection_sorted (xs ys : List Nat) (hx : xs.Sorted (· < ·))
    (hy : ys.Sorted (· < ·)) :
    set_intersection xs ys = xs.filter (fun x => decide (x ∈ ys)) :=
  set_intersection_go _ xs ys (le_refl _) hx hy

/-! ### findCellTypes -/

theorem collect_inner (g : String) (idx : EliasFanoIndex) :
    ∀ (cts : List (Nat × List String)) (a : Nat),
    find (idx.foldl (fun cts ct_it =>
        assign cts ct_it.1 (strSetInsert ((find cts ct_it.1).getD []) g)) cts) a
      = if a ∈ idx.map Prod.fst then some (strSetInsert ((find cts a).getD []) g)
        else find cts a := by
  induction idx with
  | nil => intro cts a; simp
  | cons ct idx ih =>
    intro cts a
    rw [List.foldl_cons, ih]
    by_cases ha : a = ct.1
    · subst ha
      simp only [find_assign_self, Option.getD_some, List.map_cons, List.mem_cons, true_or,
        if_true, strSetInsert_idem]
      split <;> rfl
    · have h1 : (a ∈ (ct :: idx).map Prod.fst) ↔ a ∈ idx.map Prod.fst := by
        simp [ha]
      rw [find_assign_ne _ _ _ _ ha]
      by_cases h2 : a ∈ idx.map Prod.fst
      · rw [if_pos h2, if_pos (h1.mpr h2)]
      · rw [if_neg h2, if_neg (fun h => h2 (h1.mp h))]

theorem collect_inner_nodup (g : String) (idx : EliasFanoIndex) :
    ∀ (cts : List (Nat × List String)), (cts.map Prod.fst).Nodup →
    ((idx.foldl (fun cts ct_it =>
        assign cts ct_it.1 (strSetInsert ((find cts ct_it.1).getD []) g)) cts).map
      Prod.fst).Nodup := by
  induction idx with
  | nil => intro cts h; exact h
  | cons ct idx ih => intro cts h; exact ih _ (nodup_keys_assign _ _ _ h)

theorem hasNode_of_find {db : EliasFanoDB} {g : String} {idx : EliasFanoIndex}
    (h : find db.metadata g = some idx) (a : Nat) :
    hasNode db g a ↔ a ∈ idx.map Prod.fst := by
  constructor
  · rintro ⟨idx', h1, h2⟩
    rw [h] at h1
    injection h1 with h1
    exact h1 ▸ h2
  · intro ha
    exact ⟨idx, h, ha⟩

theorem not_hasNode_of_find_none {db : EliasFanoDB} {g : String}
    (h : find db.metadata g = none) (a : Nat) : ¬ hasNode db g a := by
  rintro ⟨idx, h1, _⟩
  rw [h] at h1
  exact Option.noConfusion h1

theorem strSetInsert_ne_nil (S : List String) (g : String) : strSetInsert S g ≠ [] :=
  List.ne_nil_of_mem ((mem_strSetInsert S g g).mpr (Or.inl rfl))

theorem collect_visit (db : EliasFanoDB) (P : List String)
    (st : List (Nat × List String) × List String) (g : String) (h : CollectInv db P st) :
    CollectInv db (P ++ [g]) (findCellTypes.visit db st g) := by
  obtain ⟨h1, h2, h3, h4⟩ := h
  unfold findCellTypes.visit
  cases hmd : find db.metadata g with
  | none =>
    simp only
    refine ⟨?_, h2, ?_, ?_⟩
    · rw [h1, List.filter_append]; simp [hmd]
    · intro a S hS
      refine ⟨(h3 a S hS).1, (h3 a S hS).2.1, fun g' => ?_⟩
      rw [(h3 a S hS).2.2 g', List.mem_append, List.mem_singleton]
      constructor
      · exact fun hh => ⟨Or.inl hh.1, hh.2⟩
      · rintro ⟨hP | rfl, hn⟩
        · exact ⟨hP, hn⟩
        · exact absurd hn (not_hasNode_of_find_none hmd a)
    · intro a ha g' hg'
      rcases List.mem_append.mp hg' with hP | hg
      · exact h4 a ha g' hP
      · rw [List.mem_singleton] at hg
        subst hg
        exact not_hasNode_of_find_none hmd a
  | some idx =>
    simp only
    refine ⟨?_, collect_inner_nodup g idx st.1 h2, ?_, ?_⟩
    · rw [h1, List.filter_append]; simp [hmd]
    · intro a S hS
      rw [collect_inner] at hS
      by_cases ha : a ∈ idx.map Prod.fst
      · rw [if_pos ha] at hS
        injection hS with hS
        subst hS
        refine ⟨strSetInsert_ne_nil _ _, ?_⟩
        cases hold : find st.1 a with
        | none =>
          simp only [Option.getD_none]
          refine ⟨nodup_strSetInsert _ _ List.nodup_nil, fun g' => ?_⟩
          rw [mem_strSetInsert, List.mem_append, List.mem_singleton]
          constructor
          · rintro (rfl | hh)
            · exact ⟨Or.inr rfl, (hasNode_of_find hmd a).mpr ha⟩
            · simp at hh
          · rintro ⟨hP | rfl, hn⟩
            · exact absurd hn (h4 a hold g' hP)
            · exact Or.inl rfl
        | some S0 =>
          simp only [Option.getD_some]
          refine ⟨nodup_strSetInsert _ _ (h3 a S0 hold).2.1, fun g' => ?_⟩
          rw [mem_strSetInsert, (h3 a S0 hold).2.2 g', List.mem_append, List.mem_singleton]
          constructor
          · rintro (rfl | ⟨hP, hn⟩)
            · exact ⟨Or.inr rfl, (hasNode_of_find hmd a).mpr ha⟩
            · exact ⟨Or.inl hP, hn⟩
          · rintro ⟨hP | rfl, hn⟩
            · exact Or.inr ⟨hP, hn⟩
            · exact Or.inl rfl
      · rw [if_neg ha] at hS
        refine ⟨(h3 a S hS).1, (h3 a S hS).2.1, fun g' => ?_⟩
        rw [(h3 a S hS).2.2 g', List.mem_append, List.mem_singleton]
        constructor
        · exact fun hh => ⟨Or.inl hh.1, hh.2⟩
        · rintro ⟨hP | rfl, hn⟩
          · exact ⟨hP, hn⟩
          · exact absurd ((hasNode_of_find hmd a).mp hn) ha
    · intro a ha g' hg'
      rw [collect_inner] at ha
      by_cases hk : a ∈ idx.map Prod.fst
      · rw [if_pos hk] at ha; exact Option.noConfusion ha
      · rw [if_neg hk] at ha
        rcases List.mem_append.mp hg' with hP | hg
        · exact h4 a ha g' hP
        · rw [List.mem_singleton] at hg
          subst hg
          exact fun hn => hk ((hasNode_of_find hmd a).mp hn)

theorem collect_fold (db : EliasFanoDB) (G : List String) :
    ∀ (P : List String) (st : List (Nat × List String) × List String),
    CollectInv db P st → CollectInv db (P ++ G) (G.foldl (findCellTypes.visit db) st) := by
  induction G with
  | nil => intro P st h; simpa using h
  | cons g G ih =>
    intro P st h
    have := ih (P ++ [g]) _ (collect_visit db P st g h)
    simpa [List.append_assoc] using this

/-- The first loop of `findCellTypes` establishes its invariant for the whole
request. -/
theorem collect_inv (db : EliasFanoDB) (G : List String) :
    CollectInv db G (findCellTypes.collect db G) := by
  have h0 : CollectInv db [] ([], []) :=
    ⟨rfl, List.nodup_nil, fun a S h => by simp [find] at h, fun a _ g hg => by simp at hg⟩
  simpa using collect_fold db G [] ([], []) h0

/-- Lookup in a named list filled by conditional assignments under pairwise
distinct names. -/
theorem find_foldl_emit {α υ : Type} (key : α → String) (val : α → Option υ) (l : List α) :
    ∀ (t0 : List (String × υ)), (l.map key).Nodup → ∀ (T : String) (c : υ),
    (find (l.foldl (fun t x => assignIf t (key x) (val x)) t0) T = some c ↔
      (∃ x ∈ l, key x = T ∧ val x = some c) ∨
      ((∀ x ∈ l, key x = T → val x = none) ∧ find t0 T = some c)) := by
  induction l with
  | nil => intro t0 _ T c; simp
  | cons x l ih =>
    intro t0 hnd T c
    simp only [List.map_cons, List.nodup_cons] at hnd
    rw [List.foldl_cons, ih _ hnd.2]
    have hkey : key x = T → ∀ y ∈ l, key y ≠ T := by
      intro hx y hy e
      exact hnd.1 (List.mem_map.mpr ⟨y, hy, e.trans hx.symm⟩)
    cases hv : val x with
    | none =>
      simp only [assignIf]
      constructor
      · rintro (⟨y, hy, h1, h2⟩ | ⟨hall, h0⟩)
        · exact Or.inl ⟨y, List.mem_cons_of_mem _ hy, h1, h2⟩
        · refine Or.inr ⟨?_, h0⟩
          intro y hy hk
          rcases List.mem_cons.mp hy with rfl | hy'
          · exact hv
          · exact hall y hy' hk
      · rintro (⟨y, hy, h1, h2⟩ | ⟨hall, h0⟩)
        · rcases List.mem_cons.mp hy with rfl | hy'
          · rw [hv] at h2; exact Option.noConfusion h2
          · exact Or.inl ⟨y, hy', h1, h2⟩
        · exact Or.inr ⟨fun y hy => hall y (List.mem_cons_of_mem _ hy), h0⟩
    | some c' =>
      simp only [assignIf]
      rw [find_assign]
      constructor
      · rintro (⟨y, hy, h1, h2⟩ | ⟨hall, h0⟩)
        · exact Or.inl ⟨y, List.mem_cons_of_mem _ hy, h1, h2⟩
        · by_cases hT : T = key x
          · rw [if_pos hT] at h0
            exact Or.inl ⟨x, List.mem_cons_self _ _, hT.symm, by rw [hv, h0]⟩
          · rw [if_neg hT] at h0
            refine Or.inr ⟨?_, h0⟩
            intro y hy hk
            rcases List.mem_cons.mp hy with rfl | hy'
            · exact absurd hk.symm hT
            · exact hall y hy' hk
      · rintro (⟨y, hy, h1, h2⟩ | ⟨hall, h0⟩)
        · rcases List.mem_cons.mp hy with rfl | hy'
          · refine Or.inr ⟨fun z hz hk => absurd hk (hkey h1 z hz), ?_⟩
            rw [if_pos h1.symm, ← h2, hv]
          · exact Or.inl ⟨y, hy', h1, h2⟩
        · have hx : key x ≠ T := by
            intro e
            have := hall x (List.mem_cons_self _ _) e
            rw [hv] at this
            exact Option.noConfusion this
          exact Or.inr ⟨fun y hy => hall y (List.mem_cons_of_mem _ hy),
            by rw [if_neg (Ne.symm hx)]; exact h0⟩


theorem hasNode_valid (db : EliasFanoDB) (h : WF db) (g : String) (a : Nat)
    (hn : hasNode db g a) :
    a < db.cell_types.length ∧ ∃ i, entry db g (cellTypeName db a) i ∧
      postingAt db g a = recordAt db i := by
  obtain ⟨idx, h1, h2⟩ := hn
  have hs : (find idx a).isSome := (find_isSome_iff idx a).mpr h2
  obtain ⟨i, hi⟩ := Option.isSome_iff_exists.mp hs
  have hv := (h.valid g idx a i h1 hi).1
  refine ⟨hv, i, ⟨idx, a, h1, hi, (cellTypeName_eq_iff db a _ hv).mpr rfl⟩, ?_⟩
  unfold postingAt
  rw [h1, Option.getD_some, hi, Option.getD_some]

theorem entry_hasNode (db : EliasFanoDB) (h : WF db) (g T : String) (i : Nat)
    (he : entry db g T i) :
    T ∈ db.cell_types ∧ hasNode db g (db.cell_types.indexOf T) ∧
      cellTypeName db (db.cell_types.indexOf T) = T ∧
      postingAt db g (db.cell_types.indexOf T) = recordAt db i := by
  obtain ⟨idx, a, h1, h2, h3⟩ := he
  obtain ⟨hT, ha⟩ := (getElem?_eq_some_iff_indexOf h.pool_nodup a T).mp h3
  subst ha
  have hv := (h.valid g idx _ i h1 h2).1
  refine ⟨hT, ⟨idx, h1, (find_isSome_iff idx _).mp (by rw [h2]; rfl)⟩,
    (cellTypeName_eq_iff db _ T hv).mp h3, ?_⟩
  unfold postingAt
  rw [h1, Option.getD_some, h2, Option.getD_some]

/-- Lookup in the answer of `findCellTypes` on a well-formed store: the name is
the name of a collected node whose body of the second loop stores the set. -/
theorem findCellTypes_find (db : EliasFanoDB) (h : WF db) (G : List String) (T : String)
    (cells : List Nat) :
    find (findCellTypes db G) T = some cells ↔
      ∃ a S, find (findCellTypes.collect db G).1 a = some S ∧ cellTypeName db a = T ∧
        findCellTypes.emit db (findCellTypes.collect db G).2 (a, S) = some cells := by
  obtain ⟨_, hk, hc, _⟩ := collect_inv db G
  have hvalid : ∀ a ∈ (findCellTypes.collect db G).1.map Prod.fst, a < db.cell_types.length := by
    intro a ha
    obtain ⟨S, hS⟩ := Option.isSome_iff_exists.mp ((find_isSome_iff _ a).mpr ha)
    obtain ⟨hne, _, hmem⟩ := hc a S hS
    obtain ⟨g, hg⟩ := List.exists_mem_of_ne_nil S hne
    exact (hasNode_valid db h g a ((hmem g).mp hg).2).1
  have hnames : ((findCellTypes.collect db G).1.map
      (fun ct => cellTypeName db ct.1)).Nodup := by
    have e : (findCellTypes.collect db G).1.map (fun ct => cellTypeName db ct.1)
        = ((findCellTypes.collect db G).1.map Prod.fst).map (cellTypeName db) := by
      rw [List.map_map]; rfl
    rw [e]
    apply List.Nodup.map_on _ hk
    intro a ha b hb e
    exact cellTypeName_inj db h a b (hvalid a ha) (hvalid b hb) e
  have key := find_foldl_emit (fun ct : Nat × List String => cellTypeName db ct.1)
    (findCellTypes.emit db (findCellTypes.collect db G).2) (findCellTypes.collect db G).1 []
    hnames T cells
  constructor
  · intro hf
    rcases key.mp hf with ⟨ct, hct, h1, h2⟩ | ⟨_, h0⟩
    · exact ⟨ct.1, ct.2, find_of_mem hk hct, h1, h2⟩
    · simp [find] at h0
  · rintro ⟨a, S, h1, h2, h3⟩
    exact key.mpr (Or.inl ⟨(a, S), mem_of_find h1, h2, h3⟩)

/-- A collected gene set as long as `genes` holds exactly the requested genes
that are in the index, and `genes` has no duplicates. -/
theorem collect_full (db : EliasFanoDB) (G : List String) (a : Nat) (S : List String)
    (hS : find (findCellTypes.collect db G).1 a = some S)
    (hlen : S.length = (findCellTypes.collect db G).2.length) :
    ∀ g, g ∈ G → (find db.metadata g).isSome → g ∈ S ∧ hasNode db g a := by
  obtain ⟨hg, _, hc, _⟩ := collect_inv db G
  obtain ⟨_, hnd, hmem⟩ := hc a S hS
  have hsub : S ⊆ (findCellTypes.collect db G).2 := by
    intro g hgS
    obtain ⟨hG, idx, h1, _⟩ := (hmem g).mp hgS
    rw [hg, List.mem_filter]
    exact ⟨hG, by rw [h1]; rfl⟩
  have hperm := (hnd.subperm hsub).perm_of_length_le (le_of_eq hlen.symm)
  intro g hG hp
  have : g ∈ (findCellTypes.collect db G).2 := by
    rw [hg, List.mem_filter]; exact ⟨hG, hp⟩
  have hgS := hperm.mem_iff.mpr this
  exact ⟨hgS, ((hmem g).mp hgS).2⟩


theorem sorted_ext (l1 l2 : List Nat) (h1 : l1.Sorted (· < ·)) (h2 : l2.Sorted (· < ·))
    (h : ∀ x, x ∈ l1 ↔ x ∈ l2) : l1 = l2 := by
  have n1 : l1.Nodup := h1.imp (fun h => Nat.ne_of_lt h)
  have n2 : l2.Nodup := h2.imp (fun h => Nat.ne_of_lt h)
  exact List.eq_of_perm_of_sorted ((List.perm_ext_iff_of_nodup n1 n2).mpr h) h1 h2

/-- On strictly increasing postings the intersection loop of `findCellTypes`
returns the elements of the start set that occur in every posting, unless a
gene was visited and that set is empty. -/
theorem intersect_sorted (db : EliasFanoDB) (a : Nat) :
    ∀ (gs : List String) (ic : List Nat), ic.Sorted (· < ·) →
    (∀ g ∈ gs, (eliasFanoDecoding (postingAt db g a)).Sorted (· < ·)) →
    findCellTypes.intersect db a ic gs =
      if gs ≠ [] ∧ ic.filter (fun x =>
          gs.all (fun g => decide (x ∈ eliasFanoDecoding (postingAt db g a)))) = []
      then none
      else some (ic.filter (fun x =>
          gs.all (fun g => decide (x ∈ eliasFanoDecoding (postingAt db g a))))) := by
  intro gs
  induction gs with
  | nil => intro ic _ _; simp [findCellTypes.intersect]
  | cons g gs ih =>
    intro ic hic hP
    have hPg := hP g (List.mem_cons_self _ _)
    have hn : toSet (set_intersection ic (eliasFanoDecoding (postingAt db g a)))
        = ic.filter (fun x => decide (x ∈ eliasFanoDecoding (postingAt db g a))) := by
      rw [set_intersection_sorted ic _ hic hPg]
      exact toSet_sorted _ (hic.filter _)
    have hff : (ic.filter (fun x => decide (x ∈ eliasFanoDecoding (postingAt db g a)))).filter
        (fun x => gs.all (fun g' => decide (x ∈ eliasFanoDecoding (postingAt db g' a))))
        = ic.filter (fun x => (g :: gs).all
            (fun g' => decide (x ∈ eliasFanoDecoding (postingAt db g' a)))) := by
      rw [List.filter_filter]
      apply List.filter_congr
      intro x _
      simp only [List.all_cons, Bool.and_comm]
    have hstep : findCellTypes.intersect db a ic (g :: gs) =
        if (ic.filter (fun x => decide (x ∈ eliasFanoDecoding (postingAt db g a)))).length ≠ 0
        then findCellTypes.intersect db a
          (ic.filter (fun x => decide (x ∈ eliasFanoDecoding (postingAt db g a)))) gs
        else none := by
      rw [findCellTypes.intersect]
      simp only [hn]
    rw [hstep]
    by_cases he : ic.filter (fun x => decide (x ∈ eliasFanoDecoding (postingAt db g a))) = []
    · have hall : ic.filter (fun x => (g :: gs).all
          (fun g' => decide (x ∈ eliasFanoDecoding (postingAt db g' a)))) = [] := by
        rw [← hff, he]; rfl
      rw [he, if_neg (by simp), if_pos ⟨List.cons_ne_nil g gs, hall⟩]
    · have hlen : (ic.filter (fun x =>
          decide (x ∈ eliasFanoDecoding (postingAt db g a)))).length ≠ 0 := by
        intro h0; exact he (List.length_eq_zero.mp h0)
      rw [if_pos hlen, ih _ (hic.filter _) (fun g' hg' => hP g' (List.mem_cons_of_mem _ hg')), hff]
      by_cases hf : ic.filter (fun x => (g :: gs).all
          (fun g' => decide (x ∈ eliasFanoDecoding (postingAt db g' a)))) = []
      · have hgs : gs ≠ [] := by
          intro hgs
          subst hgs
          apply he
          rw [← hf, ← hff]
          simp
        rw [if_pos ⟨hgs, hf⟩, if_pos ⟨List.cons_ne_nil g gs, hf⟩]
      · rw [if_neg (fun h => hf h.2), if_neg (fun h => hf h.2)]

theorem posting_good (db : EliasFanoDB) (hwf : WF db) (hgood : AllGood db) (g : String)
    (a : Nat) (hn : hasNode db g a) : GoodPosting (eliasFanoDecoding (postingAt db g a)) := by
  obtain ⟨_, i, hi, hp⟩ := hasNode_valid db hwf g a hn
  rw [hp]
  apply hgood
  unfold recordAt
  rw [List.getD_eq_getElem _ _ (entry_lt db hwf g _ i hi)]
  exact List.getElem_mem _

/-- The body of the second loop of `findCellTypes` for a node whose gene set
is as long as `genes`, on good postings: it stores exactly the non-empty
intersection of the postings of the genes of the set. -/
theorem emit_spec (db : EliasFanoDB) (hwf : WF db) (hgood : AllGood db) (genes : List String)
    (a : Nat) (S : List String) (hne : S ≠ []) (hlen : S.length = genes.length)
    (hnode : ∀ g ∈ S, hasNode db g a) (cells : List Nat) :
    findCellTypes.emit db genes (a, S) = some cells ↔
      cells ≠ [] ∧ cells.Sorted (· < ·) ∧
      ∀ x, x ∈ cells ↔ ∀ g ∈ S, x ∈ eliasFanoDecoding (postingAt db g a) := by
  have hsorted : ∀ g ∈ S, (eliasFanoDecoding (postingAt db g a)).Sorted (· < ·) :=
    fun g hg => (posting_good db hwf hgood g a (hnode g hg)).2.1
  have hhead : S.headD "" ∈ S := by
    cases S with
    | nil => exact absurd rfl hne
    | cons s S => simp
  have hmem : ∀ x, x ∈ (eliasFanoDecoding (postingAt db (S.headD "") a)).filter (fun x =>
      S.all (fun g => decide (x ∈ eliasFanoDecoding (postingAt db g a)))) ↔
      ∀ g ∈ S, x ∈ eliasFanoDecoding (postingAt db g a) := by
    intro x
    simp only [List.mem_filter, List.all_eq_true, decide_eq_true_eq]
    exact ⟨fun h => h.2, fun h => ⟨h _ hhead, h⟩⟩
  unfold findCellTypes.emit
  simp only [hlen, ne_eq, not_true_eq_false, if_false]
  rw [toSet_sorted _ (hsorted _ hhead), intersect_sorted db a S _ (hsorted _ hhead) hsorted]
  constructor
  · intro h
    split at h
    · exact Option.noConfusion h
    · rename_i hc
      injection h with h
      subst h
      refine ⟨fun e => hc ⟨hne, e⟩, (hsorted _ hhead).filter _, hmem⟩
  · rintro ⟨hc, hs, hm⟩
    have e : cells = (eliasFanoDecoding (postingAt db (S.headD "") a)).filter (fun x =>
        S.all (fun g => decide (x ∈ eliasFanoDecoding (postingAt db g a)))) :=
      sorted_ext _ _ hs ((hsorted _ hhead).filter _) (fun x => by rw [hm x, hmem x])
    rw [← e, if_neg (fun h => hc h.2)]

theorem HasPosting_postingAt (db : EliasFanoDB) (hwf : WF db) (g : String) (a : Nat)
    (hn : hasNode db g a) (p : List Nat) :
    HasPosting db g (cellTypeName db a) p ↔ p = eliasFanoDecoding (postingAt db g a) := by
  obtain ⟨_, i, hi, hp⟩ := hasNode_valid db hwf g a hn
  have h0 : HasPosting db g (cellTypeName db a) (eliasFanoDecoding (postingAt db g a)) :=
    ⟨i, hi, by rw [hp]⟩
  exact ⟨fun h => HasPosting_unique db hwf g _ p _ h h0, fun h => h ▸ h0⟩

/-- The answer of `findCellTypes` for a non-empty request of pairwise distinct
genes that are all in the index, on a well-formed store of good records. -/
theorem findCellTypes_spec (db : EliasFanoDB) (hwf : WF db) (hgood : AllGood db)
    (G : List String) (hne : G ≠ []) (hnd : G.Nodup)
    (hpres : ∀ g ∈ G, (find db.metadata g).isSome) (T : String) (cells : List Nat) :
    find (findCellTypes db G) T = some cells ↔
      (∀ g ∈ G, ∃ p, HasPosting db g T p) ∧ cells ≠ [] ∧ cells.Sorted (· < ·) ∧
      ∀ x, x ∈ cells ↔ ∀ g ∈ G, ∀ p, HasPosting db g T p → x ∈ p := by
  obtain ⟨hg, hk, hc, hd⟩ := collect_inv db G
  have hgenes : (findCellTypes.collect db G).2 = G := by
    rw [hg, List.filter_eq_self]
    intro g hgG
    exact hpres g hgG
  rw [findCellTypes_find db hwf G T cells]
  constructor
  · rintro ⟨a, S, hS, hT, hemit⟩
    have hlen : S.length = (findCellTypes.collect db G).2.length := by
      by_contra hne'
      unfold findCellTypes.emit at hemit
      rw [if_pos hne'] at hemit
      exact Option.noConfusion hemit
    obtain ⟨hSne, _, hmem⟩ := hc a S hS
    have hfull := collect_full db G a S hS hlen
    have hSG : ∀ g, g ∈ S ↔ g ∈ G :=
      fun g => ⟨fun h => ((hmem g).mp h).1, fun h => (hfull g h (hpres g h)).1⟩
    have hnode : ∀ g ∈ S, hasNode db g a := fun g h => ((hmem g).mp h).2
    obtain ⟨h1, h2, h3⟩ := (emit_spec db hwf hgood _ a S hSne hlen hnode cells).mp hemit
    subst hT
    refine ⟨fun g hgG => ⟨_, (HasPosting_postingAt db hwf g a
      (hnode g ((hSG g).mpr hgG)) _).mpr rfl⟩, h1, h2, fun x => ?_⟩
    rw [h3 x]
    constructor
    · intro h g hgG p hp
      rw [(HasPosting_postingAt db hwf g a (hnode g ((hSG g).mpr hgG)) p).mp hp]
      exact h g ((hSG g).mpr hgG)
    · intro h g hgS
      exact h g ((hSG g).mp hgS) _
        ((HasPosting_postingAt db hwf g a (hnode g hgS) _).mpr rfl)
  · rintro ⟨hall, h1, h2, h3⟩
    obtain ⟨g0, hg0⟩ := List.exists_mem_of_ne_nil G hne
    have hnodeG : ∀ g ∈ G, hasNode db g (db.cell_types.indexOf T) ∧
        cellTypeName db (db.cell_types.indexOf T) = T := by
      intro g hgG
      obtain ⟨p, i, hi, _⟩ := hall g hgG
      obtain ⟨_, hn, hname, _⟩ := entry_hasNode db hwf g T i hi
      exact ⟨hn, hname⟩
    have hname := (hnodeG g0 hg0).2
    cases hS : find (findCellTypes.collect db G).1 (db.cell_types.indexOf T) with
    | none => exact absurd (hnodeG g0 hg0).1 (hd _ hS g0 hg0)
    | some S =>
      obtain ⟨hSne, hSnd, hmem⟩ := hc _ S hS
      have hSG : ∀ g, g ∈ S ↔ g ∈ G :=
        fun g => ⟨fun h => ((hmem g).mp h).1, fun h => (hmem g).mpr ⟨h, (hnodeG g h).1⟩⟩
      have hlen : S.length = (findCellTypes.collect db G).2.length := by
        rw [hgenes]
        exact ((List.perm_ext_iff_of_nodup hSnd hnd).mpr hSG).length_eq
      have hnode : ∀ g ∈ S, hasNode db g (db.cell_types.indexOf T) :=
        fun g h => ((hmem g).mp h).2
      refine ⟨db.cell_types.indexOf T, S, hS, hname,
        (emit_spec db hwf hgood _ _ S hSne hlen hnode cells).mpr ⟨h1, h2, fun x => ?_⟩⟩
      rw [h3 x]
      constructor
      · intro h g hgS
        have hp := (HasPosting_postingAt db hwf g _ (hnode g hgS) _).mpr rfl
        rw [hname] at hp
        exact h g ((hSG g).mp hgS) _ hp
      · intro h g hgG p hp
        have hp' := hp
        rw [← hname] at hp'
        rw [(HasPosting_postingAt db hwf g _ (hnode g ((hSG g).mpr hgG)) p).mp hp']
        exact h g ((hSG g).mpr hgG)

theorem HasPosting_good (db : EliasFanoDB) (hwf : WF db) (hgood : AllGood db) (g T : String)
    (p : List Nat) (hp : HasPosting db g T p) : GoodPosting p := by
  obtain ⟨i, hi, rfl⟩ := hp
  apply hgood
  unfold recordAt
  rw [List.getD_eq_getElem _ _ (entry_lt db hwf g T i hi)]
  exact List.getElem_mem _

theorem findCellTypes_absent (db : EliasFanoDB) (g : String)
    (h : find db.metadata g = none) : findCellTypes db [g] = [] := by
  unfold findCellTypes findCellTypes.collect
  simp [findCellTypes.visit, h]

/-! ### The codec, ingest and lookup -/

/-- Round trip of the bit halves: for a non-empty strictly increasing list `x`
of positive ordinals bounded by the length `n` of the row (`n` fits an `int`
and the low width stays below the word size), `eliasFanoCoding`, the method
without its call of `lognormalcdf`, pushes one record, built at the width
`efWidth`, and returns its position, and `eliasFanoDecoding` of that record is
`x`. -/
theorem eliasFano_round_trip (db : EliasFanoDB) (x : List Nat) (values : List Int)
    (hne : x ≠ []) (hs : x.Sorted (· < ·)) (hpos : ∀ a ∈ x, 0 < a)
    (hmax : ∀ a ∈ x, a ≤ values.length) (hn : values.length < 2 ^ 31)
    (_hl : efWidth values.length x.length < 32) :
    (eliasFanoCoding db x values).2 = (db.ef_data.length : Int) ∧
    (eliasFanoCoding db x values).1.ef_data.length = db.ef_data.length + 1 ∧
    eliasFanoDecoding (recordAt (eliasFanoCoding db x values).1 db.ef_data.length) = x := by
  have hemp : x.isEmpty = false := by
    cases x with
    | nil => exact absurd rfl hne
    | cons a as => rfl
  unfold eliasFanoCoding recordAt
  simp only [hemp, Bool.false_eq_true, if_false, List.length_append, List.length_singleton,
    true_and]
  rw [List.getD_eq_getElem?_getD, List.getElem?_append_right (le_refl _)]
  simp only [Nat.sub_self, List.getElem?_cons_zero, Option.getD_some]
  exact decode_eliasFanoRecord x values.length hs hpos hmax hn

/-- Ingest then query, for what `encodeMatrix` does to the fields of the store
(its call of `lognormalcdf` left aside): on a well-formed store, with `M` in
machine range and its row names pairwise distinct, for every row of `M` with a
value `> 0` the answer of `queryGenes [gene]` maps the gene to a list that maps
`cell_type` to `[i : v[i] > 0]` (1-based, increasing). -/
theorem encodeMatrix_then_queryGenes (db : EliasFanoDB) (cell_type : String)
    (M : NumericMatrix) (hwf : WF db) (hM : M.Valid)
    (hnames : (M.rows.map Prod.fst).Nodup)
    (row : String × List Int) (hrow : row ∈ M.rows) (hpos : ∃ e ∈ row.2, e > 0) :
    ∃ v, find (queryGenes (encodeMatrix db cell_type M) [row.1]) row.1 = some v ∧
      find v cell_type = some (expressing row.2) := by
  obtain ⟨db0, e, h1, h2, h3, _⟩ := encodeMatrix_eq db cell_type M
  have hwf0 : WF db0 := WF_of_eq h1 h2 h3 hwf
  have hne := sparse_index_ne_nil row.2 hpos 0
  obtain ⟨i, hent, hrec⟩ := rows_posted cell_type M.rows db0 hwf0 hnames row hrow hne
  have hwf' := rows_wf cell_type M.rows db0 hwf0
  rw [e, queryGenes_find]
  obtain ⟨idx, a, hidx, hfa, hT⟩ := hent
  refine ⟨queryGenes.cellTypes (M.rows.foldl (encodeRow cell_type) db0) idx, ?_, ?_⟩
  · simp [hidx]
  · rw [cellTypes_find _ hwf' row.1 idx hidx]
    refine ⟨i, ⟨idx, a, hidx, hfa, hT⟩, ?_⟩
    have hlen : row.2.length < 2 ^ 31 := by
      rw [(hM.2 row hrow).1]; exact hM.1
    rw [hrec, decode_row_record row.2 hlen, sparse_index_eq_expressing]

/-- C8. Characterisation of `queryGenes` on a well-formed store: a gene is a
key of the answer exactly when it is requested and present in the index; its
value lists the entries of the gene, one per stored cell type, each with the
decoded posting, under pairwise distinct names; a request of unknown genes
only yields the empty answer. The function reads the store and returns the
answer only. -/
theorem queryGenes_characterisation (db : EliasFanoDB) (hwf : WF db) (G : List String) :
    (∀ g, (find (queryGenes db G) g).isSome ↔ g ∈ G ∧ (find db.metadata g).isSome) ∧
    (∀ g v, find (queryGenes db G) g = some v →
      ∃ idx, find db.metadata g = some idx ∧
        v = idx.map (fun d => (cellTypeName db d.1, eliasFanoDecoding (recordAt db d.2))) ∧
        (v.map Prod.fst).Nodup ∧
        ∀ T p, find v T = some p ↔ HasPosting db g T p) ∧
    ((∀ g ∈ G, find db.metadata g = none) → queryGenes db G = []) := by
  refine ⟨?_, ?_, ?_⟩
  · intro g
    rw [queryGenes_find]
    by_cases hg : g ∈ G
    · cases hmd : find db.metadata g <;> simp [hg]
    · simp [hg]
  · intro g v hv
    rw [queryGenes_find] at hv
    by_cases hg : g ∈ G
    · rw [if_pos hg] at hv
      cases hmd : find db.metadata g with
      | none => rw [hmd] at hv; simp at hv
      | some idx =>
        rw [hmd] at hv
        simp only [Option.map_some'] at hv
        injection hv with hv
        subst hv
        refine ⟨idx, rfl, cellTypes_eq_map db hwf g idx hmd, ?_, ?_⟩
        · rw [cellTypes_eq_map db hwf g idx hmd, List.map_map]
          exact names_nodup db hwf g idx hmd
        · intro T p
          exact cellTypes_find db hwf g idx hmd T p
    · rw [if_neg hg] at hv; simp at hv
  · intro hnone
    unfold queryGenes
    have : ∀ (G : List String) (t0 : List (String × List (String × List Nat))),
        (∀ g ∈ G, find db.metadata g = none) →
        G.foldl (fun t gene_name =>
          match find db.metadata gene_name with
          | none => t
          | some gene_meta => assign t gene_name (queryGenes.cellTypes db gene_meta)) t0 = t0 := by
      intro G
      induction G with
      | nil => intro t0 _; rfl
      | cons x G ih =>
        intro t0 hx
        rw [List.foldl_cons, hx x (List.mem_cons_self _ _)]
        exact ih t0 (fun g hg => hx g (List.mem_cons_of_mem _ hg))
    exact this G [] hnone

/-- Witness of C8: the unknown gene `ZZZ` next to two genes of a slice `T`. -/
theorem queryGenes_characterisation_witness :
    queryGenes (encodeMatrix EliasFanoDB.empty "T"
        ⟨4, [("A", [1, 1, 1, 0]), ("B", [0, 2, 3, 1])]⟩) ["ZZZ"] = [] ∧
    ((find (queryGenes (encodeMatrix EliasFanoDB.empty "T"
        ⟨4, [("A", [1, 1, 1, 0]), ("B", [0, 2, 3, 1])]⟩) ["A", "ZZZ"]) "A").isSome ↔
      "A" ∈ ["A", "ZZZ"] ∧ (find (encodeMatrix EliasFanoDB.empty "T"
        ⟨4, [("A", [1, 1, 1, 0]), ("B", [0, 2, 3, 1])]⟩).metadata "A").isSome) :=
  ⟨by decide,
    (queryGenes_characterisation _ (encodeMatrix_wf _ _ _ WF_empty) ["A", "ZZZ"]).1 "A"⟩

theorem linkAll_frame (g : String) (es : List (String × Nat)) :
    ∀ st : List String × CellTypeIndex,
    (∃ t, (linkAll g es st).1 = st.1 ++ t) ∧
    ∀ g', g' ≠ g → find (linkAll g es st).2 g' = find st.2 g' := by
  induction es with
  | nil => intro st; exact ⟨⟨[], by simp [linkAll]⟩, fun _ _ => rfl⟩
  | cons e es ih =>
    intro st
    have hfold : linkAll g (e :: es) st = linkAll g es (link st.1 st.2 g e.1 e.2) := rfl
    rw [hfold]
    obtain ⟨⟨t, ht⟩, hf⟩ := ih (link st.1 st.2 g e.1 e.2)
    obtain ⟨t0, ht0⟩ := intern_eq_append st.1 e.1
    refine ⟨⟨t0 ++ t, ?_⟩, ?_⟩
    · rw [ht]
      show intern st.1 e.1 ++ t = st.1 ++ (t0 ++ t)
      rw [ht0, List.append_assoc]
    · intro g' hg
      rw [hf g' hg, find_link, if_neg hg]

/-- The second loop of `mergeDB` only appends to the pool and leaves the map
of a gene that is not in the list alone. -/
theorem mergeDB_genes_other (db : EliasFanoDB) (ext : CellTypeIndex) (g : String)
    (l : CellTypeIndex) : ∀ st : EliasFanoDB, (∀ ge ∈ l, ge.1 ≠ g) →
    (∃ t, (l.foldl (mergeDB.gene db ext) st).cell_types = st.cell_types ++ t) ∧
    find (l.foldl (mergeDB.gene db ext) st).metadata g = find st.metadata g := by
  induction l with
  | nil => intro st _; exact ⟨⟨[], by simp⟩, rfl⟩
  | cons ge l ih =>
    intro st hne
    obtain ⟨⟨t, ht⟩, hf⟩ := ih (mergeDB.gene db ext st ge)
      (fun ge' h => hne ge' (List.mem_cons_of_mem _ h))
    obtain ⟨_, _, hlink⟩ := mergeDB_gene_index db ext st ge
    obtain ⟨⟨t0, ht0⟩, hf0⟩ := linkAll_frame ge.1
      (((find ext ge.1).getD []).map (fun ct => (cellTypeName db ct.1, ct.2)))
      (st.cell_types,
        if (find st.metadata ge.1).isNone then assign st.metadata ge.1 [] else st.metadata)
    rw [← hlink] at ht0 hf0
    simp only at ht0 hf0
    have hg : g ≠ ge.1 := fun e => hne ge (List.mem_cons_self _ _) e.symm
    rw [List.foldl_cons]
    refine ⟨⟨t0 ++ t, by rw [ht, ht0, List.append_assoc]⟩, ?_⟩
    rw [hf, hf0 g hg]
    cases hmd : find st.metadata ge.1 with
    | some idx => simp
    | none => simp [find_assign_ne _ _ _ _ hg]

theorem mergeDB_pool (self db : EliasFanoDB) :
    ∃ t, (mergeDB self db).cell_types = self.cell_types ++ t := by
  rw [mergeDB_eq]
  have key : ∀ (l : CellTypeIndex) (st : EliasFanoDB),
      ∃ t, (l.foldl (mergeDB.gene db (copyAll self.ef_data.length db.metadata)) st).cell_types
        = st.cell_types ++ t := by
    intro l
    induction l with
    | nil => intro st; exact ⟨[], by simp⟩
    | cons ge l ih =>
      intro st
      obtain ⟨t, ht⟩ := ih (mergeDB.gene db _ st ge)
      obtain ⟨_, _, hlink⟩ := mergeDB_gene_index db (copyAll self.ef_data.length db.metadata) st ge
      obtain ⟨⟨t0, ht0⟩, _⟩ := linkAll_frame ge.1
        (((find (copyAll self.ef_data.length db.metadata) ge.1).getD []).map
          (fun ct => (cellTypeName db ct.1, ct.2)))
        (st.cell_types,
          if (find st.metadata ge.1).isNone then assign st.metadata ge.1 [] else st.metadata)
      rw [← hlink] at ht0
      simp only at ht0
      exact ⟨t0 ++ t, by rw [List.foldl_cons, ht, ht0, List.append_assoc]⟩
  exact key _ _

theorem mergeDB_metadata_absent (self db : EliasFanoDB) (g : String)
    (h : find db.metadata g = none) :
    find (mergeDB self db).metadata g = find self.metadata g := by
  rw [mergeDB_eq]
  refine (mergeDB_genes_other db _ g _ _ ?_).2
  intro ge hge e
  have : g ∈ (copyAll self.ef_data.length db.metadata).map Prod.fst :=
    List.mem_map.mpr ⟨ge, hge, e⟩
  rw [keys_copyAll] at this
  exact (find_eq_none_iff _ _).mp h this

theorem entry_unique (db : EliasFanoDB) (h : WF db) (g T : String) (i j : Nat)
    (hi : entry db g T i) (hj : entry db g T j) : i = j := by
  obtain ⟨idx, a, h1, h2, h3⟩ := hi
  obtain ⟨idx', b, h1', h2', h3'⟩ := hj
  rw [h1] at h1'
  injection h1' with h1'
  subst h1'
  have ha := (getElem?_eq_some_iff_indexOf h.pool_nodup a T).mp h3
  have hb := (getElem?_eq_some_iff_indexOf h.pool_nodup b T).mp h3'
  have hab : a = b := by rw [ha.2, hb.2]
  subst hab
  rw [h2] at h2'
  injection h2'

/-- The answer of `queryGenes` for one requested gene, by gene and cell-type
name. -/
theorem queryGenes_single (db : EliasFanoDB) (h : WF db) (g T : String) (p : List Nat) :
    (∃ v, find (queryGenes db [g]) g = some v ∧ find v T = some p) ↔ HasPosting db g T p := by
  rw [queryGenes_find]
  simp only [List.mem_singleton, if_true]
  constructor
  · rintro ⟨v, hv, hT⟩
    cases hmd : find db.metadata g with
    | none => rw [hmd] at hv; simp at hv
    | some idx =>
      rw [hmd] at hv
      simp only [Option.map_some'] at hv
      injection hv with hv
      subst hv
      exact (cellTypes_find db h g idx hmd T p).mp hT
  · intro hp
    obtain ⟨i, ⟨idx, a, h1, h2, h3⟩, hpe⟩ := hp
    refine ⟨queryGenes.cellTypes db idx, by simp [h1], ?_⟩
    exact (cellTypes_find db h g idx h1 T p).mpr ⟨i, ⟨idx, a, h1, h2, h3⟩, hpe⟩

/-! ### Invariants of reachable stores -/

theorem encodeRow_good (ct : String) (db : EliasFanoDB) (row : String × List Int)
    (h : AllGood db) (hn : row.2.length < 2 ^ 31) : AllGood (encodeRow ct db row) := by
  unfold AllGood at h ⊢
  by_cases he : sparse_index 0 row.2 = []
  · rw [((encodeRow_index ct db row).1 he).1]; exact h
  · rw [((encodeRow_index ct db row).2 he).1]
    intro r hr
    rcases List.mem_append.mp hr with hr | hr
    · exact h r hr
    · simp only [List.mem_singleton] at hr
      subst hr
      rw [decode_row_record row.2 hn]
      obtain ⟨hs, hb⟩ := sparse_index_bounds row.2 0
      exact ⟨he, hs, fun a ha => (hb a ha).1⟩

theorem rows_good (ct : String) (rows : List (String × List Int)) :
    ∀ db : EliasFanoDB, AllGood db → (∀ r ∈ rows, r.2.length < 2 ^ 31) →
    AllGood (rows.foldl (encodeRow ct) db) := by
  induction rows with
  | nil => intro db h _; exact h
  | cons r rows ih =>
    intro db h hn
    exact ih _ (encodeRow_good ct db r h (hn r (List.mem_cons_self _ _)))
      (fun r' hr' => hn r' (List.mem_cons_of_mem _ hr'))

theorem encodeMatrix_good (db : EliasFanoDB) (ct : String) (M : NumericMatrix)
    (h : AllGood db) (hM : M.Valid) : AllGood (encodeMatrix db ct M) := by
  obtain ⟨db0, e, _, _, h3, _⟩ := encodeMatrix_eq db ct M
  rw [e]
  apply rows_good ct M.rows db0
  · unfold AllGood; rw [h3]; exact h
  · intro r hr
    rw [(hM.2 r hr).1]; exact hM.1

theorem mergeDB_good (self db : EliasFanoDB) (hs : AllGood self) (hd : AllGood db)
    (hwf : WF db) : AllGood (mergeDB self db) := by
  unfold AllGood
  rw [mergeDB_ef_data]
  intro r hr
  rcases List.mem_append.mp hr with hr | hr
  · exact hs r hr
  · apply hd r
    apply mem_copiedRecords db r db.metadata _ hr
    intro gene hg ct hct
    have h1 := find_of_mem hwf.genes_nodup hg
    have h2 := find_of_mem (hwf.cts_nodup gene.1 gene.2 h1) hct
    exact (hwf.valid gene.1 gene.2 ct.1 ct.2 h1 h2).2

/-- Every reachable store is well-formed and holds only good records. -/
theorem Reachable.inv {db : EliasFanoDB} (h : Reachable db) : WF db ∧ AllGood db := by
  induction h with
  | empty => exact ⟨WF_empty, fun r hr => by simp [EliasFanoDB.empty] at hr⟩
  | encode db ct M _ hM ih => exact ⟨encodeMatrix_wf db ct M ih.1, encodeMatrix_good db ct M ih.2 hM⟩
  | merge db other _ _ ih1 ih2 =>
    exact ⟨(mergeDB_spec db other ih1.1 ih2.1).1, mergeDB_good db other ih1.2 ih2.2 ih2.1⟩

theorem encodeRow_total_cells (ct : String) (db : EliasFanoDB) (row : String × List Int) :
    (encodeRow ct db row).total_cells = db.total_cells := by
  unfold encodeRow
  split
  · rfl
  · unfold eliasFanoCoding insertToDB
    simp only
    split <;> split <;> simp_all

theorem rows_total_cells (ct : String) (rows : List (String × List Int)) :
    ∀ db : EliasFanoDB, (rows.foldl (encodeRow ct) db).total_cells = db.total_cells := by
  induction rows with
  | nil => intro db; rfl
  | cons r rows ih => intro db; rw [List.foldl_cons, ih, encodeRow_total_cells]

theorem encodeMatrix_total_cells (db : EliasFanoDB) (ct : String) (M : NumericMatrix) :
    (encodeMatrix db ct M).total_cells = (db.total_cells + M.ncol) % 2 ^ 32 := by
  obtain ⟨db0, e, _, _, _, h4⟩ := encodeMatrix_eq db ct M
  rw [e, rows_total_cells, h4]

theorem apply_total_cells (db : EliasFanoDB) (op : Op) :
    (op.apply db).total_cells = (db.total_cells + op.cells) % 2 ^ 32 := by
  cases op with
  | encode ct M => exact encodeMatrix_total_cells db ct M
  | merge other => exact mergeDB_total_cells db other

theorem foldl_total_cells (ops : List Op) : ∀ db : EliasFanoDB, db.total_cells < 2 ^ 32 →
    (ops.foldl Op.apply db).total_cells = (db.total_cells + (ops.map Op.cells).sum) % 2 ^ 32 := by
  induction ops with
  | nil =>
    intro db h
    simp only [List.foldl_nil, List.map_nil, List.sum_nil, Nat.add_zero]
    exact (Nat.mod_eq_of_lt h).symm
  | cons op ops ih =>
    intro db _
    rw [List.foldl_cons, ih _ (by rw [apply_total_cells]; exact Nat.mod_lt _ (by norm_num)),
      apply_total_cells, List.map_cons, List.sum_cons, Nat.mod_add_mod, Nat.add_assoc]

/-! ### The invariants -/

/-- Posting invariant of the stores built by `encodeMatrix` (on matrices in
machine range, its call of `lognormalcdf` left aside) and `mergeDB`: every
entry of the two-level map decodes to a non-empty, strictly increasing list of
positive ordinals. -/
theorem posting_invariant (db : EliasFanoDB) (h : Reachable db)
    (gene : String × EliasFanoIndex) (hg : gene ∈ db.metadata)
    (ct : Nat × Nat) (hct : ct ∈ gene.2) :
    eliasFanoDecoding (recordAt db ct.2) ≠ [] ∧
    (eliasFanoDecoding (recordAt db ct.2)).Sorted (· < ·) ∧
    ∀ x ∈ eliasFanoDecoding (recordAt db ct.2), 0 < x := by
  obtain ⟨hwf, hgood⟩ := h.inv
  have h1 := find_of_mem hwf.genes_nodup hg
  have h2 := find_of_mem (hwf.cts_nodup gene.1 gene.2 h1) hct
  have hlt := (hwf.valid gene.1 gene.2 ct.1 ct.2 h1 h2).2
  apply hgood
  unfold recordAt
  rw [List.getD_eq_getElem _ _ hlt]
  exact List.getElem_mem _

/-- C4, evaluated: after merging the two stores of seed scenario 6, whose
slices share the name `T`, the count of gene `A` is 5 while its only entry in
the two-level map decodes to the three ordinals of the second slice. The same
happens when a slice is ingested twice under one name. -/
theorem gene_counts_overcount :
    Reachable (mergeDB exampleDB1 exampleDB2) ∧
    find (mergeDB exampleDB1 exampleDB2).gene_counts "A" = some 5 ∧
    (mergeDB exampleDB1 exampleDB2).metadata = [("A", [(0, 1)])] ∧
    eliasFanoDecoding (recordAt (mergeDB exampleDB1 exampleDB2) 1) = [2, 7, 9] ∧
    find (encodeMatrix exampleDB1 "T" exampleSlice10).gene_counts "A" = some 4 ∧
    (encodeMatrix exampleDB1 "T" exampleSlice10).metadata = [("A", [(0, 1)])] ∧
    eliasFanoDecoding (recordAt (encodeMatrix exampleDB1 "T" exampleSlice10) 1) = [1, 5] :=
  ⟨Reachable.merge _ _ (Reachable.encode _ _ _ Reachable.empty (by decide))
      (Reachable.encode _ _ _ Reachable.empty (by decide)),
    by decide, by decide, by decide, by decide, by decide, by decide⟩

/-- C5. Total-cell counter: the store built from the empty store by any
sequence of `encodeMatrix` and `mergeDB` calls has `total_cells` equal to the
sum of the column counts of the matrices and of the counters of the merged
stores, as long as that sum fits 32 bits. -/
theorem total_cells_sum (ops : List Op) (h : (ops.map Op.cells).sum < 2 ^ 32) :
    (run ops).total_cells = (ops.map Op.cells).sum := by
  unfold run
  rw [foldl_total_cells ops EliasFanoDB.empty (by decide)]
  simp only [EliasFanoDB.empty, Nat.zero_add]
  exact Nat.mod_eq_of_lt h

/-- Witness of C5: merging a 20-cell store into a 10-cell store gives 30. -/
theorem total_cells_sum_witness :
    exampleDB2.total_cells = 20 ∧
    (run [Op.encode "T" exampleSlice10, Op.merge exampleDB2]).total_cells = 10 + 20 :=
  ⟨by decide,
    total_cells_sum [Op.encode "T" exampleSlice10, Op.merge exampleDB2] (by decide)⟩

/-! ### Claims on mergeDB -/

/-- C9 fails on the code: both stores of seed scenario 6 hold a posting for gene
`A` under a cell type named `T`. After the merge gene `A` has a single entry,
which decodes to the posting of the source; the record of the receiver's
posting `[1, 5]` is still in the store at position 0 with no entry pointing at
it, and the count of `A` is the sum 5 of both postings. There are no two
distinct entries decoding to the two postings. -/
theorem merge_shared_name_overwritten :
    HasPosting exampleDB1 "A" "T" [1, 5] ∧ HasPosting exampleDB2 "A" "T" [2, 7, 9] ∧
    (mergeDB exampleDB1 exampleDB2).metadata = [("A", [(0, 1)])] ∧
    queryGenes (mergeDB exampleDB1 exampleDB2) ["A"] = [("A", [("T", [2, 7, 9])])] ∧
    dbSize (mergeDB exampleDB1 exampleDB2) = 2 ∧
    decode (mergeDB exampleDB1 exampleDB2) 0 = some [1, 5] ∧
    decode (mergeDB exampleDB1 exampleDB2) 1 = some [2, 7, 9] ∧
    find (mergeDB exampleDB1 exampleDB2).gene_counts "A" = some 5 ∧
    ¬ ∃ idx e1 e2, find (mergeDB exampleDB1 exampleDB2).metadata "A" = some idx ∧
        e1 ∈ idx ∧ e2 ∈ idx ∧ e1 ≠ e2 ∧
        eliasFanoDecoding (recordAt (mergeDB exampleDB1 exampleDB2) e1.2) = [1, 5] ∧
        eliasFanoDecoding (recordAt (mergeDB exampleDB1 exampleDB2) e2.2) = [2, 7, 9] := by
  refine ⟨⟨0, ⟨[(0, 0)], 0, by decide, by decide, by decide⟩, by decide⟩,
    ⟨0, ⟨[(0, 0)], 0, by decide, by decide, by decide⟩, by decide⟩,
    by decide, by decide, by decide, by decide, by decide, by decide, ?_⟩
  rintro ⟨idx, e1, e2, hf, h1, h2, hne, _, _⟩
  have hmd : find (mergeDB exampleDB1 exampleDB2).metadata "A" = some [(0, 1)] := by decide
  rw [hmd] at hf
  injection hf with hf
  subst hf
  simp only [List.mem_singleton] at h1 h2
  exact hne (h1.trans h2.symm)

/-- Effect of `mergeDB` on an entry the source holds: on well-formed stores,
if the source holds a posting for gene `g` under a cell type named `T`, then
after `mergeDB` gene `g` has exactly one entry named `T` in the receiver, and
that entry (also through `queryGenes`) decodes to the posting of the source,
whatever the receiver held under `(g, T)` before. -/
theorem mergeDB_shared_name (receiver other : EliasFanoDB) (hr : WF receiver) (ho : WF other)
    (g T : String) (p_o : List Nat) (h2 : HasPosting other g T p_o) :
    (∃ j, entry (mergeDB receiver other) g T j ∧
      ∀ j', entry (mergeDB receiver other) g T j' → j' = j) ∧
    (∀ p, HasPosting (mergeDB receiver other) g T p ↔ p = p_o) ∧
    ∃ v, find (queryGenes (mergeDB receiver other) [g]) g = some v ∧ find v T = some p_o := by
  obtain ⟨hwf, _, hE2, _⟩ := mergeDB_spec receiver other hr ho
  have hpost : ∀ p, HasPosting (mergeDB receiver other) g T p ↔ p = p_o := by
    intro p
    rw [mergeDB_posting receiver other hr ho]
    constructor
    · rintro (hp | ⟨hn, _⟩)
      · exact HasPosting_unique other ho g T p p_o hp h2
      · exact absurd ⟨p_o, h2⟩ hn
    · rintro rfl
      exact Or.inl h2
  refine ⟨?_, hpost, (queryGenes_single _ hwf g T p_o).mpr ((hpost p_o).mpr rfl)⟩
  obtain ⟨i, hi, _⟩ := h2
  obtain ⟨j, hj, _⟩ := hE2 g T i hi
  exact ⟨j, hj, fun j' hj' => entry_unique _ hwf g T j' j hj' hj⟩

/-- C10. Merge preserves the receiver's own answers: on well-formed stores, a
posting the receiver holds for `(g, T)` while the source holds none for
`(g, T)` is the value of `queryGenes [g]` at `T` before and after `mergeDB`;
and for a gene absent from the source the whole answer of `queryGenes [g]` is
unchanged. -/
theorem merge_preserves_receiver (receiver other : EliasFanoDB) (hr : WF receiver)
    (ho : WF other) (g : String) :
    (∀ T p, HasPosting receiver g T p → (¬ ∃ q, HasPosting other g T q) →
      (∃ v, find (queryGenes receiver [g]) g = some v ∧ find v T = some p) ∧
      (∃ v, find (queryGenes (mergeDB receiver other) [g]) g = some v ∧ find v T = some p)) ∧
    (find other.metadata g = none →
      queryGenes (mergeDB receiver other) [g] = queryGenes receiver [g]) := by
  obtain ⟨hwf, _, _, _⟩ := mergeDB_spec receiver other hr ho
  constructor
  · intro T p hp hn
    exact ⟨(queryGenes_single receiver hr g T p).mpr hp,
      (queryGenes_single _ hwf g T p).mpr
        ((mergeDB_posting receiver other hr ho g T p).mpr (Or.inr ⟨hn, hp⟩))⟩
  · intro habs
    have hmd := mergeDB_metadata_absent receiver other g habs
    unfold queryGenes
    simp only [List.foldl_cons, List.foldl_nil, hmd]
    cases hf : find receiver.metadata g with
    | none => rfl
    | some idx =>
      simp only
      congr 1
      rw [cellTypes_eq_map _ hwf g idx (by rw [hmd, hf]), cellTypes_eq_map _ hr g idx hf]
      apply List.map_congr_left
      intro d hd
      have hfd := find_of_mem (hr.cts_nodup g idx hf) hd
      obtain ⟨hv1, hv2⟩ := hr.valid g idx d.1 d.2 hf hfd
      obtain ⟨t, ht⟩ := mergeDB_pool receiver other
      have hname : cellTypeName (mergeDB receiver other) d.1 = cellTypeName receiver d.1 := by
        unfold cellTypeName
        rw [ht, List.getD_append _ _ _ _ hv1]
      rw [hname, recordAt_append receiver _ _ d.2 (mergeDB_ef_data receiver other) hv2]

/-- Witness of C10: the receiver of seed scenario 6 keeps its posting under `T`
when the source's slice is named `U`, and its whole answer when the source is
empty. -/
theorem merge_preserves_receiver_witness :
    (∃ v, find (queryGenes (mergeDB exampleDB1 exampleDB2U) ["A"]) "A" = some v ∧
      find v "T" = some [1, 5]) ∧
    queryGenes (mergeDB exampleDB1 EliasFanoDB.empty) ["A"] = queryGenes exampleDB1 ["A"] :=
  ⟨((merge_preserves_receiver exampleDB1 exampleDB2U (encodeMatrix_wf _ _ _ WF_empty)
      (encodeMatrix_wf _ _ _ WF_empty) "A").1 "T" [1, 5]
      ⟨0, ⟨[(0, 0)], 0, by decide, by decide, by decide⟩, by decide⟩
      (by
        rintro ⟨q, i, ⟨idx, a, h1, h2, h3⟩, _⟩
        have hmd : find exampleDB2U.metadata "A" = some [(0, 0)] := by decide
        rw [hmd] at h1
        injection h1 with h1
        subst h1
        have ha : a = 0 := by
          by_cases h : a = 0
          · exact h
          · simp [find, Ne.symm h] at h2
        subst ha
        have : exampleDB2U.cell_types[0]? = some "U" := by decide
        rw [this] at h3
        exact absurd h3 (by decide))).2,
    (merge_preserves_receiver exampleDB1 EliasFanoDB.empty (encodeMatrix_wf _ _ _ WF_empty)
      WF_empty "A").2 (by decide)⟩


/-! ### Requested genes that are not in the index -/

/-- The first loop of `findCellTypes` passes over a requested gene that is not
in the index: the collected state is that of the request without these genes. -/
theorem collect_filter (db : EliasFanoDB) (G : List String) :
    ∀ st, G.foldl (findCellTypes.visit db) st
      = (G.filter (fun g => (find db.metadata g).isSome)).foldl (findCellTypes.visit db) st := by
  induction G with
  | nil => intro st; rfl
  | cons g G ih =>
    intro st
    cases hg : find db.metadata g with
    | none =>
      have hv : findCellTypes.visit db st g = st := by
        unfold findCellTypes.visit; rw [hg]
      rw [List.foldl_cons, hv, List.filter_cons_of_neg (by simp [hg])]
      exact ih st
    | some idx =>
      rw [List.foldl_cons, List.filter_cons_of_pos (by simp [hg]), List.foldl_cons]
      exact ih _

theorem findCellTypes_filter (db : EliasFanoDB) (G : List String) :
    findCellTypes db G
      = findCellTypes db (G.filter (fun g => (find db.metadata g).isSome)) := by
  unfold findCellTypes findCellTypes.collect
  rw [← collect_filter db G]

/-! ### Claims on findCellTypes -/

/-- C7 as stated fails: gene `ZZZ` is requested and has no posting at all, yet
the cell type `T` of gene `A` is a key of the answer. -/
theorem findCellTypes_absent_gene_counterexample :
    "ZZZ" ∈ ["A", "ZZZ"] ∧
    find (findCellTypes exampleDB1 ["A", "ZZZ"]) "T" = some [1, 5] ∧
    ¬ ∃ p, HasPosting exampleDB1 "ZZZ" "T" p := by
  refine ⟨by decide, by decide, ?_⟩
  rintro ⟨p, i, ⟨idx, a, h1, _, _⟩, _⟩
  have : find exampleDB1.metadata "ZZZ" = none := by decide
  rw [this] at h1
  exact Option.noConfusion h1

/-- C7, amended. AND semantics over the requested genes that are in the index,
on a well-formed store. Requested genes absent from the index are ignored:
the answer of `findCellTypes` is the answer to the request without them. For
every cell type that is a key of the answer, every requested gene that is in
the index has a posting under that cell type. And in a store of good records,
when the requested genes that are in the index are pairwise distinct and at
least one, a cell type `T` gets `cells` exactly when each of these genes has a
posting under `T` and `cells` is the non-empty increasing list of the ordinals
common to these postings. -/
theorem findCellTypes_present_genes (db : EliasFanoDB) (hwf : WF db) (G : List String) :
    findCellTypes db G
      = findCellTypes db (G.filter (fun g => (find db.metadata g).isSome)) ∧
    (∀ (T : String) (cells : List Nat), find (findCellTypes db G) T = some cells →
      ∀ g ∈ G, (find db.metadata g).isSome → ∃ p, HasPosting db g T p) ∧
    (AllGood db → G.filter (fun g => (find db.metadata g).isSome) ≠ [] →
      (G.filter (fun g => (find db.metadata g).isSome)).Nodup →
      ∀ (T : String) (cells : List Nat),
        (find (findCellTypes db G) T = some cells ↔
          (∀ g ∈ G, (find db.metadata g).isSome → ∃ p, HasPosting db g T p) ∧
          cells ≠ [] ∧ cells.Sorted (· < ·) ∧
          ∀ x, x ∈ cells ↔
            ∀ g ∈ G, (find db.metadata g).isSome → ∀ p, HasPosting db g T p → x ∈ p)) := by
  refine ⟨findCellTypes_filter db G, ?_, ?_⟩
  · intro T cells h
    obtain ⟨a, S, hS, hT, hemit⟩ := (findCellTypes_find db hwf G T cells).mp h
    have hlen : S.length = (findCellTypes.collect db G).2.length := by
      by_contra hne
      unfold findCellTypes.emit at hemit
      rw [if_pos hne] at hemit
      exact Option.noConfusion hemit
    intro g hG hp
    obtain ⟨_, hn⟩ := collect_full db G a S hS hlen g hG hp
    obtain ⟨_, i, hi, _⟩ := hasNode_valid db hwf g a hn
    exact ⟨_, i, hT ▸ hi, rfl⟩
  · intro hgood hne hnd T cells
    rw [findCellTypes_filter db G,
      findCellTypes_spec db hwf hgood _ hne hnd (fun g hg => (List.mem_filter.mp hg).2) T cells]
    have hmem : ∀ g, g ∈ G.filter (fun g => (find db.metadata g).isSome) ↔
        g ∈ G ∧ (find db.metadata g).isSome := fun g => List.mem_filter
    constructor
    · rintro ⟨h1, h2, h3, h4⟩
      refine ⟨fun g hg hp => h1 g ((hmem g).mpr ⟨hg, hp⟩), h2, h3, fun x => ?_⟩
      rw [h4 x]
      exact ⟨fun h g hg hp => h g ((hmem g).mpr ⟨hg, hp⟩),
        fun h g hg => h g ((hmem g).mp hg).1 ((hmem g).mp hg).2⟩
    · rintro ⟨h1, h2, h3, h4⟩
      refine ⟨fun g hg => h1 g ((hmem g).mp hg).1 ((hmem g).mp hg).2, h2, h3, fun x => ?_⟩
      rw [h4 x]
      exact ⟨fun h g hg => h g ((hmem g).mp hg).1 ((hmem g).mp hg).2,
        fun h g hg hp => h g ((hmem g).mpr ⟨hg, hp⟩)⟩

/-- Witness of C7 amended: the request `[A, ZZZ]` on the first store of seed
scenario 6 is answered as the request `[A]`, with the posting of `A` under
`T`. -/
theorem findCellTypes_present_genes_witness :
    findCellTypes exampleDB1 ["A", "ZZZ"] = findCellTypes exampleDB1 ["A"] ∧
    findCellTypes exampleDB1 ["A", "ZZZ"] = [("T", [1, 5])] ∧
    ∃ p, HasPosting exampleDB1 "A" "T" p :=
  ⟨(findCellTypes_present_genes exampleDB1 (encodeMatrix_wf _ _ _ WF_empty) ["A", "ZZZ"]).1,
    by decide,
    (findCellTypes_present_genes exampleDB1 (encodeMatrix_wf _ _ _ WF_empty)
      ["A", "ZZZ"]).2.1 "T" [1, 5] (by decide) "A" (by decide) (by decide)⟩


/-- C6. AND query equals intersection: in a reachable store, for a non-empty
request of pairwise distinct genes that are all in the index, a cell type `T`
is a key of the answer of `findCellTypes` exactly when every requested gene has
a posting under `T` and some ordinal occurs in all these postings; the value
stored for `T` is `cells` exactly when moreover `cells` is the non-empty,
strictly increasing list of the ordinals that occur in all these postings; for
a single gene the value is the decoded posting itself. -/
theorem findCellTypes_intersection (db : EliasFanoDB) (h : Reachable db) :
    (∀ (G : List String), G ≠ [] → G.Nodup → (∀ g ∈ G, (find db.metadata g).isSome) →
      ∀ (T : String),
      ((find (findCellTypes db G) T).isSome ↔
        (∀ g ∈ G, ∃ p, HasPosting db g T p) ∧
        ∃ x, ∀ g ∈ G, ∀ p, HasPosting db g T p → x ∈ p) ∧
      ∀ (cells : List Nat),
      (find (findCellTypes db G) T = some cells ↔
        (∀ g ∈ G, ∃ p, HasPosting db g T p) ∧ cells ≠ [] ∧ cells.Sorted (· < ·) ∧
        ∀ x, x ∈ cells ↔ ∀ g ∈ G, ∀ p, HasPosting db g T p → x ∈ p)) ∧
    (∀ (g T : String) (cells : List Nat),
      find (findCellTypes db [g]) T = some cells ↔ HasPosting db g T cells) := by
  obtain ⟨hwf, hgood⟩ := h.inv
  refine ⟨fun G hne hnd hpres T => ⟨?_, fun cells =>
    findCellTypes_spec db hwf hgood G hne hnd hpres T cells⟩, ?_⟩
  · constructor
    · intro hs
      obtain ⟨cells, hc⟩ := Option.isSome_iff_exists.mp hs
      obtain ⟨hall, h1, _, h3⟩ := (findCellTypes_spec db hwf hgood G hne hnd hpres T cells).mp hc
      obtain ⟨x, hx⟩ := List.exists_mem_of_ne_nil cells h1
      exact ⟨hall, x, (h3 x).mp hx⟩
    · rintro ⟨hall, x, hx⟩
      classical
      obtain ⟨g0, hg0⟩ := List.exists_mem_of_ne_nil G hne
      obtain ⟨p0, hp0⟩ := hall g0 hg0
      have hsorted := (HasPosting_good db hwf hgood g0 T p0 hp0).2.1
      have hmem : ∀ y, y ∈ p0.filter
          (fun y => decide (∀ g ∈ G, ∀ p, HasPosting db g T p → y ∈ p)) ↔
          ∀ g ∈ G, ∀ p, HasPosting db g T p → y ∈ p := by
        intro y
        simp only [List.mem_filter, decide_eq_true_eq]
        exact ⟨fun hh => hh.2, fun hh => ⟨hh g0 hg0 p0 hp0, hh⟩⟩
      have := (findCellTypes_spec db hwf hgood G hne hnd hpres T
        (p0.filter (fun y => decide (∀ g ∈ G, ∀ p, HasPosting db g T p → y ∈ p)))).mpr
        ⟨hall, List.ne_nil_of_mem ((hmem x).mpr hx), hsorted.filter _, hmem⟩
      rw [this]
      rfl
  intro g T cells
  cases hmd : find db.metadata g with
  | none =>
    rw [findCellTypes_absent db g hmd]
    constructor
    · intro hf; simp [find] at hf
    · rintro ⟨i, ⟨idx, a, h1, _, _⟩, _⟩
      rw [hmd] at h1
      exact Option.noConfusion h1
  | some idx =>
    rw [findCellTypes_spec db hwf hgood [g] (by simp) (by simp)
      (by intro g' hg'; rw [List.mem_singleton] at hg'; subst hg'; rw [hmd]; rfl) T cells]
    constructor
    · rintro ⟨hall, h1, h2, h3⟩
      obtain ⟨p, hp⟩ := hall g (List.mem_singleton.mpr rfl)
      have hpg := HasPosting_good db hwf hgood g T p hp
      have e : cells = p := by
        apply sorted_ext _ _ h2 hpg.2.1
        intro x
        rw [h3 x]
        constructor
        · intro hh; exact hh g (List.mem_singleton.mpr rfl) p hp
        · intro hx g' hg' p' hp'
          rw [List.mem_singleton] at hg'
          subst hg'
          rw [HasPosting_unique db hwf g' T p' p hp' hp]
          exact hx
      rw [e]; exact hp
    · intro hp
      have hpg := HasPosting_good db hwf hgood g T cells hp
      refine ⟨fun g' hg' => ?_, hpg.1, hpg.2.1, fun x => ?_⟩
      · rw [List.mem_singleton] at hg'
        subst hg'
        exact ⟨cells, hp⟩
      · constructor
        · intro hx g' hg' p' hp'
          rw [List.mem_singleton] at hg'
          subst hg'
          rw [HasPosting_unique db hwf g' T p' cells hp' hp]
          exact hx
        · intro hh
          exact hh g (List.mem_singleton.mpr rfl) cells hp

/-- Witness of C6: seed scenario 4, genes `A` at `[1, 2, 3]` and `B` at
`[2, 3, 4]` in a slice `T`. -/
theorem findCellTypes_intersection_witness :
    findCellTypes (encodeMatrix EliasFanoDB.empty "T"
      ⟨4, [("A", [1, 1, 1, 0]), ("B", [0, 2, 3, 1])]⟩) ["A", "B"] = [("T", [2, 3])] ∧
    (find (findCellTypes (encodeMatrix EliasFanoDB.empty "T"
        ⟨4, [("A", [1, 1, 1, 0]), ("B", [0, 2, 3, 1])]⟩) ["A"]) "T" = some [1, 2, 3] ↔
      HasPosting (encodeMatrix EliasFanoDB.empty "T"
        ⟨4, [("A", [1, 1, 1, 0]), ("B", [0, 2, 3, 1])]⟩) "A" "T" [1, 2, 3]) :=
  ⟨by decide,
    (findCellTypes_intersection _
      (Reachable.encode _ "T" ⟨4, [("A", [1, 1, 1, 0]), ("B", [0, 2, 3, 1])]⟩
        Reachable.empty (by decide))).2 "A" "T" [1, 2, 3]⟩


/-! ### The low width -/

theorem floorLog2Aux_spec : ∀ (fuel m : Nat), m ≤ fuel → 1 ≤ m →
    2 ^ floorLog2Aux fuel m ≤ m ∧ m < 2 ^ (floorLog2Aux fuel m + 1) := by
  intro fuel
  induction fuel with
  | zero => intro m h1 h2; omega
  | succ fuel ih =>
    intro m h1 h2
    unfold floorLog2Aux
    by_cases h : 2 ≤ m
    · rw [if_pos h]
      obtain ⟨ha, hb⟩ := ih (m / 2) (by omega) (by omega)
      constructor
      · rw [Nat.pow_succ]; omega
      · rw [Nat.pow_succ]; omega
    · rw [if_neg h]
      have : m = 1 := by omega
      subst this
      simp

/-- The halving loop computes the floor of the binary logarithm. -/
theorem floorLog2_spec (m : Nat) (h : 1 ≤ m) :
    2 ^ floorLog2 m ≤ m ∧ m < 2 ^ (floorLog2 m + 1) :=
  floorLog2Aux_spec m m (le_refl _) h

theorem floorLog2_zero : floorLog2 0 = 0 := rfl

theorem floorLog2_le (m e : Nat) (h : m ≤ 2 ^ e) : floorLog2 m ≤ e := by
  by_cases h0 : m = 0
  · subst h0; simp [floorLog2_zero]
  · have hs := (floorLog2_spec m (by omega)).1
    exact (Nat.pow_le_pow_iff_right (by norm_num : 1 < 2)).mp (le_trans hs h)

/-- The ceiling `c` of the binary logarithm of `n` has `n ≤ 2 ^ c`, and no
smaller exponent has. -/
theorem ceilLog2_spec (n : Nat) :
    n ≤ 2 ^ ceilLog2 n ∧ (0 < ceilLog2 n → 2 ^ (ceilLog2 n - 1) < n) := by
  unfold ceilLog2
  by_cases h : n ≤ 1
  · rw [if_pos h]; simp; omega
  · rw [if_neg h]
    obtain ⟨ha, hb⟩ := floorLog2_spec (n - 1) (by omega)
    constructor
    · omega
    · intro _
      simp only [Nat.add_sub_cancel]
      omega

theorem efWidth_le (items k : Nat) : efWidth items k ≤ ceilLog2 items + 1 := by
  unfold efWidth
  have hc := (ceilLog2_spec items).1
  have h1 : 2 * items * items / (k * k) ≤ 2 ^ (2 * ceilLog2 items + 1) := by
    calc 2 * items * items / (k * k) ≤ 2 * items * items := Nat.div_le_self _ _
      _ = 2 * (items * items) := by ring
      _ ≤ 2 * (2 ^ ceilLog2 items * 2 ^ ceilLog2 items) :=
          Nat.mul_le_mul_left 2 (Nat.mul_le_mul hc hc)
      _ = 2 ^ (2 * ceilLog2 items + 1) := by ring
  have := floorLog2_le _ _ h1
  omega

theorem count_highBits (l : Nat) (xs : List Nat) : ∀ prev : Nat,
    (highBits l prev xs).count true = xs.length := by
  induction xs with
  | nil => intro prev; simp [highBits]
  | cons x xs ih =>
    intro prev
    rw [highBits, List.count_append, List.count_cons_self, ih]
    simp [List.count_replicate]

theorem length_highBits (l : Nat) (xs : List Nat) : ∀ (prev m : Nat),
    xs.Sorted (· < ·) → (∀ x ∈ xs, prev ≤ x >>> l) → m ∈ xs → (∀ a ∈ xs, a ≤ m) →
    (highBits l prev xs).length = (m >>> l) - prev + xs.length := by
  induction xs with
  | nil => intro prev m _ _ hm; simp at hm
  | cons x xs ih =>
    intro prev m hs hprev hm hmax
    rw [List.sorted_cons] at hs
    have hp0 := hprev x (List.mem_cons_self _ _)
    rw [highBits]
    simp only [List.length_append, List.length_replicate, List.length_cons]
    cases hxs : xs with
    | nil =>
      subst hxs
      have : m = x := by simpa using hm
      subst this
      simp [highBits]
    | cons y ys =>
      have hmem : m ∈ xs := by
        rcases List.mem_cons.mp hm with e | hm'
        · subst e
          have hy : y ∈ xs := by rw [hxs]; exact List.mem_cons_self _ _
          have h1 := hs.1 y hy
          have h2 := hmax y (List.mem_cons_of_mem _ hy)
          omega
        · exact hm'
      have key := ih (x >>> l) m hs.2
        (fun z hz => shiftRight_mono l (le_of_lt (hs.1 z hz))) hmem
        (fun a ha => hmax a (List.mem_cons_of_mem _ ha))
      rw [← hxs, key]
      have hxm : x >>> l ≤ m >>> l := shiftRight_mono l (hmax x (List.mem_cons_self _ _))
      omega

theorem setBitsFrom_replicate (g : Nat) (rest : List Bool) : ∀ p : Nat,
    setBitsFrom p (List.replicate g false ++ rest) = setBitsFrom (p + g) rest := by
  induction g with
  | zero => intro p; simp
  | succ g ih =>
    intro p
    rw [List.replicate_succ, List.cons_append, setBitsFrom]
    simp only [Bool.false_eq_true, if_false]
    rw [ih]
    congr 1
    omega

/-- The set bits of the high word: the bit of the `i`-th id is at distance
`u_i - prev + i` from the start. -/
theorem setBitsFrom_highBits (l : Nat) (xs : List Nat) : ∀ (p prev : Nat),
    xs.Sorted (· < ·) → (∀ x ∈ xs, prev ≤ x >>> l) →
    setBitsFrom p (highBits l prev xs)
      = (List.range xs.length).map (fun i => p + ((xs.getD i 0 >>> l) - prev) + i) := by
  induction xs with
  | nil => intro p prev _ _; simp [highBits, setBitsFrom]
  | cons x xs ih =>
    intro p prev hs hprev
    rw [List.sorted_cons] at hs
    have hp0 := hprev x (List.mem_cons_self _ _)
    rw [highBits, setBitsFrom_replicate, setBitsFrom]
    simp only [if_true]
    rw [ih _ (x >>> l) hs.2 (fun z hz => shiftRight_mono l (le_of_lt (hs.1 z hz)))]
    simp only [List.length_cons, List.range_succ_eq_map, List.map_cons, List.map_map,
      List.getD_cons_zero, Nat.add_zero]
    congr 1
    apply List.map_congr_left
    intro i hi
    rw [List.mem_range] at hi
    have hmem : xs.getD i 0 ∈ xs := by
      rw [List.getD_eq_getElem _ _ hi]; exact List.getElem_mem _
    have h1 : x >>> l ≤ xs.getD i 0 >>> l := shiftRight_mono l (le_of_lt (hs.1 _ hmem))
    simp only [Function.comp, List.getD_cons_succ]
    omega

/-- The low word holds bit `j` of the `i`-th id at position `i * l + j`. -/
theorem getD_lowBits_at (l : Nat) (xs : List Nat) : ∀ (i j : Nat), i < xs.length → j < l →
    (lowBits l xs).getD (i * l + j) false = (xs.getD i 0).testBit j := by
  induction xs with
  | nil => intro i j hi; simp at hi
  | cons x xs ih =>
    intro i j hi hj
    cases i with
    | zero =>
      have := getD_lowBits l [] (lowBits l xs) x j hj
      simpa [lowBits, List.flatMap_cons] using this
    | succ i =>
      have hi' : i < xs.length := by simpa using hi
      have hlen : ((List.range l).map (fun i => x.testBit i)).length = l := by simp
      have e : lowBits l (x :: xs) = (List.range l).map (fun i => x.testBit i) ++ lowBits l xs := by
        simp [lowBits, List.flatMap_cons]
      rw [e, List.getD_eq_getElem?_getD, List.getElem?_append_right (by rw [hlen]; nlinarith)]
      have hidx : (i + 1) * l + j - ((List.range l).map (fun i => x.testBit i)).length
          = i * l + j := by
        rw [hlen, Nat.add_mul]; omega
      rw [hidx, ← List.getD_eq_getElem?_getD, ih i j hi' hj]
      simp

/-- The buffers built by the encoder loop, at any width: the low and the high
word of the ids. -/
theorem encode_words (l : Nat) (xs : List Nat) (hs : xs.Sorted (· < ·))
    (hx : ∀ a ∈ xs, a < 2 ^ 31) (hk : xs.length < 2 ^ 31) :
    (xs.foldl (eliasFanoCoding.step l) { L := [], H := [], prev_indexH := 0 }).L
      = lowBits l xs ∧
    (xs.foldl (eliasFanoCoding.step l) { L := [], H := [], prev_indexH := 0 }).H
      = highBits l 0 xs := by
  obtain ⟨eL, eH⟩ := encode_fold l xs { L := [], H := [], prev_indexH := 0 } 0 rfl hs
    (fun _ _ => Nat.zero_le _) hx (by omega)
  simp only [List.nil_append] at eL eH
  exact ⟨eL, eH⟩

/-! ### The low width in floating point -/

theorem truncInt_bounds (x : ℚ) (c0 c1 : Nat) (h0 : (c0 : ℚ) + 1 / 2 ≤ x)
    (h1 : x ≤ (c1 : ℚ) + 1 / 2) : (c0 : Int) ≤ truncInt x ∧ truncInt x ≤ (c1 : Int) := by
  have hc0 : (0 : ℚ) ≤ (c0 : ℚ) := Nat.cast_nonneg c0
  have hx : (0 : ℚ) ≤ x := by linarith
  unfold truncInt
  rw [if_pos hx]
  constructor
  · rw [Int.le_floor]
    push_cast
    linarith
  · have : ⌊x⌋ < (c1 : Int) + 1 := by
      rw [Int.floor_lt]
      push_cast
      linarith
    omega

theorem ceilLog2_le (n : Nat) (hn : n < 2 ^ 31) : ceilLog2 n ≤ 31 := by
  obtain ⟨_, h⟩ := ceilLog2_spec n
  by_contra hc
  have hpos : 0 < ceilLog2 n := by omega
  have h1 := h hpos
  have h2 : 2 ^ 31 ≤ 2 ^ (ceilLog2 n - 1) :=
    Nat.pow_le_pow_right (by norm_num) (by omega)
  omega

/-- The width between two brackets of the quotient by powers of two: for
operations that round as `FloatOps.Rounds` asks, `2 ^ c0 ≤ items / k ≤ 2 ^ c1`
gives `c0 + 1 ≤ l ≤ c1 + 1`. -/
theorem width_bounds (ops : FloatOps) (h : ops.Rounds) (items k c0 c1 : Nat) (hk : 0 < k)
    (hn : items < 2 ^ 31) (hc0 : c0 ≤ 31) (hc1 : c1 ≤ 31)
    (h0 : 2 ^ c0 * k ≤ items) (h1 : items ≤ 2 ^ c1 * k) :
    (c0 : Int) + 1 ≤ eliasFanoCoding.l ops items k ∧
    eliasFanoCoding.l ops items k ≤ (c1 : Int) + 1 := by
  have q0 := h.div_ge items k c0 hk hn hc0 h0
  have q1 := h.div_le items k c1 hk hn hc1 h1
  have qpos : (0 : ℚ) < ops.div items k := lt_of_lt_of_le (by positivity) q0
  have l0 := h.log2_ge _ c0 hc0 q0
  have l1 := h.log2_le _ c1 hc1 qpos q1
  have s0 := h.addHalf_ge _ c0 hc0 l0
  have s1 := h.addHalf_le _ c1 hc1 l1
  obtain ⟨t0, t1⟩ := truncInt_bounds _ c0 c1 s0 s1
  unfold eliasFanoCoding.l
  omega

theorem exactOps_rounds : exactOps.Rounds := by
  refine ⟨?_, ?_, ?_, ?_, ?_, ?_⟩
  · intro items k c hk _ _ h
    show (items : ℚ) / (k : ℚ) ≤ 2 ^ c
    rw [div_le_iff₀ (by exact_mod_cast hk)]
    exact_mod_cast h
  · intro items k c hk _ _ h
    show (2 : ℚ) ^ c ≤ (items : ℚ) / (k : ℚ)
    rw [le_div_iff₀ (by exact_mod_cast hk)]
    exact_mod_cast h
  · intro q c _ _ h
    show ((floorLog2 ⌊q⌋₊ : Nat) : ℚ) ≤ c
    have h1 : ⌊q⌋₊ ≤ 2 ^ c := by
      have := Nat.floor_mono h
      rwa [show ((2 : ℚ) ^ c) = ((2 ^ c : Nat) : ℚ) by push_cast; rfl, Nat.floor_natCast] at this
    exact_mod_cast floorLog2_le _ _ h1
  · intro q c _ h
    show (c : ℚ) ≤ ((floorLog2 ⌊q⌋₊ : Nat) : ℚ)
    have h1 : 2 ^ c ≤ ⌊q⌋₊ := by
      rw [Nat.le_floor_iff (le_trans (by positivity) h)]
      exact_mod_cast h
    have h2 := (floorLog2_spec ⌊q⌋₊ (le_trans Nat.one_le_two_pow h1)).2
    have h3 : c < floorLog2 ⌊q⌋₊ + 1 :=
      (Nat.pow_lt_pow_iff_right (by norm_num : 1 < 2)).mp (lt_of_le_of_lt h1 h2)
    exact_mod_cast Nat.lt_succ_iff.mp h3
  · intro x c _ h
    show x + 1 / 2 ≤ c + 1 / 2
    linarith
  · intro x c _ h
    show (c : ℚ) + 1 / 2 ≤ x + 1 / 2
    linarith

/-! ### Claims on the low width and the layout -/

/-- C12 as stated fails, whatever the platform rounds to: with operations that
round as `FloatOps.Rounds` asks (`exactOps` is one instance), one expressing
cell in a row of one cell gets the width 1 while `ceil(log2 1) = 0`, and one
expressing cell in a row of 64 cells gets the width 7 while
`ceil(log2 64) = 6`. -/
theorem width_bound_counterexample :
    (∀ ops : FloatOps, ops.Rounds →
      eliasFanoCoding.l ops 1 1 = 1 ∧ ¬ eliasFanoCoding.l ops 1 1 ≤ (ceilLog2 1 : Int) ∧
      eliasFanoCoding.l ops 64 1 = 7 ∧ ¬ eliasFanoCoding.l ops 64 1 ≤ (ceilLog2 64 : Int)) ∧
    ceilLog2 1 = 0 ∧ ceilLog2 64 = 6 ∧ exactOps.Rounds := by
  refine ⟨fun ops h => ?_, by decide, by decide, exactOps_rounds⟩
  have e1 : ceilLog2 1 = 0 := by decide
  have e64 : ceilLog2 64 = 6 := by decide
  obtain ⟨a1, b1⟩ := width_bounds ops h 1 1 0 0 (by decide) (by decide) (by decide)
    (by decide) (by decide) (by decide)
  obtain ⟨a2, b2⟩ := width_bounds ops h 64 1 6 6 (by decide) (by decide) (by decide)
    (by decide) (by decide) (by decide)
  rw [e1, e64]
  push_cast at a1 b1 a2 b2 ⊢
  refine ⟨by omega, by omega, by omega, by omega⟩

/-- C12, amended. For a row of `n ≥ 1` cells (`n` an `int`) and `1 ≤ k ≤ n`
expressing cells the width `l = int(log2(n / (float)k) + 0.5) + 1` chosen by
`eliasFanoCoding`, computed with floating point operations that round as
`FloatOps.Rounds` asks, satisfies `1 ≤ l ≤ ceil(log2 n) + 1`. -/
theorem width_bound (ops : FloatOps) (h : ops.Rounds) (n k : Nat) (hk : 1 ≤ k) (hkn : k ≤ n)
    (hn : n < 2 ^ 31) :
    1 ≤ eliasFanoCoding.l ops n k ∧ eliasFanoCoding.l ops n k ≤ (ceilLog2 n : Int) + 1 := by
  have hc := (ceilLog2_spec n).1
  have h1 : n ≤ 2 ^ ceilLog2 n * k :=
    le_trans hc (Nat.le_mul_of_pos_right _ hk)
  obtain ⟨a, b⟩ := width_bounds ops h n k 0 (ceilLog2 n) hk hn (by decide) (ceilLog2_le n hn)
    (by simpa using hkn) h1
  exact ⟨by simpa using a, b⟩

/-- Witness of C12 amended: seed scenario 1, `n = 8`, `k = 4`, with the
operations `exactOps`. -/
theorem width_bound_witness :
    exactOps.Rounds ∧ ceilLog2 8 = 3 ∧
    1 ≤ eliasFanoCoding.l exactOps 8 4 ∧
    eliasFanoCoding.l exactOps 8 4 ≤ (ceilLog2 8 : Int) + 1 :=
  ⟨exactOps_rounds, by decide,
    width_bound exactOps exactOps_rounds 8 4 (by decide) (by decide) (by decide)⟩


/-- C13. Sizes of the encoded halves: for a strictly increasing list `xs` of
`k` ids in machine range with maximum `m`, encoded at any width `l`, the low
buffer has `l * k` bits, the high buffer has `(m >> l) + k` bits and exactly
`k` of them are set; in particular so for the record `eliasFanoCoding` builds
for a row of `items` cells, at its width. -/
theorem encoded_sizes (xs : List Nat) (m : Nat) (hs : xs.Sorted (· < ·))
    (hx : ∀ a ∈ xs, a < 2 ^ 31) (hk : xs.length < 2 ^ 31)
    (hm : m ∈ xs) (hmax : ∀ a ∈ xs, a ≤ m) :
    (∀ l : Nat,
      (xs.foldl (eliasFanoCoding.step l) { L := [], H := [], prev_indexH := 0 }).L.length
        = l * xs.length ∧
      (xs.foldl (eliasFanoCoding.step l) { L := [], H := [], prev_indexH := 0 }).H.length
        = (m >>> l) + xs.length ∧
      (xs.foldl (eliasFanoCoding.step l) { L := [], H := [], prev_indexH := 0 }).H.count true
        = xs.length) ∧
    (∀ items : Nat,
      (eliasFanoRecord xs items).L.length = (eliasFanoRecord xs items).l * xs.length ∧
      (eliasFanoRecord xs items).H.length = (m >>> (eliasFanoRecord xs items).l) + xs.length ∧
      (eliasFanoRecord xs items).H.count true = xs.length) := by
  have key : ∀ l : Nat,
      (xs.foldl (eliasFanoCoding.step l) { L := [], H := [], prev_indexH := 0 }).L.length
        = l * xs.length ∧
      (xs.foldl (eliasFanoCoding.step l) { L := [], H := [], prev_indexH := 0 }).H.length
        = (m >>> l) + xs.length ∧
      (xs.foldl (eliasFanoCoding.step l) { L := [], H := [], prev_indexH := 0 }).H.count true
        = xs.length := by
    intro l
    obtain ⟨eL, eH⟩ := encode_words l xs hs hx hk
    rw [eL, eH, length_lowBits, count_highBits,
      length_highBits l xs 0 m hs (fun _ _ => Nat.zero_le _) hm hmax]
    simp
  exact ⟨key, fun items => key (efWidth items xs.length)⟩

/-- Witness of C13: seed scenario 1, `ids = [1, 3, 5, 7]` in 8 cells, width 2,
8 low bits and `(7 >> 2) + 4 = 5` high bits. -/
theorem encoded_sizes_witness :
    (eliasFanoRecord [1, 3, 5, 7] 8).l = 2 ∧
    (eliasFanoRecord [1, 3, 5, 7] 8).L.length = (eliasFanoRecord [1, 3, 5, 7] 8).l * 4 ∧
    (eliasFanoRecord [1, 3, 5, 7] 8).H.length = (7 >>> (eliasFanoRecord [1, 3, 5, 7] 8).l) + 4 ∧
    (eliasFanoRecord [1, 3, 5, 7] 8).H.count true = 4 :=
  ⟨by decide,
    (encoded_sizes [1, 3, 5, 7] 7 (by decide) (by decide) (by decide) (by decide)
      (by decide)).2 8⟩

/-- C19. Encoded layout: for a strictly increasing list `xs` of `k` ids in
machine range encoded at any width `l`, the low bit at index `i * l + j` is bit
`j` of `xs[i]` (least significant first) for `i < k`, `j < l`, and the set bits
of the high buffer are, in order, at the 1-based positions `u_i + i + 1` with
`u_i = xs[i] >> l`; in particular so for the record `eliasFanoCoding` builds
for a row of `items` cells, at its width. -/
theorem encoded_layout (xs : List Nat) (hs : xs.Sorted (· < ·))
    (hx : ∀ a ∈ xs, a < 2 ^ 31) (hk : xs.length < 2 ^ 31) :
    (∀ l : Nat,
      (∀ i j, i < xs.length → j < l →
        (xs.foldl (eliasFanoCoding.step l) { L := [], H := [], prev_indexH := 0 }).L.getD
          (i * l + j) false = (xs.getD i 0).testBit j) ∧
      setBitsFrom 1
          (xs.foldl (eliasFanoCoding.step l) { L := [], H := [], prev_indexH := 0 }).H
        = (List.range xs.length).map (fun i => (xs.getD i 0 >>> l) + i + 1)) ∧
    (∀ items : Nat,
      (∀ i j, i < xs.length → j < (eliasFanoRecord xs items).l →
        (eliasFanoRecord xs items).L.getD (i * (eliasFanoRecord xs items).l + j) false
          = (xs.getD i 0).testBit j) ∧
      setBitsFrom 1 (eliasFanoRecord xs items).H
        = (List.range xs.length).map
            (fun i => (xs.getD i 0 >>> (eliasFanoRecord xs items).l) + i + 1)) := by
  have key : ∀ l : Nat,
      (∀ i j, i < xs.length → j < l →
        (xs.foldl (eliasFanoCoding.step l) { L := [], H := [], prev_indexH := 0 }).L.getD
          (i * l + j) false = (xs.getD i 0).testBit j) ∧
      setBitsFrom 1
          (xs.foldl (eliasFanoCoding.step l) { L := [], H := [], prev_indexH := 0 }).H
        = (List.range xs.length).map (fun i => (xs.getD i 0 >>> l) + i + 1) := by
    intro l
    obtain ⟨eL, eH⟩ := encode_words l xs hs hx hk
    rw [eL, eH]
    refine ⟨fun i j hi hj => getD_lowBits_at l xs i j hi hj, ?_⟩
    rw [setBitsFrom_highBits l xs 1 0 hs (fun _ _ => Nat.zero_le _)]
    apply List.map_congr_left
    intro i _
    show 1 + ((xs.getD i 0 >>> l) - 0) + i = (xs.getD i 0 >>> l) + i + 1
    generalize xs.getD i 0 >>> l = u
    omega
  exact ⟨key, fun items => key (efWidth items xs.length)⟩

/-- Witness of C19: seed scenario 1, `ids = [1, 3, 5, 7]` in 8 cells: upper
values 0, 0, 1, 1 and set bits at the positions 1, 2, 4, 5. -/
theorem encoded_layout_witness :
    setBitsFrom 1 (eliasFanoRecord [1, 3, 5, 7] 8).H = [1, 2, 4, 5] ∧
    (eliasFanoRecord [1, 3, 5, 7] 8).L
      = [true, false, true, true, true, false, true, true] ∧
    setBitsFrom 1 (eliasFanoRecord [1, 3, 5, 7] 8).H
      = (List.range 4).map
          (fun i => (([1, 3, 5, 7] : List Nat).getD i 0 >>> (eliasFanoRecord [1, 3, 5, 7] 8).l)
            + i + 1) :=
  ⟨by decide, by decide,
    ((encoded_layout [1, 3, 5, 7] (by decide) (by decide) (by decide)).2 8).2⟩


/-! ### Import of the source by mergeDB -/

theorem length_copiedRecords (db : EliasFanoDB) (md : CellTypeIndex) :
    (copiedRecords db md).length = (md.map (fun gene => gene.2.length)).sum := by
  induction md with
  | nil => rfl
  | cons ge md ih =>
    obtain ⟨g, idx⟩ := ge
    simp [copiedRecords, ih]

/-- Every entry of the source has, after `mergeDB`, an entry of the same gene
and cell-type name in the receiver, pointing at a record appended to the
receiver's store that equals the record of the source. -/
theorem mergeDB_import (self db : EliasFanoDB) (hs : WF self) (hd : WF db)
    (g T : String) (i : Nat) (hi : entry db g T i) :
    ∃ j, entry (mergeDB self db) g T j ∧ self.ef_data.length ≤ j ∧
      j < (mergeDB self db).ef_data.length ∧
      recordAt (mergeDB self db) j = recordAt db i := by
  have hE := mergeDB_ef_data self db
  have hkeys : ((copyAll self.ef_data.length db.metadata).map Prod.fst).Nodup := by
    rw [keys_copyAll]; exact hd.genes_nodup
  have hfind : ∀ ge ∈ copyAll self.ef_data.length db.metadata,
      find (copyAll self.ef_data.length db.metadata) ge.1 = some ge.2 :=
    fun ge hge => find_of_mem hkeys hge
  have hknd : ∀ ge ∈ copyAll self.ef_data.length db.metadata, (ge.2.map Prod.fst).Nodup := by
    intro ge hge
    obtain ⟨idx, e1, hk⟩ := find_copyAll_keys db.metadata ge.1 _ ge.2 (hfind ge hge)
    rw [hk]; exact hd.cts_nodup ge.1 idx e1
  have hnames : ∀ ge ∈ copyAll self.ef_data.length db.metadata,
      (ge.2.map (fun ct => cellTypeName db ct.1)).Nodup := by
    intro ge hge
    obtain ⟨idx, e1, hk⟩ := find_copyAll_keys db.metadata ge.1 _ ge.2 (hfind ge hge)
    have h1 : ge.2.map (fun ct => cellTypeName db ct.1)
        = (ge.2.map Prod.fst).map (cellTypeName db) := by rw [List.map_map]; rfl
    have h2 : idx.map (fun ct => cellTypeName db ct.1)
        = (idx.map Prod.fst).map (cellTypeName db) := by rw [List.map_map]; rfl
    rw [h1, hk, ← h2]
    exact names_nodup db hd ge.1 idx e1
  have hlt : ∀ ge ∈ copyAll self.ef_data.length db.metadata, ∀ ct ∈ ge.2,
      ct.2 < (self.ef_data ++ copiedRecords db db.metadata).length := by
    intro ge hge ct hct
    obtain ⟨a, j⟩ := ct
    have hfa := find_of_mem (hknd ge hge) hct
    obtain ⟨i, _, h3, h4⟩ := ext_entry_to_db db hd _ ge.1 ge.2 a j (hfind ge hge) hfa
    have := (recordAt_copied (mergeDB self db) _ _ j _ hE h3 h4).2
    rw [hE] at this
    exact this
  have h0 : IndexWF self.cell_types self.metadata
      (self.ef_data ++ copiedRecords db db.metadata).length :=
    hs.mono (by simp)
  obtain ⟨_, hent⟩ := mergeDB_genes db (copyAll self.ef_data.length db.metadata)
    (self.ef_data ++ copiedRecords db db.metadata).length
    (copyAll self.ef_data.length db.metadata)
    { self with
      total_cells := (self.total_cells + db.total_cells) % 2 ^ 32
      ef_data := self.ef_data ++ copiedRecords db db.metadata } h0 hkeys hfind hnames hlt
  rw [← mergeDB_eq] at hent
  simp only at hent
  obtain ⟨idx', a, j, e1, e2, e3, e4, e5⟩ := db_entry_to_ext db hd self.ef_data.length g T i hi
  have hrec := recordAt_copied (mergeDB self db) _ _ j _ hE e4 e5
  exact ⟨j, (hent g T j).mpr (Or.inl ⟨idx', mem_of_find e1, a, mem_of_find e2, e3⟩),
    e4, hrec.2, hrec.1⟩

/-! ### Claims on mergeDB, the import of the source -/

/-- C11. Merge imports every posting of the source: for well-formed receiver
and source, if the source has the posting `p` for gene `g` under the cell type
named `T`, then after `mergeDB` the receiver's `queryGenes [g]` has `p` under
`T`; it is served from an entry of the receiver that points into the part of
the receiver's own store appended by the merge, at a record equal to the
record of the source; and `dbSize` grows by the number of (gene, cell type)
entries of the source. -/
theorem merge_imports (receiver other : EliasFanoDB) (hr : WF receiver) (ho : WF other)
    (g T : String) (p : List Nat) (hp : HasPosting other g T p) :
    (∃ v, find (queryGenes (mergeDB receiver other) [g]) g = some v ∧ find v T = some p) ∧
    (∃ i j, entry other g T i ∧ entry (mergeDB receiver other) g T j ∧
      dbSize receiver ≤ (j : Int) ∧ (j : Int) < dbSize (mergeDB receiver other) ∧
      recordAt (mergeDB receiver other) j = recordAt other i ∧
      eliasFanoDecoding (recordAt (mergeDB receiver other) j) = p) ∧
    dbSize (mergeDB receiver other)
      = dbSize receiver + ((other.metadata.map (fun gene => gene.2.length)).sum : Nat) := by
  have hsize : dbSize (mergeDB receiver other)
      = dbSize receiver + ((other.metadata.map (fun gene => gene.2.length)).sum : Nat) := by
    unfold dbSize
    rw [mergeDB_ef_data, List.length_append, length_copiedRecords]
    push_cast
    rfl
  refine ⟨?_, ?_, hsize⟩
  · exact (queryGenes_single _ (mergeDB_spec receiver other hr ho).1 g T p).mpr
      ((mergeDB_posting receiver other hr ho g T p).mpr (Or.inl hp))
  · obtain ⟨i, hi, rfl⟩ := hp
    obtain ⟨j, h1, h2, h3, h4⟩ := mergeDB_import receiver other hr ho g T i hi
    refine ⟨i, j, hi, h1, ?_, ?_, h4, ?_⟩
    · unfold dbSize; exact_mod_cast h2
    · unfold dbSize; exact_mod_cast h3
    · rw [h4]

/-- Witness of C11: seed scenario 6 with the source's slice named `U`: after
the merge the receiver serves the posting `[2, 7, 9]` under `U`, and its store
has grown from one record to two. -/
theorem merge_imports_witness :
    HasPosting exampleDB2U "A" "U" [2, 7, 9] ∧
    (∃ v, find (queryGenes (mergeDB exampleDB1 exampleDB2U) ["A"]) "A" = some v ∧
      find v "U" = some [2, 7, 9]) ∧
    dbSize exampleDB1 = 1 ∧
    dbSize (mergeDB exampleDB1 exampleDB2U)
      = dbSize exampleDB1 + ((exampleDB2U.metadata.map (fun gene => gene.2.length)).sum : Nat) :=
  ⟨⟨0, ⟨[(0, 0)], 0, by decide, by decide, by decide⟩, by decide⟩,
    (merge_imports exampleDB1 exampleDB2U (encodeMatrix_wf _ _ _ WF_empty)
      (encodeMatrix_wf _ _ _ WF_empty) "A" "U" [2, 7, 9]
      ⟨0, ⟨[(0, 0)], 0, by decide, by decide, by decide⟩, by decide⟩).1,
    by decide,
    (merge_imports exampleDB1 exampleDB2U (encodeMatrix_wf _ _ _ WF_empty)
      (encodeMatrix_wf _ _ _ WF_empty) "A" "U" [2, 7, 9]
      ⟨0, ⟨[(0, 0)], 0, by decide, by decide, by decide⟩, by decide⟩).2.2⟩


/-! ### Reading a record by position -/

theorem decode_above (db : EliasFanoDB) (index : Int) (h : dbSize db ≤ index) :
    decode db index = some [] := by
  unfold decode
  rw [if_pos h]

theorem decode_in_range (db : EliasFanoDB) (index : Int) (h0 : 0 ≤ index)
    (hi : index < dbSize db) (h64 : index < 2 ^ 64) :
    decode db index = some (eliasFanoDecoding (recordAt db index.toNat)) := by
  have hlt : index.toNat < db.ef_data.length := by
    unfold dbSize at hi; omega
  have e : (index % 2 ^ 64).toNat = index.toNat := by
    rw [Int.emod_eq_of_lt h0 h64]
  unfold decode recordAt
  rw [if_neg (not_le.mpr hi), e, List.getD_eq_getElem?_getD, List.getElem?_eq_getElem hlt]
  rfl

theorem decode_negative (db : EliasFanoDB) (index : Int) (hneg : index < 0)
    (hlo : -(2 ^ 63) ≤ index) (hsz : db.ef_data.length ≤ 2 ^ 63) :
    decode db index = none := by
  have hi : index < dbSize db := by unfold dbSize; omega
  have hge : db.ef_data.length ≤ (index % 2 ^ 64).toNat := by
    have : index % 2 ^ 64 = index + 2 ^ 64 := by omega
    rw [this]; omega
  unfold decode
  rw [if_neg (not_le.mpr hi), List.getElem?_eq_none hge]
  rfl

theorem decode_append (db db' : EliasFanoDB) (t : List EliasFano)
    (h : db'.ef_data = db.ef_data ++ t) (index : Int) (h0 : 0 ≤ index)
    (hi : index < dbSize db) : decode db' index = decode db index := by
  have hle : (index % 2 ^ 64).toNat < db.ef_data.length := by
    have h1 : index % 2 ^ 64 ≤ index := by omega
    have h2 : 0 ≤ index % 2 ^ 64 := by omega
    unfold dbSize at hi; omega
  have hi' : index < dbSize db' := by
    unfold dbSize at hi ⊢; rw [h, List.length_append]; push_cast; omega
  unfold decode
  rw [if_neg (not_le.mpr hi), if_neg (not_le.mpr hi'), h, List.getElem?_append_left hle]

theorem encodeMatrix_ef_data (db : EliasFanoDB) (ct : String) (M : NumericMatrix) :
    ∃ t, (encodeMatrix db ct M).ef_data = db.ef_data ++ t := by
  obtain ⟨db0, e, _, _, h3, _⟩ := encodeMatrix_eq db ct M
  obtain ⟨t, ht⟩ := rows_ef_data ct M.rows db0
  exact ⟨t, by rw [e, ht, h3]⟩

theorem Op.apply_ef_data (db : EliasFanoDB) (op : Op) :
    ∃ t, (Op.apply db op).ef_data = db.ef_data ++ t := by
  cases op with
  | encode ct M => exact encodeMatrix_ef_data db ct M
  | merge other => exact ⟨_, mergeDB_ef_data db other⟩

theorem ops_ef_data (ops : List Op) :
    ∀ db : EliasFanoDB, ∃ t, (ops.foldl Op.apply db).ef_data = db.ef_data ++ t := by
  induction ops with
  | nil => intro db; exact ⟨[], by simp⟩
  | cons op ops ih =>
    intro db
    obtain ⟨t1, h1⟩ := Op.apply_ef_data db op
    obtain ⟨t2, h2⟩ := ih (Op.apply db op)
    exact ⟨t1 ++ t2, by rw [List.foldl_cons, h2, h1, List.append_assoc]⟩

/-! ### Claims on decode; the stored records -/

/-- C15 fails on the code for negative indices: on the store of seed scenario
6 (one record), `decode` answers the empty list at the indices 1 and 5 and the
posting `[1, 5]` at index 0, but at index -1 the guard `index >= dbSize()` does
not fire and the store is read at position `2^64 - 1`, outside the vector:
there is no defined result, and it is not the empty list. -/
theorem decode_negative_index :
    dbSize exampleDB1 = 1 ∧
    decode exampleDB1 0 = some [1, 5] ∧
    decode exampleDB1 1 = some [] ∧
    decode exampleDB1 5 = some [] ∧
    decode exampleDB1 (-1) = none ∧
    decode exampleDB1 (-1) ≠ some [] ∧
    ((-1 : Int) % 2 ^ 64).toNat = 2 ^ 64 - 1 := by
  refine ⟨by decide, by decide, by decide, by decide, by decide, by decide, by decide⟩

/-- The posting store only grows: after any sequence of `mergeDB` calls and of
`encodeMatrix` calls (as far as the fields of the store go, the call of
`lognormalcdf` left aside), for every index `0 ≤ index < dbSize`, `dbSize` has
not decreased, and the modelled record at `index` and `decode index` are what
they were before the calls. -/
theorem records_immutable (db : EliasFanoDB) (ops : List Op) (index : Int)
    (h0 : 0 ≤ index) (hi : index < dbSize db) :
    dbSize db ≤ dbSize (ops.foldl Op.apply db) ∧
    recordAt (ops.foldl Op.apply db) index.toNat = recordAt db index.toNat ∧
    decode (ops.foldl Op.apply db) index = decode db index := by
  obtain ⟨t, ht⟩ := ops_ef_data ops db
  refine ⟨?_, ?_, decode_append db _ t ht index h0 hi⟩
  · unfold dbSize; rw [ht, List.length_append]; push_cast; omega
  · exact recordAt_append db _ t _ ht (by unfold dbSize at hi; omega)

/-! ### Rows without an expressing cell -/

theorem sparse_index_nil (v : List Int) (h : ∀ e ∈ v, ¬ e > 0) :
    ∀ i : Nat, sparse_index i v = [] := by
  induction v with
  | nil => intro i; rfl
  | cons x v ih =>
    intro i
    unfold sparse_index
    rw [if_neg (h x (List.mem_cons_self _ _))]
    exact ih (fun e he => h e (List.mem_cons_of_mem _ he)) (i + 1)

theorem assign_self {κ υ : Type} [DecidableEq κ] (m : List (κ × υ)) (k : κ) (v : υ)
    (h : find m k = some v) : assign m k v = m := by
  induction m with
  | nil => simp [find] at h
  | cons e m ih =>
    obtain ⟨k', v'⟩ := e
    by_cases hk : k' = k
    · subst hk
      simp only [find, if_true] at h
      injection h with h
      subst h
      simp [assign]
    · simp only [find, if_neg hk] at h
      simp [assign, hk, ih h]

theorem encodeRow_gene_counts (ct : String) (db : EliasFanoDB) (row : String × List Int) :
    (encodeRow ct db row).gene_counts
      = if row.2.length = 0 then db.gene_counts
        else assign db.gene_counts row.1
          (((find db.gene_counts row.1).getD 0 + (sparse_index 0 row.2).length) % 2 ^ 32) := by
  unfold encodeRow
  split
  · rfl
  · by_cases he : (sparse_index 0 row.2).isEmpty = true
    · simp only [eliasFanoCoding, he, ↓reduceIte, insertToDB_neg]
    · simp only [eliasFanoCoding, he, Bool.false_eq_true, if_false, insertToDB_nat]

theorem encodeRow_counts (ct : String) (db : EliasFanoDB) (row : String × List Int)
    (h : CountsOK db) :
    CountsOK (encodeRow ct db row) ∧
    ∀ g, (find db.gene_counts g).isSome → (find (encodeRow ct db row).gene_counts g).isSome := by
  rw [CountsOK, encodeRow_gene_counts]
  split
  · exact ⟨h, fun _ hg => hg⟩
  · constructor
    · intro g c hg
      rw [find_assign] at hg
      split at hg
      · injection hg with hg
        rw [← hg]
        exact Nat.mod_lt _ (by norm_num)
      · exact h g c hg
    · intro g hg
      rw [find_assign]
      split
      · rfl
      · exact hg

theorem rows_counts (ct : String) (rows : List (String × List Int)) :
    ∀ db : EliasFanoDB, CountsOK db →
    CountsOK (rows.foldl (encodeRow ct) db) ∧
    ∀ g, (find db.gene_counts g).isSome →
      (find (rows.foldl (encodeRow ct) db).gene_counts g).isSome := by
  induction rows with
  | nil => intro db h; exact ⟨h, fun _ hg => hg⟩
  | cons r rows ih =>
    intro db h
    obtain ⟨h1, h2⟩ := encodeRow_counts ct db r h
    obtain ⟨h3, h4⟩ := ih (encodeRow ct db r) h1
    exact ⟨h3, fun g hg => h4 g (h2 g hg)⟩

theorem init_fold_counts (rows : List (String × List Int)) :
    ∀ gc : GeneIndex, (∀ g c, find gc g = some c → c < 2 ^ 32) →
    (∀ g c, find (rows.foldl
        (fun gc row => if (find gc row.1).isNone then assign gc row.1 0 else gc) gc) g = some c →
      c < 2 ^ 32) ∧
    (∀ g, (find gc g).isSome → (find (rows.foldl
        (fun gc row => if (find gc row.1).isNone then assign gc row.1 0 else gc) gc) g).isSome) ∧
    ∀ r ∈ rows, (find (rows.foldl
        (fun gc row => if (find gc row.1).isNone then assign gc row.1 0 else gc) gc) r.1).isSome := by
  induction rows with
  | nil => intro gc h; exact ⟨h, fun _ hg => hg, fun r hr => by simp at hr⟩
  | cons r0 rows ih =>
    intro gc h
    have hstep : (∀ g c, find (if (find gc r0.1).isNone then assign gc r0.1 0 else gc) g = some c →
          c < 2 ^ 32) ∧
        (∀ g, (find gc g).isSome →
          (find (if (find gc r0.1).isNone then assign gc r0.1 0 else gc) g).isSome) ∧
        (find (if (find gc r0.1).isNone then assign gc r0.1 0 else gc) r0.1).isSome := by
      by_cases hn : (find gc r0.1).isNone
      · rw [if_pos hn]
        refine ⟨?_, ?_, by rw [find_assign_self]; rfl⟩
        · intro g c hg
          rw [find_assign] at hg
          split at hg
          · injection hg with hg
            rw [← hg]
            norm_num
          · exact h g c hg
        · intro g hg
          rw [find_assign]
          split
          · rfl
          · exact hg
      · rw [if_neg hn]
        refine ⟨h, fun _ hg => hg, ?_⟩
        cases hf : find gc r0.1 with
        | none => rw [hf] at hn; simp at hn
        | some c => rfl
    obtain ⟨s1, s2, s3⟩ := hstep
    obtain ⟨i1, i2, i3⟩ := ih _ s1
    rw [List.foldl_cons]
    refine ⟨i1, fun g hg => i2 g (s2 g hg), ?_⟩
    intro r hr
    rcases List.mem_cons.mp hr with rfl | hr'
    · exact i2 _ s3
    · exact i3 r hr'

theorem encodeMatrix_init (db : EliasFanoDB) (ct : String) (M : NumericMatrix) :
    encodeMatrix db ct M = M.rows.foldl (encodeRow ct) (encodeMatrix.init db M) := rfl

/-- Effect of one row without an expressing cell on a store whose counts hold
the row name: only the warning counter moves. -/
theorem encodeRow_skip (ct : String) (db : EliasFanoDB) (row : String × List Int)
    (hrow : ∀ e ∈ row.2, ¬ e > 0) (hc : CountsOK db)
    (hk : (find db.gene_counts row.1).isSome) :
    encodeRow ct db row = { db with warnings := db.warnings + 1 } := by
  unfold encodeRow
  split
  · rfl
  · obtain ⟨c, hcv⟩ := Option.isSome_iff_exists.mp hk
    have hlt := hc row.1 c hcv
    have hgc : assign db.gene_counts row.1
        (((find db.gene_counts row.1).getD 0 + ([] : List Nat).length) % 2 ^ 32)
        = db.gene_counts := by
      rw [hcv]
      simp only [Option.getD_some, List.length_nil, Nat.add_zero]
      rw [Nat.mod_eq_of_lt hlt]
      exact assign_self _ _ _ hcv
    simp only [sparse_index_nil row.2 hrow 0, eliasFanoCoding, List.isEmpty_nil, if_true,
      insertToDB_neg, hgc]

/-! ### Claims on rows without an expressing cell -/

/-- C16. Empty rows are skipped: when `encodeMatrix` (on a store whose counts
are values of an `unsigned int`) comes to a row with no value `> 0`, the row
changes nothing but the warning counter, which goes up by exactly one (so
`dbSize`, the two-level map and the counts are unchanged); the loop goes on
with the remaining rows; and the encoder called with empty ids returns `-1`
and leaves the store as it is. -/
theorem empty_row_skipped (db : EliasFanoDB) (cell_type : String) (M : NumericMatrix)
    (pre post : List (String × List Int)) (row : String × List Int)
    (hM : M.rows = pre ++ row :: post) (hrow : ∀ e ∈ row.2, ¬ e > 0) (hc : CountsOK db) :
    encodeRow cell_type (pre.foldl (encodeRow cell_type) (encodeMatrix.init db M)) row
      = { pre.foldl (encodeRow cell_type) (encodeMatrix.init db M) with
          warnings := (pre.foldl (encodeRow cell_type) (encodeMatrix.init db M)).warnings + 1 } ∧
    dbSize (encodeRow cell_type (pre.foldl (encodeRow cell_type) (encodeMatrix.init db M)) row)
      = dbSize (pre.foldl (encodeRow cell_type) (encodeMatrix.init db M)) ∧
    (encodeRow cell_type (pre.foldl (encodeRow cell_type) (encodeMatrix.init db M)) row).metadata
      = (pre.foldl (encodeRow cell_type) (encodeMatrix.init db M)).metadata ∧
    (encodeRow cell_type (pre.foldl (encodeRow cell_type) (encodeMatrix.init db M)) row).gene_counts
      = (pre.foldl (encodeRow cell_type) (encodeMatrix.init db M)).gene_counts ∧
    (encodeRow cell_type (pre.foldl (encodeRow cell_type) (encodeMatrix.init db M)) row).warnings
      = (pre.foldl (encodeRow cell_type) (encodeMatrix.init db M)).warnings + 1 ∧
    encodeMatrix db cell_type M
      = post.foldl (encodeRow cell_type)
          { pre.foldl (encodeRow cell_type) (encodeMatrix.init db M) with
            warnings :=
              (pre.foldl (encodeRow cell_type) (encodeMatrix.init db M)).warnings + 1 } ∧
    (∀ (d : EliasFanoDB) (values : List Int), eliasFanoCoding d [] values = (d, -1)) := by
  have hinit := init_fold_counts M.rows db.gene_counts hc
  have hc0 : CountsOK (encodeMatrix.init db M) := hinit.1
  have hk0 : (find (encodeMatrix.init db M).gene_counts row.1).isSome :=
    hinit.2.2 row (by rw [hM]; simp)
  obtain ⟨hc1, hk1⟩ := rows_counts cell_type pre (encodeMatrix.init db M) hc0
  have key := encodeRow_skip cell_type _ row hrow hc1 (hk1 _ hk0)
  refine ⟨key, ?_, ?_, ?_, ?_, ?_, fun d values => rfl⟩
  · rw [key]; rfl
  · rw [key]
  · rw [key]
  · rw [key]
  · rw [encodeMatrix_init, hM, List.foldl_append, List.foldl_cons, key]

/-- Witness of C16: a matrix of three rows whose second row has no expressing
cell: after the call the store holds two records and one warning. -/
theorem empty_row_skipped_witness :
    dbSize (encodeMatrix EliasFanoDB.empty "T" ⟨2, [("A", [1, 0]), ("B", [0, 0]), ("C", [0, 1])]⟩)
      = 2 ∧
    (encodeMatrix EliasFanoDB.empty "T"
      ⟨2, [("A", [1, 0]), ("B", [0, 0]), ("C", [0, 1])]⟩).warnings = 1 ∧
    (encodeRow "T" (([("A", [1, 0])] : List (String × List Int)).foldl (encodeRow "T")
        (encodeMatrix.init EliasFanoDB.empty
          ⟨2, [("A", [1, 0]), ("B", [0, 0]), ("C", [0, 1])]⟩)) ("B", [0, 0])).warnings
      = (([("A", [1, 0])] : List (String × List Int)).foldl (encodeRow "T")
        (encodeMatrix.init EliasFanoDB.empty
          ⟨2, [("A", [1, 0]), ("B", [0, 0]), ("C", [0, 1])]⟩)).warnings + 1 :=
  ⟨by decide, by decide,
    (empty_row_skipped EliasFanoDB.empty "T" ⟨2, [("A", [1, 0]), ("B", [0, 0]), ("C", [0, 1])]⟩
      [("A", [1, 0])] [("C", [0, 1])] ("B", [0, 0]) rfl (by decide)
      (by intro g c h; cases h)).2.2.2.2.1⟩


/-! ### The quantizer -/

theorem quantile_writes_inner (g : Nat → Bool) (is : List Nat) :
    ∀ st : Nat × List (Nat × Bool), st.2.map Prod.fst = List.range st.1 →
    (is.foldl (fun st i => (st.1 + 1, st.2 ++ [(st.1, g i)])) st).2.map Prod.fst
      = List.range (is.foldl (fun st i => (st.1 + 1, st.2 ++ [(st.1, g i)])) st).1 ∧
    (is.foldl (fun st i => (st.1 + 1, st.2 ++ [(st.1, g i)])) st).1 = st.1 + is.length := by
  induction is with
  | nil => intro st h; exact ⟨h, rfl⟩
  | cons i is ih =>
    intro st h
    have h1 : (st.1 + 1, st.2 ++ [(st.1, g i)]).2.map Prod.fst
        = List.range (st.1 + 1, st.2 ++ [(st.1, g i)]).1 := by
      simp [List.range_succ, h]
    obtain ⟨a, b⟩ := ih _ h1
    rw [List.foldl_cons]
    exact ⟨a, by rw [b, List.length_cons]; omega⟩

theorem quantile_writes_outer (t : Int → Nat) (bits : Nat) (v : List Int) :
    ∀ st : Nat × List (Nat × Bool), st.2.map Prod.fst = List.range st.1 →
    (v.foldl
      (fun (st : Nat × List (Nat × Bool)) s =>
        (List.range bits).foldl
          (fun st i => (st.1 + 1, st.2 ++ [(st.1, int2bin_core (t s) i)])) st) st).2.map Prod.fst
      = List.range (v.foldl
          (fun (st : Nat × List (Nat × Bool)) s =>
            (List.range bits).foldl
              (fun st i => (st.1 + 1, st.2 ++ [(st.1, int2bin_core (t s) i)])) st) st).1 ∧
    (v.foldl
      (fun (st : Nat × List (Nat × Bool)) s =>
        (List.range bits).foldl
          (fun st i => (st.1 + 1, st.2 ++ [(st.1, int2bin_core (t s) i)])) st) st).1
      = st.1 + v.length * bits := by
  induction v with
  | nil => intro st h; exact ⟨h, by simp⟩
  | cons s v ih =>
    intro st h
    obtain ⟨h1, h2⟩ := quantile_writes_inner (int2bin_core (t s)) (List.range bits) st h
    obtain ⟨a, b⟩ := ih _ h1
    rw [List.foldl_cons]
    refine ⟨a, ?_⟩
    rw [b, h2, List.length_range, List.length_cons]
    ring

/-- The loop of lines 153-161 writes the positions `0 .. n * bits - 1`, in
order, for a row of `n` cells. -/
theorem quantile_writes_positions (t : Int → Nat) (v : List Int) (bits : Nat) :
    (lognormalcdf.writes t v bits).map Prod.fst = List.range (v.length * bits) := by
  obtain ⟨a, b⟩ := quantile_writes_outer t bits v (0, []) rfl
  unfold lognormalcdf.writes
  rw [a, b, Nat.zero_add]

theorem foldl_keep {α β : Type} (l : List α) (t : β) : l.foldl (fun t _ => t) t = t := by
  induction l with
  | nil => rfl
  | cons a l ih => exact ih

/-! ### Claims on the quantizer and on findMarkerGenes -/

/-- C14 fails on the code: `lognormalcdf` gives the quantile buffer the size
`ids.size() * bits`, the number of expressing cells times `bits`, while its
loop writes the positions `0 .. n * bits - 1` for a row of `n` cells. For the
row `[1, 0]` (`n = 2`, one expressing cell, `bits = 2`) the buffer has 2
entries and the loop writes the positions 0, 1, 2, 3. -/
theorem quantile_buffer_short :
    (∀ (t : Int → Nat) (v : List Int) (bits : Nat),
      (lognormalcdf.writes t v bits).map Prod.fst = List.range (v.length * bits) ∧
      lognormalcdf.quantile_size (sparse_index 0 v) bits = (sparse_index 0 v).length * bits) ∧
    sparse_index 0 [1, 0] = [1] ∧
    lognormalcdf.quantile_size (sparse_index 0 [1, 0]) 2 = 2 ∧
    (∀ t : Int → Nat, (lognormalcdf.writes t [1, 0] 2).map Prod.fst = [0, 1, 2, 3]) ∧
    ¬ (3 < lognormalcdf.quantile_size (sparse_index 0 [1, 0]) 2) ∧
    lognormalcdf.quantile_size (sparse_index 0 [1, 0]) 2 ≠ ([1, 0] : List Int).length * 2 :=
  ⟨fun t v bits => ⟨quantile_writes_positions t v bits, rfl⟩, by decide, by decide,
    fun _ => rfl, by decide, by decide⟩

/-- C20 fails on the code: the accumulation of `lognormalcdf` reads `v[index]`
with the 1-based ids on the 0-based row, keeps the sum in an `int` and divides
it by `ids.size()` as an integer. For the row `[3, 0]` (ids `[1]`) it reads
the cell of value 0 and sets `mu = 0`, the mean is 3; for the row `[0, 3]`
(ids `[2]`) it reads past the end of the row; for the row `[1, 2, 0]` (ids
`[1, 2]`) it sets `mu = 1`, the mean is 3/2. -/
theorem quantizer_mean_off :
    sparse_index 0 [3, 0] = [1] ∧
    lognormalcdf.mu [1] [3, 0] = some 0 ∧
    rowMean [1] [3, 0] = 3 ∧
    sparse_index 0 [0, 3] = [2] ∧
    lognormalcdf.mu [2] [0, 3] = none ∧
    rowMean [2] [0, 3] = 3 ∧
    sparse_index 0 [1, 2, 0] = [1, 2] ∧
    lognormalcdf.mu [1, 2] [1, 2, 0] = some 1 ∧
    rowMean [1, 2] [1, 2, 0] = 3 / 2 :=
  ⟨by decide, by decide, by norm_num [rowMean], by decide, by decide, by norm_num [rowMean],
    by decide, by decide, by norm_num [rowMean]⟩

/-- C18 fails on the code: `findMarkerGenes` returns the empty list for every
miner, store, gene list and cutoff, also when the miner reports an itemset.
On the store of a slice where the genes `A` and `B` share two cells, with a
miner reporting the itemset `A, B` of support 2, the loop over the patterns
builds the view string `A,B` and the returned list is empty. -/
theorem findMarkerGenes_returns_nothing :
    (∀ (fptree_growth : List (List String) → Nat → List (List String × Nat))
        (db : EliasFanoDB) (gene_list : List String) (min_support_cutoff : Nat),
      findMarkerGenes fptree_growth db gene_list min_support_cutoff = []) ∧
    findMarkerGenes.transactions
        (encodeMatrix EliasFanoDB.empty "T" ⟨4, [("A", [1, 1, 1, 0]), ("B", [0, 1, 1, 1])]⟩)
        ["A", "B"]
      = [["A"], ["A", "B"], ["A", "B"], ["B"]] ∧
    findMarkerGenes.tfidf (fun _ _ => [(["A", "B"], 2)])
        (encodeMatrix EliasFanoDB.empty "T" ⟨4, [("A", [1, 1, 1, 0]), ("B", [0, 1, 1, 1])]⟩)
        ["A", "B"] 2
      = ["A,B"] ∧
    findMarkerGenes (fun _ _ => [(["A", "B"], 2)])
        (encodeMatrix EliasFanoDB.empty "T" ⟨4, [("A", [1, 1, 1, 0]), ("B", [0, 1, 1, 1])]⟩)
        ["A", "B"] 2
      = [] :=
  ⟨fun _ _ _ _ => foldl_keep _ _, by decide, by decide, by decide⟩


/-! ### The request list of findCellTypes -/

theorem foldl_assignIf_none {α υ : Type} (key : α → String) (val : α → Option υ)
    (l : List α) (h : ∀ x ∈ l, val x = none) :
    ∀ t0 : List (String × υ), l.foldl (fun t x => assignIf t (key x) (val x)) t0 = t0 := by
  induction l with
  | nil => intro t0; rfl
  | cons x l ih =>
    intro t0
    rw [List.foldl_cons, h x (List.mem_cons_self _ _)]
    exact ih (fun y hy => h y (List.mem_cons_of_mem _ hy)) t0

theorem length_dedup_lt {α : Type} [DecidableEq α] (l : List α) (h : ¬ l.Nodup) :
    l.dedup.length < l.length := by
  rcases Nat.lt_or_ge l.dedup.length l.length with hlt | hge
  · exact hlt
  · have heq : l.dedup = l :=
      (List.dedup_sublist l).eq_of_length_le hge
    exact absurd (List.dedup_eq_self.mp heq) h

/-- A request that names a gene of the index twice gets the empty answer:
`genes` counts the gene twice, the gene set of a node counts it once, and the
test `ct.second.size() != genes.size()` skips every node. -/
theorem findCellTypes_repeated (db : EliasFanoDB) (G : List String) (g : String)
    (hg : (find db.metadata g).isSome) (hrep : 2 ≤ G.count g) :
    findCellTypes db G = [] := by
  obtain ⟨hgenes, hk, hc, _⟩ := collect_inv db G
  have hnd : ¬ ((findCellTypes.collect db G).2).Nodup := by
    intro hn
    have h1 := List.nodup_iff_count_le_one.mp hn g
    rw [hgenes, List.count_filter (by simpa using hg)] at h1
    omega
  have hlt := length_dedup_lt _ hnd
  unfold findCellTypes
  apply foldl_assignIf_none
  intro ct hct
  obtain ⟨a, S⟩ := ct
  obtain ⟨_, hSnd, hmem⟩ := hc a S (find_of_mem hk hct)
  have hsub : S ⊆ ((findCellTypes.collect db G).2).dedup := by
    intro x hx
    obtain ⟨hxG, idx, hidx, _⟩ := (hmem x).mp hx
    rw [List.mem_dedup, hgenes, List.mem_filter]
    exact ⟨hxG, by rw [hidx]; rfl⟩
  have hle : S.length ≤ ((findCellTypes.collect db G).2).dedup.length :=
    (List.subperm_of_subset hSnd hsub).length_le
  unfold findCellTypes.emit
  rw [if_pos (by simp only [ne_eq]; omega)]

/-- One direction of the order independence of `findCellTypes` on a well-formed
store of good records. -/
theorem findCellTypes_perm_some (db : EliasFanoDB) (hwf : WF db) (hgood : AllGood db)
    (G1 G2 : List String) (hp : G1.Perm G2) (T : String) (cells : List Nat)
    (h : find (findCellTypes db G1) T = some cells) :
    find (findCellTypes db G2) T = some cells := by
  obtain ⟨a, S1, hS1, hT, hemit⟩ := (findCellTypes_find db hwf G1 T cells).mp h
  have hlen1 : S1.length = (findCellTypes.collect db G1).2.length := by
    by_contra hne
    unfold findCellTypes.emit at hemit
    rw [if_pos hne] at hemit
    exact Option.noConfusion hemit
  obtain ⟨hg1, _, hc1, _⟩ := collect_inv db G1
  obtain ⟨hg2, _, hc2, hd2⟩ := collect_inv db G2
  obtain ⟨hS1ne, hS1nd, hmem1⟩ := hc1 a S1 hS1
  have hgl : (findCellTypes.collect db G2).2.length = (findCellTypes.collect db G1).2.length := by
    rw [hg1, hg2]
    exact (hp.filter _).length_eq.symm
  rw [findCellTypes_find db hwf G2 T cells]
  cases hS2 : find (findCellTypes.collect db G2).1 a with
  | none =>
    obtain ⟨g0, hg0⟩ := List.exists_mem_of_ne_nil S1 hS1ne
    obtain ⟨hG, hn⟩ := (hmem1 g0).mp hg0
    exact absurd hn (hd2 a hS2 g0 (hp.subset hG))
  | some S2 =>
    obtain ⟨hS2ne, hS2nd, hmem2⟩ := hc2 a S2 hS2
    have hSS : ∀ g, g ∈ S2 ↔ g ∈ S1 := by
      intro g
      rw [hmem1 g, hmem2 g, hp.mem_iff]
    have hlenS : S2.length = S1.length :=
      ((List.perm_ext_iff_of_nodup hS2nd hS1nd).mpr hSS).length_eq
    have hlen2 : S2.length = (findCellTypes.collect db G2).2.length := by
      rw [hlenS, hlen1, hgl]
    have hnode1 : ∀ g ∈ S1, hasNode db g a := fun g hg => ((hmem1 g).mp hg).2
    have hnode2 : ∀ g ∈ S2, hasNode db g a := fun g hg => ((hmem2 g).mp hg).2
    obtain ⟨c1, c2, c3⟩ := (emit_spec db hwf hgood _ a S1 hS1ne hlen1 hnode1 cells).mp hemit
    refine ⟨a, S2, hS2, hT, (emit_spec db hwf hgood _ a S2 hS2ne hlen2 hnode2 cells).mpr
      ⟨c1, c2, fun x => ?_⟩⟩
    rw [c3 x]
    exact ⟨fun hx g hg => hx g ((hSS g).mp hg), fun hx g hg => hx g ((hSS g).mpr hg)⟩

/-- The answer of `findCellTypes` on a well-formed store of good records does
not depend on the order of the request. -/
theorem findCellTypes_perm (db : EliasFanoDB) (hwf : WF db) (hgood : AllGood db)
    (G1 G2 : List String) (hp : G1.Perm G2) (T : String) :
    find (findCellTypes db G1) T = find (findCellTypes db G2) T := by
  cases h1 : find (findCellTypes db G1) T with
  | some c => exact (findCellTypes_perm_some db hwf hgood G1 G2 hp T c h1).symm
  | none =>
    cases h2 : find (findCellTypes db G2) T with
    | none => rfl
    | some c =>
      rw [findCellTypes_perm_some db hwf hgood G2 G1 hp.symm T c h2] at h1
      exact Option.noConfusion h1

/-! ### Claims on the request list of findCellTypes -/

/-- C21 fails on the code for repeated names: the requests `[A, A]` and `[A]`
name the same set of genes, yet on the store of seed scenario 6 `findCellTypes`
answers `T ↦ [1, 5]` to `[A]` and nothing to `[A, A]`, because the vector
`genes` holds `A` twice while the gene set of the node `T` holds it once. On
the store of seed scenario 4 the requests `[A, B]` and `[B, A]` get the same
answer `T ↦ [2, 3]` and `[A, B, A]` gets nothing. -/
theorem findCellTypes_repeated_gene :
    (∀ x : String, x ∈ ["A", "A"] ↔ x ∈ ["A"]) ∧
    findCellTypes exampleDB1 ["A"] = [("T", [1, 5])] ∧
    findCellTypes.collect exampleDB1 ["A", "A"] = ([(0, ["A"])], ["A", "A"]) ∧
    findCellTypes exampleDB1 ["A", "A"] = [] ∧
    find (findCellTypes exampleDB1 ["A"]) "T" ≠ find (findCellTypes exampleDB1 ["A", "A"]) "T" ∧
    findCellTypes
        (encodeMatrix EliasFanoDB.empty "T" ⟨4, [("A", [1, 1, 1, 0]), ("B", [0, 1, 1, 1])]⟩)
        ["A", "B"] = [("T", [2, 3])] ∧
    findCellTypes
        (encodeMatrix EliasFanoDB.empty "T" ⟨4, [("A", [1, 1, 1, 0]), ("B", [0, 1, 1, 1])]⟩)
        ["B", "A"] = [("T", [2, 3])] ∧
    findCellTypes
        (encodeMatrix EliasFanoDB.empty "T" ⟨4, [("A", [1, 1, 1, 0]), ("B", [0, 1, 1, 1])]⟩)
        ["A", "B", "A"] = [] :=
  ⟨fun x => by simp, by decide, by decide, by decide, by decide, by decide, by decide,
    by decide⟩


/-! ### The call of lognormalcdf inside the ingest -/

theorem accumulate_none (v : List Int) (ids : List Nat)
    (h : ∃ index ∈ ids, v.length ≤ index) :
    ∀ acc, lognormalcdf.accumulate v ids acc = none := by
  induction ids with
  | nil => obtain ⟨_, h, _⟩ := h; simp at h
  | cons i ids ih =>
    intro acc
    cases hv : v[i]? with
    | none => simp [lognormalcdf.accumulate, hv]
    | some x =>
      have hi : i < v.length := by
        by_contra hc
        rw [List.getElem?_eq_none (by omega)] at hv
        exact Option.noConfusion hv
      have h' : ∃ index ∈ ids, v.length ≤ index := by
        obtain ⟨j, hj, hle⟩ := h
        rcases List.mem_cons.mp hj with rfl | hj'
        · omega
        · exact ⟨j, hj', hle⟩
      simp only [lognormalcdf.accumulate, hv]
      split
      · exact ih h' _
      · rfl

/-- The loop of lines 153-161 stays inside a buffer of `N` entries exactly
when the row has at most `N` cells times `bits`. -/
theorem writes_all (t : Int → Nat) (v : List Int) (bits N : Nat) :
    (lognormalcdf.writes t v bits).all (fun w => decide (w.1 < N)) = true
      ↔ v.length * bits ≤ N := by
  have hpos := quantile_writes_positions t v bits
  rw [List.all_eq_true]
  constructor
  · intro h
    by_contra hc
    have hmem : N ∈ (lognormalcdf.writes t v bits).map Prod.fst := by
      rw [hpos, List.mem_range]; omega
    obtain ⟨w, hw, hwN⟩ := List.mem_map.mp hmem
    have := h w hw
    simp only [decide_eq_true_eq] at this
    omega
  · intro h w hw
    have hmem : w.1 ∈ (lognormalcdf.writes t v bits).map Prod.fst :=
      List.mem_map.mpr ⟨w, hw, rfl⟩
    rw [hpos, List.mem_range] at hmem
    simp only [decide_eq_true_eq]
    omega

/-- The call of `lognormalcdf` is undefined for every non-empty strictly
increasing list of 1-based positions of a row: when the last cell of the row
is among them the accumulation reads `v[n]`, past the end of the row;
otherwise fewer than `n` positions are listed and the loop writes `n * bits`
entries into a buffer of fewer. -/
theorem lognormalcdf_undefined (t : Int → Nat) (ids : List Nat) (v : List Int) (bits : Nat)
    (hne : ids ≠ []) (hs : ids.Sorted (· < ·)) (hpos : ∀ a ∈ ids, 0 < a)
    (hmax : ∀ a ∈ ids, a ≤ v.length) (hb : 0 < bits) :
    lognormalcdf.defined t ids v bits = false := by
  unfold lognormalcdf.defined
  by_cases hmem : v.length ∈ ids
  · rw [accumulate_none v ids ⟨v.length, hmem, le_refl _⟩ 0]
    rfl
  · have hlt : ids.length < v.length := by
      obtain ⟨a, ha⟩ := List.exists_mem_of_ne_nil ids hne
      have h1 := hpos a ha
      have h2 := hmax a ha
      have hle : ids.length ≤ v.length - 1 := by
        apply length_le_of_sorted ids (v.length - 1) hs hpos
        intro b hb'
        have h3 := hmax b hb'
        have h4 : b ≠ v.length := fun e => hmem (e ▸ hb')
        omega
      omega
    have hw : (lognormalcdf.writes t v bits).all
        (fun w => decide (w.1 < lognormalcdf.quantile_size ids bits)) = false := by
      rw [Bool.eq_false_iff]
      intro h
      rw [writes_all] at h
      unfold lognormalcdf.quantile_size at h
      have := Nat.mul_lt_mul_of_pos_right hlt hb
      omega
    rw [hw, Bool.and_false]

theorem eliasFanoCoding_checked_none (t : Int → Nat) (db : EliasFanoDB) (ids : List Nat)
    (values : List Int) (hne : ids ≠ []) (hs : ids.Sorted (· < ·)) (hpos : ∀ a ∈ ids, 0 < a)
    (hmax : ∀ a ∈ ids, a ≤ values.length) :
    eliasFanoCoding.checked t db ids values = none := by
  have hemp : ids.isEmpty = false := by
    cases ids with
    | nil => exact absurd rfl hne
    | cons a as => rfl
  unfold eliasFanoCoding.checked
  rw [hemp, lognormalcdf_undefined t ids values 2 hne hs hpos hmax (by decide)]
  rfl

theorem encodeRow_checked_none (t : Int → Nat) (ct : String) (db : EliasFanoDB)
    (row : String × List Int) (h : ∃ e ∈ row.2, e > 0) :
    encodeRow.checked t ct db row = none := by
  have hlen : row.2.length ≠ 0 := by
    obtain ⟨e, he, _⟩ := h
    intro h0
    rw [List.length_eq_zero.mp h0] at he
    simp at he
  obtain ⟨hs, hb⟩ := sparse_index_bounds row.2 0
  unfold encodeRow.checked
  rw [if_neg hlen]
  simp only
  rw [eliasFanoCoding_checked_none t _ _ row.2 (sparse_index_ne_nil row.2 h 0) hs
    (fun a ha => (hb a ha).1) (fun a ha => by have := (hb a ha).2; omega)]

/-- A row without an expressing cell passes the row loop with the call of
`lognormalcdf` never made, as `encodeRow` says. -/
theorem encodeRow_checked_some (t : Int → Nat) (ct : String) (db : EliasFanoDB)
    (row : String × List Int) (h : ∀ e ∈ row.2, ¬ e > 0) :
    encodeRow.checked t ct db row = some (encodeRow ct db row) := by
  unfold encodeRow.checked encodeRow
  split
  · rfl
  · simp only [sparse_index_nil row.2 h 0, eliasFanoCoding.checked, eliasFanoCoding,
      List.isEmpty_nil, if_true]

theorem foldl_bind_none {α β : Type} (f : β → α → Option β) (l : List α) :
    l.foldl (fun st a => st.bind (fun b => f b a)) none = none := by
  induction l with
  | nil => rfl
  | cons a l ih => exact ih

theorem rows_checked_none (t : Int → Nat) (ct : String) (rows : List (String × List Int))
    (h : ∃ row ∈ rows, ∃ e ∈ row.2, e > 0) :
    ∀ st : Option EliasFanoDB,
      rows.foldl (fun st row => st.bind (fun db => encodeRow.checked t ct db row)) st = none := by
  induction rows with
  | nil => obtain ⟨_, h, _⟩ := h; simp at h
  | cons r rows ih =>
    intro st
    rw [List.foldl_cons]
    by_cases hr : ∃ e ∈ r.2, e > 0
    · have : st.bind (fun db => encodeRow.checked t ct db r) = none := by
        cases st with
        | none => rfl
        | some db => exact encodeRow_checked_none t ct db r hr
      rw [this]
      exact foldl_bind_none _ rows
    · obtain ⟨row, hrow, hpos⟩ := h
      rcases List.mem_cons.mp hrow with rfl | hrow'
      · exact absurd hpos hr
      · exact ih ⟨row, hrow', hpos⟩ _

theorem rows_checked_some (t : Int → Nat) (ct : String) (rows : List (String × List Int))
    (h : ∀ row ∈ rows, ∀ e ∈ row.2, ¬ e > 0) :
    ∀ db : EliasFanoDB,
      rows.foldl (fun st row => st.bind (fun db => encodeRow.checked t ct db row)) (some db)
        = some (rows.foldl (encodeRow ct) db) := by
  induction rows with
  | nil => intro db; rfl
  | cons r rows ih =>
    intro db
    rw [List.foldl_cons, List.foldl_cons, Option.some_bind,
      encodeRow_checked_some t ct db r (h r (List.mem_cons_self _ _))]
    exact ih (fun row hrow => h row (List.mem_cons_of_mem _ hrow)) _

theorem rows_no_posting (ct : String) (rows : List (String × List Int))
    (h : ∀ row ∈ rows, ∀ e ∈ row.2, ¬ e > 0) :
    ∀ db : EliasFanoDB,
      (rows.foldl (encodeRow ct) db).ef_data = db.ef_data ∧
      (rows.foldl (encodeRow ct) db).metadata = db.metadata := by
  induction rows with
  | nil => intro db; exact ⟨rfl, rfl⟩
  | cons r rows ih =>
    intro db
    obtain ⟨h1, _, h3⟩ := (encodeRow_index ct db r).1
      (sparse_index_nil r.2 (h r (List.mem_cons_self _ _)) 0)
    obtain ⟨i1, i2⟩ := ih (fun row hrow => h row (List.mem_cons_of_mem _ hrow))
      (encodeRow ct db r)
    rw [List.foldl_cons]
    exact ⟨i1.trans h1, i2.trans h3⟩

/-- Method `encodeMatrix` with the call of `lognormalcdf` is undefined as soon
as one row of the matrix has an expressing cell. -/
theorem encodeMatrix_checked_none (t : Int → Nat) (db : EliasFanoDB) (ct : String)
    (M : NumericMatrix) (h : ∃ row ∈ M.rows, ∃ e ∈ row.2, e > 0) :
    encodeMatrix.checked t db ct M = none :=
  rows_checked_none t ct M.rows h _

/-- Method `encodeMatrix` with the call of `lognormalcdf` is defined only on a
matrix without any expressing cell; there it does what `encodeMatrix` says,
and it leaves the posting store and the two-level map as they are. -/
theorem encodeMatrix_checked_some (t : Int → Nat) (db db' : EliasFanoDB) (ct : String)
    (M : NumericMatrix) (h : encodeMatrix.checked t db ct M = some db') :
    (∀ row ∈ M.rows, ∀ e ∈ row.2, ¬ e > 0) ∧ db' = encodeMatrix db ct M ∧
    db'.ef_data = db.ef_data ∧ db'.metadata = db.metadata := by
  have hall : ∀ row ∈ M.rows, ∀ e ∈ row.2, ¬ e > 0 := by
    intro row hrow e he hpos
    rw [encodeMatrix_checked_none t db ct M ⟨row, hrow, e, he, hpos⟩] at h
    exact Option.noConfusion h
  have heq : db' = encodeMatrix db ct M := by
    unfold encodeMatrix.checked at h
    rw [rows_checked_some t ct M.rows hall] at h
    injection h with h
    rw [← h, encodeMatrix_init]
  obtain ⟨e1, e2⟩ := rows_no_posting ct M.rows hall (encodeMatrix.init db M)
  refine ⟨hall, heq, ?_, ?_⟩
  · rw [heq, encodeMatrix_init, e1]; rfl
  · rw [heq, encodeMatrix_init, e2]; rfl

set_option maxRecDepth 8192

theorem exampleRow200_length : exampleRow200.length = 200 := by
  decide

theorem exampleRow200_writes (t : Int → Nat) :
    (lognormalcdf.writes t exampleRow200 2).map Prod.fst = List.range 400 := by
  rw [quantile_writes_positions, exampleRow200_length]

/-! ### Claims that rest on the ingest of an expressing row -/

/-- C1 fails on the code: `eliasFanoCoding` calls `lognormalcdf(ids, values, 2)`
(line 240) before it builds the bit halves, and for every admitted input that
call is undefined. For `ids = [42]` in a row of 200 cells the quantile buffer
gets 2 entries and the loop writes the positions 0 to 399; for seed scenario 1,
`ids = [1, 3, 5, 7]` in a row of 8 cells, the buffer gets 8 entries and the
loop writes the positions 0 to 15. The method has no defined result to
decode. -/
theorem round_trip_call_undefined :
    (∀ (t : Int → Nat) (db : EliasFanoDB),
      eliasFanoCoding.checked t db [42] exampleRow200 = none ∧
      eliasFanoCoding.checked t db [1, 3, 5, 7] [1, 0, 1, 0, 1, 0, 1, 0] = none) ∧
    exampleRow200.length = 200 ∧ sparse_index 0 exampleRow200 = [42] ∧
    lognormalcdf.quantile_size [42] 2 = 2 ∧
    (∀ t : Int → Nat, (lognormalcdf.writes t exampleRow200 2).map Prod.fst = List.range 400) ∧
    lognormalcdf.quantile_size [1, 3, 5, 7] 2 = 8 ∧
    (∀ t : Int → Nat,
      (lognormalcdf.writes t [1, 0, 1, 0, 1, 0, 1, 0] 2).map Prod.fst = List.range 16) :=
  ⟨fun t db =>
      ⟨eliasFanoCoding_checked_none t db [42] exampleRow200 (by decide) (by decide)
          (by decide) (by decide),
        eliasFanoCoding_checked_none t db [1, 3, 5, 7] [1, 0, 1, 0, 1, 0, 1, 0] (by decide)
          (by decide) (by decide) (by decide)⟩,
    exampleRow200_length, by decide, by decide,
    exampleRow200_writes, by decide,
    fun t => quantile_writes_positions t [1, 0, 1, 0, 1, 0, 1, 0] 2⟩

end ScFind
